import Mathlib

/-!
Verification development for the `chous` file-structure linter.

The definitions below are a shallow embedding, translated from the
TypeScript sources of the repository:

  * `src/utils/naming.ts`        — naming-style checker
  * `src/rules/validators/renameGlob.ts` — condition evaluator
  * `src/rules/lint.ts`          — rule evaluation engine
  * `src/parser.ts`              — rules-language parser

Filesystem access, glob execution and the JavaScript `RegExp` engine are
external collaborators of the core; they are modelled as explicit function
parameters (records of pure functions), exactly as the core consumes them
through its narrow interfaces.  Paths are represented root-relatively, so
`resolve(root, p)` and `toDisplayPath(p, root)` of the source become the
identity on the model's path strings.
-/

namespace Chous

/-! ## Character classes and string helpers

JavaScript regular-expression character classes, restricted to the ASCII
range actually exercised by the linter's fixed internal patterns. -/

/-- JS `\d`. -/
def isDigitC (c : Char) : Bool := Char.ofNat 48 ≤ c ∧ c ≤ Char.ofNat 57

/-- JS `[a-z]`. -/
def isLowerC (c : Char) : Bool := Char.ofNat 97 ≤ c ∧ c ≤ Char.ofNat 122

/-- JS `[A-Z]`. -/
def isUpperC (c : Char) : Bool := Char.ofNat 65 ≤ c ∧ c ≤ Char.ofNat 90

/-- JS `[a-zA-Z0-9]`. -/
def isAlnumC (c : Char) : Bool := isLowerC c || isUpperC c || isDigitC c

/-- JS `\w` = `[A-Za-z0-9_]`. -/
def isWordC (c : Char) : Bool := isAlnumC c || c = Char.ofNat 95

/-- JS `[a-z0-9]` (also covering `[A-Z0-9]` et al. by combining the above). -/
def isLowerAlnumC (c : Char) : Bool := isLowerC c || isDigitC c

def isUpperAlnumC (c : Char) : Bool := isUpperC c || isDigitC c

/-- `str.every` over the characters of a string. -/
def strAll (p : Char → Bool) (s : String) : Bool := s.data.all p

/-- Nonempty and every character satisfies `p` (JS `/^[p]+$/`). -/
def strAll1 (p : Char → Bool) (s : String) : Bool := !s.data.isEmpty && s.data.all p

/-- JS `String.prototype.includes` (substring containment). -/
def strContains (s sub : String) : Bool :=
  (List.range (s.data.length + 1)).any (fun i => sub.data.isPrefixOf (s.data.drop i))

/-- ASCII case mapping (the fragment of JS `toLowerCase`/`toUpperCase`
exercised by the linter's patterns). -/
def jsLowerChar (c : Char) : Char :=
  if isUpperC c then Char.ofNat (c.toNat + 32) else c

def jsUpperChar (c : Char) : Char :=
  if isLowerC c then Char.ofNat (c.toNat - 32) else c

/-- JS `String.prototype.toLowerCase`, ASCII fragment. -/
def jsToLower (s : String) : String := String.mk (s.data.map jsLowerChar)

/-- `s.startsWith p` over the character lists. -/
def strStarts (s p : String) : Bool := p.data.isPrefixOf s.data

/-- `s.endsWith p` over the character lists. -/
def strEnds (s p : String) : Bool := p.data.reverse.isPrefixOf s.data.reverse

/-- `String.splitOn` for a single-character separator, over lists. -/
def splitOnCharL (c : Char) : List Char → List (List Char)
  | [] => [[]]
  | x :: rest =>
    let r := splitOnCharL c rest
    if x = c then [] :: r
    else match r with
      | h :: t => (x :: h) :: t
      | [] => [[x]]

def strSplitChar (s : String) (c : Char) : List String :=
  (splitOnCharL c s.data).map String.mk

/-- `Array.prototype.join(", ")`-style interleaving. -/
def joinWithSep (sep : String) : List String → String
  | [] => ""
  | [x] => x
  | x :: rest => x ++ sep ++ joinWithSep sep rest

/-! ## Naming style checker — `src/utils/naming.ts` -/

/-- `NamingStyle` from `src/types.ts`. -/
inductive NamingStyle
  | pascalCase | camelCase | kebabCase | snakeCase | screamingSnakeCase | flatcase
deriving DecidableEq, Repr

/-- A compiled JS regular expression, as the naming checker consumes it:
`test`, and `replace(re, "")` (written `rm`).  The `RegExp` engine is an
external collaborator, so both are abstract functions. -/
structure JsRegex where
  test : String → Bool
  rm : String → String

/-- The JS `new RegExp(body, flags)` constructor: may fail (the source
wraps it in try/catch and returns `null`). -/
def RegexCompile := String → String → Option JsRegex

/-- Characters allowed in a regex-literal flags position (`[gimuy]`). -/
def isRegexFlagC (c : Char) : Bool :=
  c = 'g' || c = 'i' || c = 'm' || c = 'u' || c = 'y'

/-- Split `"/body/flags"` into `(body, flags)`: the shape test
`/^\/(.+)\/([gimuy]*)$/` of `parseRegexPattern` (naming.ts:9).  The greedy
`(.+)` makes the delimiting `/` the last slash of the string, whose suffix
must consist of flag characters only, and the body must be nonempty. -/
def splitRegexLiteral (s : String) : Option (String × String) :=
  match s.data with
  | [] => none
  | c :: rest =>
    if c ≠ '/' then none
    else
      let r := rest.reverse
      let flagsRev := r.takeWhile (fun ch => ch ≠ '/')
      match r.drop flagsRev.length with
      | [] => none  -- no closing slash
      | _ :: bodyRev =>
        let body := bodyRev.reverse
        if body.isEmpty then none
        else if flagsRev.all isRegexFlagC then
          some (String.mk body, String.mk flagsRev.reverse)
        else none

/-- `parseRegexPattern` (naming.ts:7): shape check, then compile. -/
def parseRegexPattern (compile : RegexCompile) (pattern : String) : Option JsRegex :=
  match splitRegexLiteral pattern with
  | none => none
  | some (body, flags) => compile body flags

/-- `/^\([^)]+\)\?/.test body`: body starts with `(`, has a first `)` with
at least one character before it, immediately followed by `?`. -/
def startsWithOptionalGroup (body : String) : Bool :=
  match body.data with
  | '(' :: rest =>
    let inner := rest.takeWhile (fun ch => ch ≠ ')')
    if inner.isEmpty then false
    else match rest.drop inner.length with
      | ')' :: '?' :: _ => true
      | _ => false
  | _ => false

/-- `isOptionalPattern` (naming.ts:58). -/
def isOptionalPattern (pattern : String) : Bool :=
  match splitRegexLiteral pattern with
  | none => false
  | some (body, _) => strEnds body ")?" || startsWithOptionalGroup body

/-- The fixed compound-extension table of `getNameWithoutExtension`
(naming.ts:30). -/
def compoundExtensions : List String :=
  [".d.ts", ".min.js", ".min.css",
   ".test.ts", ".test.js", ".test.tsx", ".test.jsx",
   ".spec.ts", ".spec.js", ".spec.tsx", ".spec.jsx",
   ".stories.ts", ".stories.js", ".stories.tsx", ".stories.jsx"]

/-- Strip everything from the last `.` on (JS `lastIndexOf`/`slice`); the
whole name when it has no dot. -/
def stripLastExtension (name : String) : String :=
  let r := name.data.reverse
  let afterDot := r.takeWhile (fun ch => ch ≠ '.')
  match r.drop afterDot.length with
  | [] => name               -- lastIndexOf(".") < 0
  | _ :: stemRev => String.mk stemRev.reverse

/-- `getNameWithoutExtension` (naming.ts:27): first matching compound
extension wins, else single-extension stripping. -/
def getNameWithoutExtension (name : String) : String :=
  match compoundExtensions.find? (fun ext => strEnds name ext) with
  | some ext => String.mk (name.data.take (name.data.length - ext.data.length))
  | none => stripLastExtension name

/-- JS `/^[\w._-]+$/` (naming.ts:99). -/
def isWordLikeName (s : String) : Bool :=
  strAll1 (fun c => isWordC c || c = '.' || c = '-') s

/-- JS `/^\d+$/` (naming.ts:152). -/
def isPureNumeric (s : String) : Bool := strAll1 isDigitC s

/-- One dot-separated part of a kebab-case stem:
`/^[a-z0-9][a-z0-9]*(-[a-z0-9]+)*$/` (with the single-character shortcut of
naming.ts:180 subsumed).  Equivalently: every `-`-separated segment is a
nonempty run of `[a-z0-9]`. -/
def kebabPartOk (part : String) : Bool :=
  (strSplitChar part (Char.ofNat 45)).all (fun seg => strAll1 isLowerAlnumC seg)

/-- `checkStem` (naming.ts:164). -/
def checkStem (stem : String) (style : NamingStyle) : Bool :=
  match style with
  | .pascalCase =>
    match stem.data with
    | c :: rest => isUpperC c && rest.all isAlnumC
    | [] => false
  | .camelCase =>
    match stem.data with
    | c :: rest => isLowerC c && rest.all isAlnumC
    | [] => false
  | .kebabCase =>
    (strSplitChar stem (Char.ofNat 46)).all kebabPartOk
  | .snakeCase =>
    -- `/^_{2,}$/` pure-underscore names, else `/^_*[a-z0-9]+[a-z0-9_]*$/`:
    -- all characters in `[a-z0-9_]` with at least one non-underscore.
    if stem.data.length ≥ 2 && stem.data.all (fun c => c = '_') then true
    else
      strAll1 (fun c => isLowerAlnumC c || c = '_') stem
        && stem.data.any (fun c => c ≠ '_')
  | .screamingSnakeCase =>
    -- `/^[A-Z][A-Z0-9]*(_[A-Z0-9]+)*$/`: `_`-separated nonempty segments of
    -- `[A-Z0-9]`, the first starting with `[A-Z]`.
    match (strSplitChar stem (Char.ofNat 95)) with
    | [] => false
    | first :: rest =>
      (match first.data with
       | c :: cs => isUpperC c && cs.all isUpperAlnumC
       | [] => false)
      && rest.all (fun seg => strAll1 isUpperAlnumC seg)
  | .flatcase => strAll1 isLowerAlnumC stem

/-- `NamingCheckResult` (naming.ts:80); `invalidPre`/`invalidSuf` carry the
offending pattern as the source's `reason: "prefix" | "suffix"` cases do. -/
inductive NamingCheckResult
  | valid
  | invalidPre (pattern : String)
  | invalidSuf (pattern : String)
  | invalidStyle (style : NamingStyle)
deriving DecidableEq, Repr

/-- The suffix-handling block of `checkNamingStyle` (naming.ts:109-125):
either an early failure result, or the possibly-stripped stem. -/
def applySuffixPhase (compile : RegexCompile) (nameWithoutExt : String)
    (suffixPat : Option String) : Except NamingCheckResult String :=
  match suffixPat with
  | none => .ok nameWithoutExt
  | some suf =>
    match parseRegexPattern compile suf with
    | none => .ok nameWithoutExt
    | some re =>
      let isOpt := isOptionalPattern suf
      let matched := re.test nameWithoutExt
      if !matched && !isOpt then .error (.invalidSuf suf)
      else if matched then .ok (re.rm nameWithoutExt)
      else .ok nameWithoutExt

/-- The prefix-handling block of `checkNamingStyle` (naming.ts:132-148). -/
def applyPrefixPhase (compile : RegexCompile) (nameWithoutExt : String)
    (prefixPat : Option String) : Except NamingCheckResult String :=
  match prefixPat with
  | none => .ok nameWithoutExt
  | some pre =>
    match parseRegexPattern compile pre with
    | none => .ok nameWithoutExt
    | some re =>
      let isOpt := isOptionalPattern pre
      let matched := re.test nameWithoutExt
      if !matched && !isOpt then .error (.invalidPre pre)
      else if matched then .ok (re.rm nameWithoutExt)
      else .ok nameWithoutExt

/-- `checkNamingStyle` (naming.ts:86).  `compile` is the ambient `RegExp`
engine. -/
def checkNamingStyle (compile : RegexCompile) (name : String) (style : NamingStyle)
    (prefixPat : Option String := none) (suffixPat : Option String := none) :
    NamingCheckResult :=
  let nameWithoutExt := getNameWithoutExtension name
  if !isWordLikeName nameWithoutExt then .valid
  else
    match applySuffixPhase compile nameWithoutExt suffixPat with
    | .error r => r
    | .ok afterSuf =>
      match applyPrefixPhase compile afterSuf prefixPat with
      | .error r => r
      | .ok stem =>
        if isPureNumeric stem then .valid
        else if checkStem stem style then .valid
        else .invalidStyle style

/-! ## Condition evaluator — `src/rules/validators/renameGlob.ts` (when.ts part) -/

/-- `Condition` from `src/types.ts`, as consumed by `evaluateCondition`.
The `fileSize` operator is kept as the raw string the source compares
against `">"` / `"<"`. -/
inductive Condition
  | isEmpty
  | contains (pattern : String)
  | existsGlob (pattern : String)
  | parentMatches (style : NamingStyle)
  | fileSize (op : String) (value : String)
deriving DecidableEq, Repr

/-- A directory entry as returned by `listTopLevel` (fsutil). -/
structure FsEntry where
  name : String
  isDir : Bool
deriving DecidableEq, Repr

/-- The filesystem/glob collaborators `evaluateCondition` consumes
(`isDirectory`, `listTopLevel`, `cachedGlobScan`, `stat`), plus the
`RegExp` engine used transitively by `checkNamingStyle`.  `globScan pat cwd
onlyFiles` returns the absolute matches of one glob; `statSize` is `none`
when `stat` throws. -/
structure CondCtx where
  isDirectory : String → Bool
  listTopLevel : String → List FsEntry
  globScan : String → String → Bool → List String
  statSize : String → Option Nat
  compile : RegexCompile

/-- POSIX `dirname` as used on the model's root-relative paths: everything
before the last `/`, or `"."` when there is none. -/
def posixDirname (p : String) : String :=
  let r := p.data.reverse
  let last := r.takeWhile (fun ch => ch ≠ '/')
  match r.drop last.length with
  | [] => "."
  | _ :: restRev => if restRev.isEmpty then "/" else String.mk restRev.reverse

/-- POSIX `basename`: the part after the last `/`. -/
def posixBasename (p : String) : String :=
  String.mk (p.data.reverse.takeWhile (fun ch => ch ≠ '/')).reverse

/-- Decimal-fraction parser for the capture `(\d+(?:\.\d+)?)` of the size
literal, as an exact rational.  (The source uses `parseFloat` and IEEE
doubles; the claims proved below never depend on rounding, only on whether
the literal parses at all.) -/
def parseDecimal (intPart fracPart : List Char) : ℚ :=
  let iv : ℕ := intPart.foldl (fun acc c => acc * 10 + (c.toNat - 48)) 0
  let fv : ℕ := fracPart.foldl (fun acc c => acc * 10 + (c.toNat - 48)) 0
  (iv : ℚ) + (fv : ℚ) / ((10 : ℚ) ^ fracPart.length)

/-- JS `\s` for the size literal's `\s*`. -/
def isJsWs (c : Char) : Bool :=
  c = ' ' || c = Char.ofNat 9 || c = Char.ofNat 10 || c = Char.ofNat 13 ||
  c = Char.ofNat 11 || c = Char.ofNat 12

/-- The size-literal match `/^(\d+(?:\.\d+)?)\s*(B|KB|MB|GB|TB)$/` applied
to the upper-cased condition value (renameGlob.ts condition evaluator):
returns the threshold in bytes, `none` when the literal does not parse. -/
def parseSizeSpec (value : String) : Option ℚ :=
  let s := value.data.map jsUpperChar
  let intPart := s.takeWhile isDigitC
  if intPart.isEmpty then none
  else
    let rest := s.drop intPart.length
    let step : Option (List Char × List Char) :=
      match rest with
      | '.' :: r2 =>
        let fracPart := r2.takeWhile isDigitC
        if fracPart.isEmpty then none
        else some (fracPart, r2.drop fracPart.length)
      | _ => some ([], rest)
    match step with
    | none => none
    | some (fracPart, rest2) =>
      let rest3 := rest2.dropWhile isJsWs
      let v := parseDecimal intPart fracPart
      match String.mk rest3 with
      | "B" => some v
      | "KB" => some (v * 1024)
      | "MB" => some (v * 1024 * 1024)
      | "GB" => some (v * 1024 * 1024 * 1024)
      | "TB" => some (v * 1024 * 1024 * 1024 * 1024)
      | _ => none

/-- `evaluateCondition` (renameGlob.ts, condition-evaluator part, lines
84-168).  `root` is the workspace root path. -/
def evaluateCondition (ctx : CondCtx) (root : String) (condition : Condition)
    (targetPath : String) : Bool :=
  match condition with
  | .isEmpty =>
    if !ctx.isDirectory targetPath then false
    else (ctx.listTopLevel targetPath).isEmpty
  | .contains pattern =>
    if !ctx.isDirectory targetPath then false
    else
      let entries := ctx.listTopLevel targetPath
      if entries.any (fun e => e.name = pattern) then true
      else !(ctx.globScan pattern targetPath true).isEmpty
  | .existsGlob pattern =>
    !(ctx.globScan pattern root false).isEmpty
  | .parentMatches style =>
    let parentDirName := posixBasename (posixDirname targetPath)
    checkNamingStyle ctx.compile parentDirName style = .valid
  | .fileSize op value =>
    if ctx.isDirectory targetPath then false
    else
      match ctx.statSize targetPath with
      | none => false          -- stat threw: caught, returns false
      | some sizeBytes =>
        match parseSizeSpec value with
        | none => false        -- literal does not parse
        | some sizeInBytes =>
          if op = ">" then decide ((sizeBytes : ℚ) > sizeInBytes)
          else if op = "<" then decide ((sizeBytes : ℚ) < sizeInBytes)
          else false

/-- `evaluateWhenConditions` (renameGlob.ts:179-197): short-circuiting
conjunction over the condition list; absent or empty list is `true`. -/
def evaluateWhenList (ctx : CondCtx) (root : String) (targetPath : String) :
    List Condition → Bool
  | [] => true
  | c :: rest =>
    if !evaluateCondition ctx root c targetPath then false
    else evaluateWhenList ctx root targetPath rest

def evaluateWhenConditions (ctx : CondCtx) (root : String)
    (when : Option (List Condition)) (targetPath : String) : Bool :=
  match when with
  | none => true
  | some l => if l.isEmpty then true else evaluateWhenList ctx root targetPath l

/-! ## Data model — `src/types.ts` -/

inductive RuleKind
  | move | thoseOnly | renameDir | renameGlob | inDirOnly | naming
  | no | has | allow | optional
deriving DecidableEq, Repr

inductive Mode | strict | permissive
deriving DecidableEq, Repr

inductive FileType | files | dirs
deriving DecidableEq, Repr

inductive NamingTarget | inDir | those
deriving DecidableEq, Repr

/-- `IssueMessage` from `src/types.ts`, restricted to the message kinds the
modelled handlers emit.  `namingMsg` stands for the three `issue.naming.*`
keys produced by the naming handler. -/
inductive Msg
  | moveDestMustBeDir (fromGlob toDir : String)
  | moveShouldMoveToDir (dir : String)
  | moveUnsafeManual (dir : String)
  | thoseOnlyForbidden (only : List String) (pattern : String)
  | renameDirShouldRenameTo (toPath : String)
  | renameDirRemoveEmptyDir (dir toPath : String)
  | renameDirShouldMigrateTo (toPath : String)
  | renameGlobShouldRenameTo (toPath : String)
  | renameGlobTargetExistsManual (toPath : String)
  | renameGlobCannotInferTarget
  | noForbidden (name : String)
  | hasMustExist (name : String)
  | inDirOnlyDirMustExist (only : List String)
  | inDirOnlyForbidden (dir : String) (only : List String)
  | namingMsg (key : String) (param : String)
deriving DecidableEq, Repr

inductive Category | missing | forbidden
deriving DecidableEq, Repr

inductive Severity | error | warn
deriving DecidableEq, Repr

/-- `Issue` from `src/types.ts`.  `origin` is a ghost field recording which
phase-2 rule (by index) pushed the issue; no handler ever reads it. -/
structure Issue where
  ruleKind : RuleKind
  path : String
  displayPath : String
  message : Msg
  category : Category
  severity : Severity
  origin : Option Nat := none
deriving DecidableEq, Repr

/-- `Rule` from `src/types.ts` (field names preserved; `from` is a Lean
keyword, written `fromGlob`).  The `naming` constructor carries the fields
of `NamingRule`. -/
inductive Rule
  | move (fromGlob toDir : String)
  | thoseOnly (pattern : String) (only : List String)
  | renameDir (fromNames : List String) (toName : String)
  | renameGlob (fromGlob toPat : String)
  | inDirOnly (dir : String) (only : List String) (mode : Option Mode)
      (fileType : Option FileType)
  | naming (target : NamingTarget) (pattern : String) (style : NamingStyle)
      (fileType : Option FileType) (prefixPat suffixPat : Option String)
      (except : Option (List String)) (ifContains : Option String)
      (ifParentStyle : Option NamingStyle)
  | no (names : List String)
  | has (names : List String)
  | allow (names : List String)
  | optional (names : List String)
deriving DecidableEq, Repr

/-! ## Shared path helpers — `src/fsutil.ts` -/

/-- `pickTopLevelName` (fsutil): strip a leading `./`, take the first `/`
segment, defaulting to `"."`. -/
def pickTopLevelName (rel : String) : String :=
  let cleaned := if strStarts rel "./" then String.mk (rel.data.drop 2) else rel
  let seg := (strSplitChar cleaned (Char.ofNat 47)).headD ""
  if seg ≠ "" && seg ≠ "." then seg else "."

/-- The glob-pattern test `/[*?{}[\]]/.test(name) || name.includes("**")`
used by the `has`/`rename` handlers (the `**` clause is subsumed by `*`). -/
def hasGlobChar (s : String) : Bool :=
  s.data.any (fun c =>
    c = '*' || c = '?' || c = Char.ofNat 123 || c = Char.ofNat 125 ||
    c = '[' || c = ']')

/-- Replace a suffix the string is known to end with (JS
`replace(/suf$/, new)` under an `endsWith` guard). -/
def replaceEnd (s suf new : String) : String :=
  String.mk (s.data.take (s.data.length - suf.data.length)) ++ new

/-- `name.replace(/\/$/, "")`: drop one trailing slash. -/
def stripTrailingSlash (s : String) : String :=
  if strEnds s "/" then String.mk (s.data.take (s.data.length - 1)) else s

/-! ## Rule evaluation engine, phase 2 — `src/rules/lint.ts` 706-1370

Paths are root-relative, so `resolve(root, p)` and `toDisplayPath(p, root)`
are the identity.  The glob scanner is memoized per lint run in the source
(`createCachedGlobScan`), so re-scanning a pattern yields the same list;
a pure function models exactly that. -/

/-- The filesystem/glob collaborators the phase-2 handlers consume.
`matchFiles p` is `cachedGlobScan(p, root, root, {onlyFiles: true, ig})`;
`matchMany ps` is the same for a pattern array.  `namingIssues idx` is the
set of `(path, message)` pairs the naming handler reports for the rule at
index `idx`: that handler's selection logic is filesystem-heavy, but its
entire effect on the lint state is to append `naming`-kind
`forbidden`/`error` issues (lint.ts 995-1369), which is what the model
keeps. -/
structure LintEnv where
  matchFiles : String → List String
  matchMany : List String → List String
  pathExists : String → Bool
  isDirectory : String → Bool
  readdirCount : String → Nat
  namingIssues : Nat → List (String × Msg)

/-- Mutable state threaded through the phase-2 loop: the raw issue list,
the `processedThoseOnlyPatterns` map (pattern → last rule index), the root
directory's allowed set (present only when phase 1 built one), and
`matchedGlobFiles`. -/
structure LintState where
  rawIssues : List Issue
  processedThoseOnlyPatterns : List (String × Nat)
  rootAllowedSet : Option (List String)
  matchedGlobFiles : List String
deriving Repr

def mapLookup (m : List (String × Nat)) (k : String) : Option Nat :=
  (m.find? (fun e => e.1 = k)).map (fun e => e.2)

def mapSet (m : List (String × Nat)) (k : String) (v : Nat) : List (String × Nat) :=
  if m.any (fun e => e.1 = k) then
    m.map (fun e => if e.1 = k then (k, v) else e)
  else m ++ [(k, v)]

def pushIssue (st : LintState) (i : Issue) : LintState :=
  { st with rawIssues := st.rawIssues ++ [i] }

/-- `computeRenameDest` (lint.ts:108). -/
def computeRenameDest (relPath ruleTo : String) : Option String :=
  if strEnds ruleTo ".test.ts" && strEnds relPath ".spec.ts" then
    some (replaceEnd relPath ".spec.ts" ".test.ts")
  else if strEnds ruleTo ".test.ts" && strEnds relPath ".tests.ts" then
    some (replaceEnd relPath ".tests.ts" ".test.ts")
  else if !hasGlobChar ruleTo then some ruleTo
  else none

/-- One iteration of the phase-2 rule loop (lint.ts 710-1370) at rule index
`idx`.  The backwards splice loops of the `thoseOnly`/`no`/`allow`/
`optional` handlers delete exactly the matching entries and keep order, so
they are written as `List.filter`. -/
def processRule (env : LintEnv) (st : LintState) (idx : Nat) : Rule → LintState
  | .inDirOnly _ _ _ _ => st
  | .move fromGlob toDir =>
    let destDirExists := env.pathExists toDir
    let destDirIsDir := env.isDirectory toDir
    let st1 :=
      if destDirExists && !destDirIsDir then
        pushIssue st
          { ruleKind := .move, path := toDir, displayPath := toDir,
            message := .moveDestMustBeDir fromGlob toDir, category := .forbidden,
            severity := .warn, origin := some idx }
      else st
    let safeDestDir := destDirIsDir || !destDirExists
    (env.matchFiles fromGlob).foldl (fun s abs =>
      if strStarts abs (toDir ++ "/") then s
      else
        let base := posixBasename abs
        let target := toDir ++ "/" ++ base
        let targetExists := env.pathExists target
        let safeToFix := safeDestDir && !targetExists
        pushIssue s
          { ruleKind := .move, path := abs, displayPath := abs,
            message := if safeToFix then .moveShouldMoveToDir (toDir ++ "/")
                       else .moveUnsafeManual (toDir ++ "/"),
            category := .forbidden,
            severity := if safeToFix then .error else .warn,
            origin := some idx }) st1
  | .thoseOnly pattern only =>
    -- later rules with an identical pattern supersede earlier ones
    let st1 :=
      match mapLookup st.processedThoseOnlyPatterns pattern with
      | none => st
      | some _ =>
        let allFiles := env.matchFiles pattern
        { st with rawIssues := st.rawIssues.filter (fun iss =>
            !(iss.ruleKind = RuleKind.thoseOnly && allFiles.contains iss.path)) }
    let st2 := { st1 with
      processedThoseOnlyPatterns := mapSet st1.processedThoseOnlyPatterns pattern idx }
    let allowed := env.matchMany only
    (env.matchFiles pattern).foldl (fun s abs =>
      if allowed.contains abs then s
      else pushIssue s
        { ruleKind := .thoseOnly, path := abs, displayPath := abs,
          message := .thoseOnlyForbidden only pattern, category := .forbidden,
          severity := .error, origin := some idx }) st2
  | .renameDir fromNames toName =>
    fromNames.foldl (fun s name =>
      if !env.pathExists name then s
      else
        let destExists := env.pathExists toName
        let safeToRename := !destExists
        let srcIsDir := env.isDirectory name
        let srcIsEmptyDir := srcIsDir && env.readdirCount name = 0
        pushIssue s
          { ruleKind := .renameDir, path := name, displayPath := name,
            message :=
              if safeToRename then .renameDirShouldRenameTo (toName ++ "/")
              else if srcIsEmptyDir then
                .renameDirRemoveEmptyDir (stripTrailingSlash name ++ "/") (toName ++ "/")
              else .renameDirShouldMigrateTo (toName ++ "/"),
            category := .forbidden,
            severity := if safeToRename then .error else .warn,
            origin := some idx }) st
  | .renameGlob fromGlob toPat =>
    (env.matchFiles fromGlob).foldl (fun s abs =>
      let dest := computeRenameDest abs toPat
      let destExists := match dest with | some d => env.pathExists d | none => false
      let safeToFix := dest.isSome && !destExists
      pushIssue s
        { ruleKind := .renameGlob, path := abs, displayPath := abs,
          message := match dest with
            | some d => if safeToFix then .renameGlobShouldRenameTo d
                        else .renameGlobTargetExistsManual d
            | none => .renameGlobCannotInferTarget,
          category := .forbidden,
          severity := if safeToFix then .error else .warn,
          origin := some idx }) st
  | .no names =>
    -- later `no` rules override earlier ones on the files they match
    let currentRuleFiles := names.flatMap env.matchFiles
    let st1 := { st with rawIssues := st.rawIssues.filter (fun iss =>
        !(iss.ruleKind = RuleKind.no && currentRuleFiles.contains iss.path)) }
    names.foldl (fun s name =>
      (env.matchFiles name).foldl (fun s2 abs =>
        if !env.pathExists abs then s2
        else pushIssue s2
          { ruleKind := .no, path := abs, displayPath := abs,
            message := .noForbidden name, category := .forbidden,
            severity := .error, origin := some idx }) s) st1
  | .has names =>
    names.foldl (fun s name =>
      if hasGlobChar name then
        let ms := env.matchFiles name
        if !ms.isEmpty then
          ms.foldl (fun s2 m =>
            { s2 with
              matchedGlobFiles := s2.matchedGlobFiles ++ [pickTopLevelName m],
              rootAllowedSet := s2.rootAllowedSet.map (fun l => l ++ [m]) }) s
        else
          pushIssue s
            { ruleKind := .has, path := name, displayPath := name,
              message := .hasMustExist name, category := .missing,
              severity := .error, origin := some idx }
      else
        if env.pathExists name then
          { s with rootAllowedSet := s.rootAllowedSet.map (fun l => l ++ [name]) }
        else
          pushIssue s
            { ruleKind := .has, path := name, displayPath := name,
              message := .hasMustExist name, category := .missing,
              severity := .error, origin := some idx }) st
  | .allow names =>
    let allowedFiles := names.flatMap env.matchFiles
    { st with rawIssues := st.rawIssues.filter (fun iss =>
        !(iss.ruleKind = RuleKind.no && allowedFiles.contains iss.path)) }
  | .optional names =>
    -- `optionalPaths` holds both the literal name (`resolve(root, name)`)
    -- and every glob match of the name
    let optionalPaths := names.flatMap (fun n => n :: env.matchFiles n)
    { st with rawIssues := st.rawIssues.filter (fun iss =>
        !(iss.ruleKind = RuleKind.has && optionalPaths.contains iss.path)) }
  | .naming _ _ _ _ _ _ _ _ _ =>
    (env.namingIssues idx).foldl (fun s pm =>
      pushIssue s
        { ruleKind := .naming, path := pm.1, displayPath := pm.1,
          message := pm.2, category := .forbidden, severity := .error,
          origin := some idx }) st

/-- The phase-2 loop over an index-annotated rule list. -/
def runRules (env : LintEnv) (st : LintState) : List (Nat × Rule) → LintState
  | [] => st
  | (idx, r) :: rest => runRules env (processRule env st idx r) rest

/-- `List.enum`-style indexing of the config's rule list. -/
def enumRules (rules : List Rule) : List (Nat × Rule) := rules.enum

/-! ### Final filter — lint.ts 1384-1426 -/

def issueKey (i : Issue) : RuleKind × String := (i.ruleKind, i.path)

/-- The final gitignore filter and `${ruleKind}:${path}` dedup loop.  Rule
kinds contain no `:`, so the string key is injective in the pair and is
modelled as the pair itself.  `relOf` is `relative(root, ·)` (posix-joined)
and `ig` the merged ignore matcher. -/
def finalFilter (ig : String → Bool) (relOf : String → String) :
    List Issue → List (RuleKind × String) → List Issue
  | [], _ => []
  | i :: rest, seen =>
    if ig (relOf i.path) then finalFilter ig relOf rest seen
    else if seen.contains (issueKey i) then finalFilter ig relOf rest seen
    else i :: finalFilter ig relOf rest (seen ++ [issueKey i])

/-- End-to-end phase 2: run every handler in declared order over the issues
produced so far (phase 1), then apply the final ignore filter and dedup —
the `issues` component of the `LintResult`. -/
def lintFinalIssues (env : LintEnv) (ig : String → Bool) (relOf : String → String)
    (st : LintState) (rules : List Rule) : List Issue :=
  finalFilter ig relOf (runRules env st (enumRules rules)).rawIssues []

/-! ### Phase 1: the missing-directory decision of the `inDirOnly` group
loop — lint.ts 333-368 -/

/-- One `inDirOnly` rule of a directory group (the fields of
`InDirOnlyRule` relevant to the group loop). -/
structure InDirRule where
  dir : String
  only : List String
  mode : Option Mode
  fileType : Option FileType
deriving DecidableEq, Repr

/-- lint.ts:341 — strict-mode content checking applies when `--strict` is
forced or some rule has `mode === "strict" || mode === undefined`. -/
def groupHasStrictMode (forceStrict : Bool) (group : List InDirRule) : Bool :=
  forceStrict || group.any (fun r => r.mode = some .strict || r.mode = none)

/-- lint.ts:348 — only explicitly strict (or mode-unset) rules require the
directory to exist; `--strict` does not. -/
def groupHasExplicitStrictMode (group : List InDirRule) : Bool :=
  group.any (fun r => r.mode = some .strict || r.mode = none)

/-- The missing-directory segment of the group loop (lint.ts 333-368): the
issues pushed for a group whose directory may not exist, and whether
control proceeds to content checking.  When the directory is missing the
loop either pushes `issue.inDirOnly.dirMustExist` (explicit strict mode) or
silently `continue`s; either way content is never checked. -/
def inDirGroupMissingDirStep (dir : String) (group : List InDirRule)
    (dirExists : Bool) : List Issue × Bool :=
  let allOnly := group.flatMap (fun r => r.only)
  if !dirExists && groupHasExplicitStrictMode group then
    ([ { ruleKind := .inDirOnly, path := dir, displayPath := dir,
         message := .inDirOnlyDirMustExist allOnly, category := .missing,
         severity := .error, origin := none } ], false)
  else if !dirExists then ([], false)
  else ([], true)

/-! ## Parser: deferred `thoseOnly` fill-in — `src/parser.ts` 975-1043 -/

/-- Directory-prefixing of a permissive `inDirOnly` pattern
(parser.ts 990-1001). -/
def prefixInDirPattern (dir pattern : String) : String :=
  if strContains pattern "/" || strStarts pattern "**" then pattern
  else
    let d := if dir = "." then "" else dir
    if d = "" then pattern else d ++ "/" ++ pattern

/-- `allAllowedItems` (parser.ts 982-1002): all root-level `allow` names,
then every permissive `inDirOnly` pattern, directory-prefixed. -/
def allAllowedItems (rules : List Rule) : List String :=
  (rules.filterMap (fun r => match r with
    | .allow ns => some ns
    | _ => none)).flatten ++
  (rules.filterMap (fun r => match r with
    | .inDirOnly d only (some .permissive) _ => some (only.map (prefixInDirPattern d))
    | _ => none)).flatten

/-- The JS regex `/\.([a-z0-9]+)(\*|$)/i` matched at the head of a
character list: a dot, a maximal nonempty case-insensitive alphanumeric
run, followed by `*` or the end.  (Any shorter run would be followed by an
alphanumeric character, failing `(\*|$)`, so greedy backtracking never
helps and the maximal run is the only candidate.) -/
def extMatchAt : List Char → Option (List Char)
  | '.' :: rest =>
    let run := rest.takeWhile isAlnumC
    if run.isEmpty then none
    else match rest.drop run.length with
      | [] => some run
      | '*' :: _ => some run
      | _ => none
  | _ => none

/-- Leftmost match of `/\.([a-z0-9]+)(\*|$)/i`. -/
def findExtensionAux : List Char → Option (List Char)
  | [] => none
  | c :: rest =>
    match extMatchAt (c :: rest) with
    | some r => some r
    | none => findExtensionAux rest

/-- The captured extension, lower-cased (parser.ts 1013-1015). -/
def findExtension (s : String) : Option String :=
  (findExtensionAux s.data).map (fun r => String.mk (r.map jsLowerChar))

/-- The per-item keep decision of the extension filter
(parser.ts 1016-1038). -/
def extFilterKeep (ext : String) (item : String) : Bool :=
  let itemLower := jsToLower item
  if strContains itemLower ("." ++ ext) || strContains itemLower ("*." ++ ext)
      || strContains itemLower ("*" ++ ext) then true
  else if strContains itemLower ext
      && (strContains itemLower "*" || strEnds itemLower ("." ++ ext)) then true
  else if !(findExtensionAux itemLower.data).isSome && strContains itemLower "*" then
    true
  else false

/-- The `only` list an empty `thoseOnly` rule receives
(parser.ts 1007-1041): drop bare `"*"`, then apply the extension filter
when the rule's pattern has a recognizable extension.  (The source's
`filteredItems.length > 0 ? [...filteredItems] : []` is the filtered list
in both branches.) -/
def fillOnlyFor (pattern : String) (allAllowed : List String) : List String :=
  let filtered0 := allAllowed.filter (fun item => item ≠ "*")
  match findExtension pattern with
  | none => filtered0
  | some ext => filtered0.filter (extFilterKeep ext)

/-- The deferred fill-in pass (parser.ts 1004-1043): every `thoseOnly` rule
with an empty `only` is filled; `allAllowedItems` is computed from the full
rule list before any rule is updated. -/
def fillThoseOnlyRules (rules : List Rule) : List Rule :=
  let items := allAllowedItems rules
  rules.map (fun r => match r with
    | .thoseOnly p only => if only.isEmpty then .thoseOnly p (fillOnlyFor p items) else r
    | _ => r)

/-! ## Parser: import topological sort — `src/parser.ts` 891-973

The paths recorded in `imports` and in the dependency map are produced by
`resolve(...)` at their creation sites (parser.ts 437, 441, 479-482), so
`resolve` is the identity on them and the source's
`resolvedPaths`/`resolvedToOriginal` maps are identities as well. -/

/-- `Array.from(new Set(xs))`: deduplicate keeping first occurrences
(parser.ts:892). -/
def dedupKeepFirst (xs : List String) : List String :=
  xs.foldl (fun acc p => if acc.contains p then acc else acc ++ [p]) []

/-- Successor-list graph as an insertion-ordered association list. -/
def GraphT := List (String × List String)

def gGet (g : List (String × List String)) (k : String) : Option (List String) :=
  (g.find? (fun e => e.1 = k)).map (fun e => e.2)

def gAppend (g : List (String × List String)) (k : String) (v : String) :
    List (String × List String) :=
  g.map (fun e => if e.1 = k then (k, e.2 ++ [v]) else e)

/-- In-degree map; JS numbers, so `Int` (the loop writes `degree - 1`). -/
def dGet (d : List (String × Int)) (k : String) : Int :=
  ((d.find? (fun e => e.1 = k)).map (fun e => e.2)).getD 0

def dSet (d : List (String × Int)) (k : String) (v : Int) : List (String × Int) :=
  if d.any (fun e => e.1 = k) then
    d.map (fun e => if e.1 = k then (k, v) else e)
  else d ++ [(k, v)]

/-- One edge insertion of parser.ts 921-926: add `dep → importing` when
`dep` is a graph node and the edge is not already present, incrementing
`importing`'s in-degree. -/
def addEdge (importing : String)
    (gd2 : List (String × List String) × List (String × Int)) (dep : String) :
    List (String × List String) × List (String × Int) :=
  match gGet gd2.1 dep with
  | some succs =>
    if succs.contains importing then gd2
    else (gAppend gd2.1 dep importing,
          dSet gd2.2 importing (dGet gd2.2 importing + 1))
  | none => gd2

/-- One `dependencies` entry of parser.ts 917-928: its edges are added only
when the importing path is itself a graph node. -/
def addEntry (gd : List (String × List String) × List (String × Int))
    (entry : String × List String) :
    List (String × List String) × List (String × Int) :=
  if (gGet gd.1 entry.1).isSome then entry.2.foldl (addEdge entry.1) gd
  else gd

/-- Edge insertion of parser.ts 917-928: for every `(importing, deps)`
entry, add `dep → importing` when both ends are graph nodes and the edge is
not already present, incrementing `importing`'s in-degree. -/
def addDepEdges (init : List (String × List String) × List (String × Int))
    (dependencies : List (String × List String)) :
    List (String × List String) × List (String × Int) :=
  dependencies.foldl addEntry init

/-- The inner `for (const neighbor of graph.get(current) || [])` body
(parser.ts 943-949): decrement each neighbor's in-degree, enqueueing the
ones that reach zero. -/
def kahnFold (l : List String) (d : List (String × Int)) (q : List String) :
    List (String × Int) × List String :=
  l.foldl (fun (acc : List (String × Int) × List String) neighbor =>
    let newDegree := dGet acc.1 neighbor - 1
    let d2 := dSet acc.1 neighbor newDegree
    if newDegree = 0 then (d2, acc.2 ++ [neighbor]) else (d2, acc.2)) (d, q)

/-- The Kahn queue loop (parser.ts 939-950): pop the queue head, append it
to `sorted`, decrement each successor's in-degree, enqueue those reaching
zero.  Each node is enqueued at most once, so `fuel := importPaths.length`
iterations always suffice; the fuel-exhaustion branch is unreachable on the
calls made below (established by the invariant proofs). -/
def kahnLoop (graph : List (String × List String)) :
    Nat → List (String × Int) → List String → List String →
    List String × List (String × Int)
  | 0, inDeg, _, sorted => (sorted, inDeg)
  | _ + 1, inDeg, [], sorted => (sorted, inDeg)
  | fuel + 1, inDeg, current :: queue, sorted =>
    let step := kahnFold ((gGet graph current).getD []) inDeg queue
    kahnLoop graph fuel step.1 step.2 (sorted ++ [current])

/-- `topologicalSort` (parser.ts:896), with `resolve = id` as explained
above.  After the queue loop, `sorted` is mapped back through the identity
`resolvedToOriginal` table with a `used` dedup, and any node the loop never
emitted is appended in `importPaths` order. -/
def topologicalSort (importPaths : List String)
    (dependencies : List (String × List String)) : List String :=
  let graph0 : List (String × List String) := importPaths.map (fun p => (p, []))
  let inDeg0 : List (String × Int) := importPaths.map (fun p => (p, 0))
  let gd := addDepEdges (graph0, inDeg0) dependencies
  let queue0 := (gd.2.filter (fun e => e.2 = 0)).map (fun e => e.1)
  let sorted := (kahnLoop gd.1 importPaths.length gd.2 queue0 []).1
  let result0 := sorted.foldl (fun acc r =>
    if importPaths.contains r && !acc.contains r then acc ++ [r] else acc) []
  result0 ++ importPaths.filter (fun p => !result0.contains p)

/-- `sortedImports` as the parser computes it (parser.ts 892, 973). -/
def sortedImports (imports : List String)
    (dependencies : List (String × List String)) : List String :=
  topologicalSort (dedupKeepFirst imports) dependencies

/-! Specification-side graph notions used to state and prove the Kahn
invariants (not part of the source; they read the same association lists
the algorithm manipulates). -/

/-- The node list of a successor graph (its key column, in order). -/
def gKeys (g : List (String × List String)) : List String :=
  g.map (fun e => e.1)

/-- The successor list of a node (empty for a non-node). -/
def succsOf (g : List (String × List String)) (b : String) : List String :=
  (gGet g b).getD []

/-- The predecessors of `k`: every node whose successor list holds `k`. -/
def predsOf (g : List (String × List String)) (k : String) : List String :=
  (g.filter (fun e => e.2.contains k)).map (fun e => e.1)

/-- The predecessors of `k` not yet emitted to `sorted`. -/
def unsortedPreds (g : List (String × List String)) (sorted : List String)
    (k : String) : List String :=
  (predsOf g k).filter (fun p => !(decide (p ∈ sorted)))

/-- The key column of an in-degree map. -/
def dKeys (d : List (String × Int)) : List String :=
  d.map (fun e => e.1)

/-! ## Parser: statement dispatch — `src/parser.ts` 333-889

This models `parseFsLintConfigInternal` from the point its input has been
preprocessed by `preprocessNestedBlocks` (parser.ts:339): the
`processedLines` construction (341-384) and the statement dispatch loop
(389-889).  Import resolution reads the filesystem and recurses; it is
consumed through `ParseEnv` below.  Every JS regex of the dispatch is
transcribed with its exact greedy/lazy backtracking behaviour; derivations
are given at each definition. -/

/-- JS `String.prototype.trim` (ASCII whitespace fragment). -/
def jsTrim (s : String) : String :=
  String.mk (((s.data.dropWhile isJsWs).reverse.dropWhile isJsWs).reverse)

def trimRightL (l : List Char) : List Char := (l.reverse.dropWhile isJsWs).reverse

def countChar (c : Char) (s : String) : Nat := s.data.countP (fun x => x = c)

/-- `splitCsvLike` (parser.ts:32): split on top-level commas, tracking
brace depth; pieces are trimmed and empties dropped (`filter(Boolean)`
plus the final nonempty-only push). -/
def splitCsvPieces : List Char → List Char → Int → List (List Char)
  | [], current, _ => [current]
  | c :: rest, current, braceLevel =>
    let braceLevel2 :=
      if c = Char.ofNat 123 then braceLevel + 1
      else if c = Char.ofNat 125 then braceLevel - 1
      else braceLevel
    if c = ',' && braceLevel = 0 then
      current :: splitCsvPieces rest [] braceLevel2
    else
      splitCsvPieces rest (current ++ [c]) braceLevel2

def splitCsvLike (input : String) : List String :=
  ((splitCsvPieces input.data [] 0).map (fun p => jsTrim (String.mk p))).filter
    (fun s => !s.isEmpty)

/-- `raw.split(/\r?\n/)`. -/
def jsSplitLines (raw : String) : List String :=
  (strSplitChar raw (Char.ofNat 10)).map (fun l =>
    if strEnds l "\r" then String.mk (l.data.take (l.data.length - 1)) else l)

structure PLine where
  content : String
  lineNum : Nat
deriving DecidableEq, Repr

/-- State of the `processedLines` scan (parser.ts 341-384): joining a
backslash continuation, or folding a multi-line `[...]` array (with its JS
bracket counter, which can go negative). -/
inductive PLScan
  | normal
  | joining (cur : String) (num : Nat)
  | folding (cur : String) (bc : Int) (num : Nat)

/-- The `processedLines` construction.  Semantics transcribed from the
source loop: a trimmed blank/`#` line is skipped; a line ending in `\` is
joined with following lines; a line with `[` but no `]` absorbs following
non-blank non-comment lines until the bracket counter reaches zero (when
the counter jumps below zero the loop also consumes the following line,
because `i = j` lands past the over-closing line before `i++`). -/
def buildPLGo : PLScan → List (Nat × String) → List PLine
  | .normal, [] => []
  | .normal, (n, l) :: rest =>
    let t := jsTrim l
    if t.isEmpty || strStarts t "#" then buildPLGo .normal rest
    else if strEnds t "\\" && !rest.isEmpty then buildPLGo (.joining t n) rest
    else if strContains t "[" && !strContains t "]" then
      buildPLGo (.folding t (countChar '[' t : Int) n) rest
    else ⟨t, n⟩ :: buildPLGo .normal rest
  | .joining cur num, [] => [⟨cur, num⟩]   -- unreachable: joining needs a next line
  | .joining cur num, (_, nl) :: rest =>
    let cur2 := jsTrim (String.mk (cur.data.take (cur.data.length - 1))) ++ " " ++ jsTrim nl
    if strEnds cur2 "\\" && !rest.isEmpty then buildPLGo (.joining cur2 num) rest
    else if strContains cur2 "[" && !strContains cur2 "]" then
      buildPLGo (.folding cur2 (countChar '[' cur2 : Int) num) rest
    else ⟨cur2, num⟩ :: buildPLGo .normal rest
  | .folding cur _ num, [] => [⟨cur, num⟩]
  | .folding cur bc num, (_, nl) :: rest =>
    if bc ≤ 0 then ⟨cur, num⟩ :: buildPLGo .normal rest
    else
      let nt := jsTrim nl
      if nt.isEmpty || strStarts nt "#" then buildPLGo (.folding cur bc num) rest
      else
        let cur2 := cur ++ " " ++ nt
        let bc2 := bc + (countChar '[' nt : Int) - (countChar ']' nt : Int)
        if bc2 = 0 then ⟨cur2, num⟩ :: buildPLGo .normal rest
        else buildPLGo (.folding cur2 bc2 num) rest

def processedLinesOf (raw : String) : List PLine :=
  buildPLGo .normal ((jsSplitLines raw).enum.map (fun e => (e.1 + 1, e.2)))

/-! ### Matcher building blocks -/

def wsRunLen (l : List Char) : Nat := (l.takeWhile isJsWs).length

def stripLit (l : List Char) (kw : String) : Option (List Char) :=
  if kw.data.isPrefixOf l then some (l.drop kw.data.length) else none

/-- The tail pattern `\s+(.+?)\s*$`.  The greedy `\s+` takes the whole
whitespace run first, making the lazy capture the remainder with trailing
whitespace removed; when the remainder is empty the engine gives one
whitespace character back to the capture (so a run of length ≥ 2 still
matches, capturing its last character). -/
def kwRest (tail : List Char) : Option String :=
  let w := wsRunLen tail
  if w = 0 then none
  else
    let after := tail.drop w
    if after.isEmpty then
      if w ≥ 2 then (tail.take w).getLast?.map (fun c => String.mk [c]) else none
    else some (String.mk (trimRightL after))

/-- `\s+LIT` followed by `\s+(.+?)\s*$` (the literal sits at the end of the
whitespace run, since its first character is not whitespace). -/
def litThenRest (lit : String) (l : List Char) : Option String :=
  let w := wsRunLen l
  if w = 0 then none
  else match stripLit (l.drop w) lit with
    | some l2 => kwRest l2
    | none => none

/-- `\s+LIT\s+([^\s]+)\s*$`: the token is the maximal non-whitespace run
and the rest must be whitespace only. -/
def litThenTok (lit : String) (l : List Char) : Option String :=
  let w := wsRunLen l
  if w = 0 then none
  else match stripLit (l.drop w) lit with
    | none => none
    | some l2 =>
      let w2 := wsRunLen l2
      if w2 = 0 then none
      else
        let l3 := l2.drop w2
        let tok := l3.takeWhile (fun c => !isJsWs c)
        if tok.isEmpty then none
        else if (l3.drop tok.length).all isJsWs then some (String.mk tok) else none

/-- Search for `\s+(.+?)TAIL` after a keyword, in JS backtracking order:
the leading `\s+` is greedy (tried longest first), the capture lazy (tried
shortest first). -/
def lazySplit (l : List Char) (tailFn : List Char → Option α) :
    Option (List Char × α) :=
  let maxW := wsRunLen l
  (List.range maxW).findSome? (fun dw =>
    let rest := l.drop (maxW - dw)
    (List.range rest.length).findSome? (fun f1 =>
      (tailFn (rest.drop (f1 + 1))).map (fun a => (rest.take (f1 + 1), a))))

/-- Tail of `moveMatch`: `\s+to\s+([^\s#]+)\s*$`.  The token class excludes
whitespace and `#`; only the maximal run can be followed by `\s*$`. -/
def moveTail (l : List Char) : Option String :=
  let w := wsRunLen l
  if w = 0 then none
  else match stripLit (l.drop w) "to" with
    | none => none
    | some l2 =>
      let w2 := wsRunLen l2
      if w2 = 0 then none
      else
        let l3 := l2.drop w2
        let tok := l3.takeWhile (fun c => !isJsWs c && c ≠ '#')
        if tok.isEmpty then none
        else if (l3.drop tok.length).all isJsWs then some (String.mk tok) else none

/-- The regex-literal capture `(\/[^\/]+\/[gimuy]*)`: `/`, a nonempty run
up to the next `/`, `/`, then a greedy flags run.  The flags star can give
characters back when a continuation fails, so all split points are returned
in greedy-first order. -/
def matchRegexLit (l : List Char) : List (String × List Char) :=
  match l with
  | '/' :: rest =>
    let body := rest.takeWhile (fun c => c ≠ '/')
    if body.isEmpty then []
    else match rest.drop body.length with
      | '/' :: rest3 =>
        let maxF := (rest3.takeWhile isRegexFlagC).length
        (List.range (maxF + 1)).map (fun dk =>
          let k := maxF - dk
          (String.mk ('/' :: (body ++ '/' :: rest3.take k)), rest3.drop k))
      | _ => []
  | _ => []

/-- `\s+KW\s+RE` for `KW ∈ ` the literal `prefix:`/`suffix:` clauses of the
legacy naming statements; alternatives from the regex-literal flags. -/
def matchClause (kw : String) (l : List Char) : List (String × List Char) :=
  let w := wsRunLen l
  if w = 0 then []
  else match stripLit (l.drop w) kw with
    | none => []
    | some l2 =>
      let w2 := wsRunLen l2
      if w2 = 0 then [] else matchRegexLit (l2.drop w2)

/-- `(?:\s+except\s+(.+?))?\s*$`: the optional group is tried first (its
lazy capture is the trailing-whitespace-trimmed remainder), else the
remainder must be whitespace. -/
def exceptEnd (l : List Char) : Option (Option String) :=
  match litThenRest "except" l with
  | some cap => some (some cap)
  | none => if l.all isJsWs then some none else none

/-- The optional-clause chain of the legacy naming statements:
`(?:\s+prefix:\s+RE)?(?:\s+suffix:\s+RE)?(?:\s+except\s+(.+?))?\s*$`, with
each optional group tried present-first and the regex-literal alternatives
explored in order. -/
def namingClausesTail (l : List Char) :
    Option (Option String × Option String × Option String) :=
  let tryBC := fun (l2 : List Char) =>
    (((matchClause "suffix:" l2).findSome? (fun pr =>
        (exceptEnd pr.2).map (fun exc => (some pr.1, exc)))) :
          Option (Option String × Option String))
    <|> ((exceptEnd l2).map (fun exc => ((none : Option String), exc)))
  (((matchClause "prefix:" l).findSome? (fun pr =>
      (tryBC pr.2).map (fun r => (some pr.1, r.1, r.2)))) :
        Option (Option String × Option String × Option String))
  <|> ((tryBC l).map (fun r => ((none : Option String), r.1, r.2)))

/-! ### The statement matchers, in dispatch order -/

/-- The `arrayMatch` rewrite `^(.+?)\s*\[([\s\S]+?)\]\s*(.*)$`
(parser.ts:396).  The regex matches when some `[` at index ≥ 1 is followed,
at least two positions later, by a `]`; the lazy prefix stops at the first
`[` reachable through whitespace, the content ends at the first `]` leaving
it nonempty, and the trailing capture is the remainder without its leading
whitespace. -/
def arrayMatchAt : (l : List Char) → Option (List Char × List Char × List Char)
  | [] => none
  | c :: rest =>
    -- try prefix split ending here: remaining must be ws* [ content ] ...
    let here : Option (List Char × List Char × List Char) :=
      let w := wsRunLen (c :: rest)
      match (c :: rest).drop w with
      | '[' :: afterBr =>
        -- content: up to the first `]` at distance ≥ 1
        match afterBr with
        | [] => none
        | c1 :: afterC1 =>
          let inner := afterC1.takeWhile (fun ch => ch ≠ ']')
          match afterC1.drop inner.length with
          | ']' :: tail =>
            some ([], c1 :: inner, tail.drop (wsRunLen tail))
          | _ => none
      | _ => none
    match here with
    | some r => some r
    | none =>
      match arrayMatchAt rest with
      | some (pre, content, tail) => some (c :: pre, content, tail)
      | none => none

/-- The array rewrite applied to a dispatch line (parser.ts 396-410): the
lazy leading `(.+?)` needs at least one character, so the scan starts after
the first character. -/
def arrayRewrite (line : String) : String :=
  match line.data with
  | [] => line
  | c0 :: rest =>
    match arrayMatchAt rest with
    | none => line
    | some (pre, content, tail) =>
      let beforeBracket := jsTrim (String.mk (c0 :: pre))
      let items := joinWithSep ", "
        (((strSplitChar (String.mk content) (Char.ofNat 44)).map jsTrim).filter
          (fun s => !s.isEmpty))
      let afterBracket := jsTrim (String.mk tail)
      beforeBracket ++ " " ++ items ++
        (if afterBracket.isEmpty then "" else " " ++ afterBracket)

/-- `^\[where:(.*?)\]$` (parser.ts:411). -/
def whereMatch (line : String) : Option String :=
  if strStarts line "[where:" && strEnds line "]" && line.data.length ≥ 8 then
    some (String.mk ((line.data.drop 7).take (line.data.length - 8)))
  else none

/-- `^\[(.+?)\]$` (parser.ts:420). -/
def pathDirMatch (line : String) : Option String :=
  if strStarts line "[" && strEnds line "]" && line.data.length ≥ 3 then
    some (String.mk ((line.data.drop 1).take (line.data.length - 2)))
  else none

/-- `^import\s+(.+?)\s*$` (parser.ts:428). -/
def importMatch (line : String) : Option String :=
  (stripLit line.data "import").bind kwRest

/-- `^move\s+(.+?)\s+to\s+([^\s#]+)\s*$` (parser.ts:497). -/
def moveMatch (line : String) : Option (String × String) :=
  ((stripLit line.data "move").bind (fun l => lazySplit l moveTail)).map
    (fun r => (String.mk r.1, r.2))

/-- `^strict\s+(files|dirs)?\s+for\s+(.+?)\s*$` (parser.ts:507).  The two
consecutive `\s+` force: either a `files`/`dirs` literal at the end of the
whitespace run, or — when the optional group is empty — a run of length
≥ 2 with `for` at its end. -/
def strictForMatch (line : String) : Option (Option FileType × String) :=
  match stripLit line.data "strict" with
  | none => none
  | some l =>
    let w := wsRunLen l
    if w = 0 then none
    else
      let pos := l.drop w
      match stripLit pos "files" with
      | some l2 => (litThenRest "for" l2).map (fun p => (some .files, p))
      | none =>
        match stripLit pos "dirs" with
        | some l2 => (litThenRest "for" l2).map (fun p => (some .dirs, p))
        | none =>
          if w ≥ 2 then
            match stripLit pos "for" with
            | some l2 => (kwRest l2).map (fun p => ((none : Option FileType), p))
            | none => none
          else none

/-- `^strict\s+in\s+([^\s]+)\s*$` (parser.ts:525). -/
def strictInOnlyMatch (line : String) : Option String :=
  (stripLit line.data "strict").bind (litThenTok "in")

/-- `^strict\s+(files|dirs)\s+in\s+([^\s]+)\s*$` (parser.ts:556). -/
def strictInMatch (line : String) : Option (FileType × String) :=
  match stripLit line.data "strict" with
  | none => none
  | some l =>
    let w := wsRunLen l
    if w = 0 then none
    else
      let pos := l.drop w
      match stripLit pos "files" with
      | some l2 => (litThenTok "in" l2).map (fun d => (FileType.files, d))
      | none =>
        match stripLit pos "dirs" with
        | some l2 => (litThenTok "in" l2).map (fun d => (FileType.dirs, d))
        | none => none

/-- The `(allow|yes|ohyes)` alternation (distinct first letters, so
committed choice matches JS backtracking). -/
def allowKw (l : List Char) : Option (String × List Char) :=
  match stripLit l "allow" with
  | some r => some ("allow", r)
  | none =>
    match stripLit l "yes" with
    | some r => some ("yes", r)
    | none =>
      match stripLit l "ohyes" with
      | some r => some ("ohyes", r)
      | none => none

/-- `^(allow|yes|ohyes)\s+(.+?)\s+in\s+([^\s]+)\s*$` (parser.ts:588). -/
def allowInMatch (line : String) : Option (String × String × String) :=
  (allowKw line.data).bind (fun kr =>
    (lazySplit kr.2 (litThenTok "in")).map (fun r => (kr.1, String.mk r.1, r.2)))

/-- `^(allow|yes|ohyes)\s+(.+?)\s*$` (parser.ts:598). -/
def allowMatch (line : String) : Option (String × String) :=
  (allowKw line.data).bind (fun kr => (kwRest kr.2).map (fun names => (kr.1, names)))

/-- `^in\s+([^\s]+)\s+(allow|yes|ohyes)\s+(.+?)\s*$` (parser.ts:608). -/
def inAllowMatch (line : String) : Option (String × String × String) :=
  match stripLit line.data "in" with
  | none => none
  | some l =>
    let w := wsRunLen l
    if w = 0 then none
    else
      let l2 := l.drop w
      let tok := l2.takeWhile (fun c => !isJsWs c)
      if tok.isEmpty then none
      else
        let l3 := l2.drop tok.length
        let w2 := wsRunLen l3
        if w2 = 0 then none
        else
          (allowKw (l3.drop w2)).bind (fun kr =>
            (kwRest kr.2).map (fun only => (String.mk tok, kr.1, only)))

/-- The optional `(?:(files|dirs)\s+)?` before a literal: when the literal
`files`/`dirs` matches, the rest must follow it (backtracking to the empty
group would require the following literal to start with `files`/`dirs`,
which it does not). -/
def optFileType (l : List Char) : Option FileType × List Char × Bool :=
  match stripLit l "files" with
  | some r =>
    let w := wsRunLen r
    if w = 0 then (none, l, false) else (some .files, r.drop w, true)
  | none =>
    match stripLit l "dirs" with
    | some r =>
      let w := wsRunLen r
      if w = 0 then (none, l, false) else (some .dirs, r.drop w, true)
    | none => (none, l, true)

/-- `^in\s+([^\s]+)\s+(?:(files|dirs)\s+)?naming\s+([^\s]+)CLAUSES`
(parser.ts:619). -/
def inNamingMatch (line : String) :
    Option (String × Option FileType × String ×
            Option String × Option String × Option String) :=
  match stripLit line.data "in" with
  | none => none
  | some l =>
    let w := wsRunLen l
    if w = 0 then none
    else
      let l2 := l.drop w
      let dir := l2.takeWhile (fun c => !isJsWs c)
      if dir.isEmpty then none
      else
        let l3 := l2.drop dir.length
        let w2 := wsRunLen l3
        if w2 = 0 then none
        else
          match optFileType (l3.drop w2) with
          | (_, _, false) => none
          | (ft, pos, true) =>
            match stripLit pos "naming" with
            | none => none
            | some l4 =>
              let w3 := wsRunLen l4
              if w3 = 0 then none
              else
                let style := (l4.drop w3).takeWhile (fun c => !isJsWs c)
                if style.isEmpty then none
                else
                  (namingClausesTail ((l4.drop w3).drop style.length)).map
                    (fun cl => (String.mk dir, ft, String.mk style, cl.1, cl.2.1, cl.2.2))

/-- The tail `\s+(?:(files|dirs)\s+)?naming\s+([^\s]+)CLAUSES` of
`thoseNamingMatch`. -/
def thoseTail (l : List Char) :
    Option (Option FileType × String × Option String × Option String × Option String) :=
  let w := wsRunLen l
  if w = 0 then none
  else
    match optFileType (l.drop w) with
    | (_, _, false) => none
    | (ft, pos, true) =>
      match stripLit pos "naming" with
      | none => none
      | some l4 =>
        let w3 := wsRunLen l4
        if w3 = 0 then none
        else
          let style := (l4.drop w3).takeWhile (fun c => !isJsWs c)
          if style.isEmpty then none
          else
            (namingClausesTail ((l4.drop w3).drop style.length)).map
              (fun cl => (ft, String.mk style, cl.1, cl.2.1, cl.2.2))

/-- `^those\s+(.+?)\s+(?:(files|dirs)\s+)?naming\s+([^\s]+)CLAUSES`
(parser.ts:645). -/
def thoseNamingMatch (line : String) :
    Option (String × Option FileType × String ×
            Option String × Option String × Option String) :=
  ((stripLit line.data "those").bind (fun l => lazySplit l thoseTail)).map
    (fun r => (String.mk r.1, r.2.1, r.2.2.1, r.2.2.2.1, r.2.2.2.2.1, r.2.2.2.2.2))

/-- The `(no|deny|reject)` alternation (distinct first letters). -/
def noKw (l : List Char) : Option (String × List Char) :=
  match stripLit l "no" with
  | some r => some ("no", r)
  | none =>
    match stripLit l "deny" with
    | some r => some ("deny", r)
    | none =>
      match stripLit l "reject" with
      | some r => some ("reject", r)
      | none => none

/-- `^(no|deny|reject)\s+(.+?)\s*$` (parser.ts:673). -/
def noMatch (line : String) : Option (String × String) :=
  (noKw line.data).bind (fun kr => (kwRest kr.2).map (fun names => (kr.1, names)))

/-- `^must\s+have\s+(.+?)\s*$` (parser.ts:682). -/
def mustHaveMatch (line : String) : Option String :=
  match stripLit line.data "must" with
  | none => none
  | some l => litThenRest "have" l

/-- `^has\s+(.+?)\s*$` (parser.ts:690). -/
def hasMatch (line : String) : Option String :=
  (stripLit line.data "has").bind kwRest

/-- `^optional\s+(.+?)\s*$` (parser.ts:699). -/
def optionalMatch (line : String) : Option String :=
  (stripLit line.data "optional").bind kwRest

/-- The tail `\s+to\s+(.+?)\s*$` of `renameMatch`. -/
def renameTail (l : List Char) : Option String := litThenRest "to" l

/-- `^rename\s+(.+?)\s+to\s+(.+?)\s*$` (parser.ts:707). -/
def renameMatch (line : String) : Option (String × String) :=
  ((stripLit line.data "rename").bind (fun l => lazySplit l renameTail)).map
    (fun r => (String.mk r.1, r.2))

/-! ### The `use ... for ...` clause stripping (parser.ts 751-807)

These regexes are unanchored searches run against every line that reaches
this point of the dispatch, and each match is `replace`d out of the line
before `mainMatch` runs — so they rewrite the line even when the statement
turns out not to be a `use` rule at all. -/

/-- `\s+KW\s+([^\s]+)\s*$` searched leftmost (for `if-parent-matches` and
`if-contains`): returns the prefix before the match and the token. -/
def findIfClauseAux (kw : String) : List Char → Option (Nat × String)
  | [] => none
  | c :: rest =>
    let here : Option String :=
      let w := wsRunLen (c :: rest)
      if w = 0 then none
      else match stripLit ((c :: rest).drop w) kw with
        | none => none
        | some l2 =>
          let w2 := wsRunLen l2
          if w2 = 0 then none
          else
            let tok := (l2.drop w2).takeWhile (fun ch => !isJsWs ch)
            if tok.isEmpty then none
            else if ((l2.drop w2).drop tok.length).all isJsWs then
              some (String.mk tok)
            else none
    match here with
    | some tok => some (0, tok)
    | none => (findIfClauseAux kw rest).map (fun r => (r.1 + 1, r.2))

def findIfClause (kw : String) (l : List Char) : Option (List Char × String) :=
  (findIfClauseAux kw l).map (fun r => (l.take r.1, r.2))

/-- The lazy token-group loop of the `except` clause
`([^\s]+(?:\s+[^\s]+)*?)(?=\s+(?:prefix:|suffix:)|$)`: after each maximal
token, stop if at the end or if the lookahead `\s+(prefix:|suffix:)`
holds; otherwise absorb the next whitespace-run-plus-token; fail when only
trailing whitespace remains. -/
def exceptTokLoop (acc : List Char) : List Char → Option (List Char × List Char)
  | [] => some (acc, [])
  | c :: rest =>
    let cur := c :: rest
    let w := wsRunLen cur
    if w = 0 then none   -- unreachable: position after a maximal token
    else
      let afterWs := cur.drop w
      if (stripLit afterWs "prefix:").isSome || (stripLit afterWs "suffix:").isSome then
        some (acc, cur)
      else
        let tok := afterWs.takeWhile (fun ch => !isJsWs ch)
        if tok.isEmpty then none   -- trailing whitespace: lookahead fails
        else exceptTokLoop (acc ++ cur.take w ++ tok) (afterWs.drop tok.length)
termination_by l => l.length
decreasing_by
  simp_wf
  refine Or.inl (Nat.pos_of_ne_zero ?_)
  assumption

/-- `\s+except\s+CAPTURE(?=...)` matched at the current position. -/
def exceptHereMatch (l : List Char) : Option (List Char × List Char) :=
  let w := wsRunLen l
  if w = 0 then none
  else match stripLit (l.drop w) "except" with
    | none => none
    | some l2 =>
      let w2 := wsRunLen l2
      if w2 = 0 then none
      else
        let tok := (l2.drop w2).takeWhile (fun ch => !isJsWs ch)
        if tok.isEmpty then none
        else exceptTokLoop tok ((l2.drop w2).drop tok.length)

/-- Leftmost search for the `except` clause: returns
(prefix, capture, suffix-from-lookahead). -/
def findExceptClause : List Char → Option (List Char × List Char × List Char)
  | [] => none
  | c :: rest =>
    match exceptHereMatch (c :: rest) with
    | some (cap, tail) => some ([], cap, tail)
    | none =>
      (findExceptClause rest).map (fun r => (c :: r.1, r.2.1, r.2.2))

/-- `\s+KW\s+\/[^\/]+\/[gimuy]*\s*` (no anchor, every part greedy with no
continuation to fail) searched leftmost, for the `suffix:`/`prefix:`
stripping steps: returns (prefix, regex literal, suffix). -/
def findReClauseAux (kw : String) : List Char → Option (List Char × String × List Char)
  | [] => none
  | c :: rest =>
    let here : Option (String × List Char) :=
      let w := wsRunLen (c :: rest)
      if w = 0 then none
      else match stripLit ((c :: rest).drop w) kw with
        | none => none
        | some l2 =>
          let w2 := wsRunLen l2
          if w2 = 0 then none
          else match matchRegexLit (l2.drop w2) with
            | (lit, tail) :: _ => some (lit, tail.drop (wsRunLen tail))
            | [] => none
    match here with
    | some (lit, tail) => some ([], lit, tail)
    | none => (findReClauseAux kw rest).map (fun r => (c :: r.1, r.2.1, r.2.2))

/-- Tail of `mainMatch`: `\s+for\s+(?:(files|dirs)\s+)?(.+?)\s*$`
(parser.ts:801).  After `for`, a `files`/`dirs` group is tried first (its
own `\s+(.+?)\s*$` continuation), falling back to the plain lazy pattern
capture. -/
def useTail (l : List Char) : Option (Option FileType × String) :=
  let w := wsRunLen l
  if w = 0 then none
  else match stripLit (l.drop w) "for" with
    | none => none
    | some l2 =>
      let w2 := wsRunLen l2
      if w2 = 0 then none
      else
        let pos := l2.drop w2
        (((stripLit pos "files").bind kwRest).map
            (fun p => (some FileType.files, p)))
        <|> (((stripLit pos "dirs").bind kwRest).map
            (fun p => (some FileType.dirs, p)))
        <|> (let p := trimRightL pos
             if p.isEmpty then none else some ((none : Option FileType), String.mk p))

/-- `^use\s+(.+?)\s+for\s+...` applied after the clause stripping. -/
def useMainMatch (line : String) : Option (String × Option FileType × String) :=
  ((stripLit line.data "use").bind (fun l => lazySplit l useTail)).map
    (fun r => (String.mk r.1, r.2.1, r.2.2))

/-! ### Statement handlers and the dispatch loop -/

/-- `WhereDirective` from `src/types.ts`. -/
inductive WhereDirective
  | config
  | cwd
  | glob (patterns : List String)
  | paths (paths : List String)
deriving DecidableEq, Repr

/-- `FsLintErrorKey` from `src/errors.ts`. -/
inductive ParseErr
  | invalidWhereDirective (lineNum : Nat)
  | invalidPathDirective (lineNum : Nat)
  | ruleFormatError (rule : String) (line : String) (lineNum : Nat)
  | renameMissingSources (line : String) (lineNum : Nat)
  | unknownPreset (name : String) (lineNum : Nat)
  | cannotParseLine (line : String) (lineNum : Nat)
deriving DecidableEq, Repr

/-- `looksLikeGlob` (parser.ts:52). -/
def looksLikeGlob (s : String) : Bool := hasGlobChar s || strContains s "/"

/-- `isNamingStyle` (parser.ts:56), as a partial mapping onto the model's
`NamingStyle`. -/
def namingStyleOf (s : String) : Option NamingStyle :=
  if s = "PascalCase" then some .pascalCase
  else if s = "camelCase" then some .camelCase
  else if s = "kebab-case" then some .kebabCase
  else if s = "snake_case" then some .snakeCase
  else if s = "SCREAMING_SNAKE_CASE" then some .screamingSnakeCase
  else if s = "flatcase" then some .flatcase
  else none

/-- The parsing state threaded through the dispatch loop. -/
structure ParseState where
  whereD : WhereDirective
  rules : List Rule
  imports : List String
  deps : List (String × List String)
deriving Repr

def initParseState : ParseState :=
  { whereD := .config, rules := [], imports := [], deps := [] }

/-- Import resolution is filesystem recursion; the model consumes it as an
oracle: `resolveImport configPath name` is the resolved path of a local
candidate or preset (parser.ts 436-448, `none` when neither exists), and
`readParse path` the outcome of the recursive
`parseFsLintConfigInternal` call on that file's contents (its rules and
transitive import list, or the propagated parse error). -/
structure ParseEnv where
  resolveImport : Option String → String → Option String
  readParse : String → Except ParseErr (List Rule × List String)

/-- Imported `thoseOnly` rules with a filled `only` are reset to empty so
the outermost fill-in pass re-fills them (parser.ts 466-472). -/
def resetImportedThoseOnly (rs : List Rule) : List Rule :=
  rs.map (fun r => match r with
    | .thoseOnly p only => if only.isEmpty then r else .thoseOnly p []
    | _ => r)

def depsAdd (deps : List (String × List String)) (k v : String) :
    List (String × List String) :=
  if deps.any (fun e => e.1 = k) then
    deps.map (fun e => if e.1 = k then (k, e.2 ++ [v]) else e)
  else deps ++ [(k, [v])]

/-- `rules.slice().reverse().find(...)`: the last permissive `inDirOnly`
rule for `dir`, with its index and `only` list (parser.ts 531-534). -/
def lastPermIdx (rules : List Rule) (dir : String) : Option (Nat × List String) :=
  rules.enum.foldl (fun acc er =>
    match er.2 with
    | .inDirOnly d only (some .permissive) _ =>
      if d = dir then some (er.1, only) else acc
    | _ => acc) none

def setInDirOnlyAt (rules : List Rule) (i : Nat) (newOnly : List String) : List Rule :=
  rules.enum.map (fun er =>
    if er.1 = i then
      match er.2 with
      | .inDirOnly d _ m ft => .inDirOnly d newOnly m ft
      | r => r
    else er.2)

def allAllowNames (rules : List Rule) : List String :=
  (rules.filterMap (fun r => match r with
    | .allow ns => some ns
    | _ => none)).flatten

/-- The `strict [files|dirs] in <dir>` handler (parser.ts 525-585).  In the
source, `allowedItems` aliases the found permissive rule's `only` array
when that list is nonempty, so pushing the root-level allow names mutates
the permissive rule as well; the model updates that rule explicitly.  (The
same aliasing also reaches `only` arrays of strict rules pushed by earlier
`strict in` statements for the same directory; those arrays are never read
again by the parser, so the model leaves them.) -/
def strictInHandler (st : ParseState) (dir : String) (ft : Option FileType) :
    ParseState :=
  let rootAllow := allAllowNames st.rules
  match lastPermIdx st.rules dir with
  | some (i, only) =>
    if !only.isEmpty then
      let combined := only ++ rootAllow
      { st with rules := setInDirOnlyAt st.rules i combined ++
          [.inDirOnly dir combined (some .strict) ft] }
    else
      { st with rules := st.rules ++ [.inDirOnly dir rootAllow (some .strict) ft] }
  | none =>
    { st with rules := st.rules ++ [.inDirOnly dir rootAllow (some .strict) ft] }

/-- The `rename` handler (parser.ts 707-743): relative glob targets inherit
the source pattern's directory part, then the statement is classified as a
directory or glob rename. -/
def renameHandler (st : ParseState) (leftRaw rightRaw line : String)
    (lineNum : Nat) : Except ParseErr ParseState :=
  let left := jsTrim leftRaw
  let right0 := jsTrim rightRaw
  let right :=
    if looksLikeGlob left && strContains right0 "*" && !strContains right0 "/"
        && !strContains right0 "**" then
      -- `/^(.+\/)(.+)$/`: split at the last `/` having at least one
      -- character on each side
      let idxs := (List.range left.data.length).filter (fun k =>
        left.data.get? k = some '/' && k ≥ 1 && k + 1 < left.data.length)
      match idxs.getLast? with
      | some k => String.mk (left.data.take (k + 1)) ++ right0
      | none =>
        -- `/^(.+\*\*\/)(.+)$/` (dead in practice: a `**/` implies a `/`)
        let idxs2 := (List.range left.data.length).filter (fun k =>
          ("**/".data).isPrefixOf (left.data.drop k) && k ≥ 1 &&
            k + 3 < left.data.length)
        match idxs2.getLast? with
        | some k => String.mk (left.data.take (k + 3)) ++ right0
        | none => right0
    else right0
  if looksLikeGlob left || looksLikeGlob right then
    .ok { st with rules := st.rules ++ [.renameGlob left right] }
  else
    let fromNames := splitCsvLike left
    if fromNames.isEmpty then .error (.renameMissingSources line lineNum)
    else .ok { st with rules := st.rules ++ [.renameDir fromNames right] }

/-- The `use <styles> for ...` handler (parser.ts 808-885), applied to the
already-stripped line. -/
def useHandler (st : ParseState) (stylesStr : String) (ft : Option FileType)
    (pattern : String) (prefixPat suffixPat exceptStr : Option String)
    (ifContains ifParentStyle : Option String) (line : String) (lineNum : Nat) :
    Except ParseErr ParseState :=
  if ifContains.isSome && ft ≠ some .dirs then
    .error (.ruleFormatError "if-contains can only be used with 'dirs'" line lineNum)
  else if ifParentStyle.isSome && ft ≠ some .files then
    .error (.ruleFormatError "if-parent-matches can only be used with 'files'" line lineNum)
  else
    match ifParentStyle with
    | some ips =>
      match namingStyleOf (jsTrim ips) with
      | none =>
        .error (.ruleFormatError
          ("if-parent-matches style \"" ++ ips ++
            "\" (must be PascalCase/camelCase/kebab-case/snake_case/SCREAMING_SNAKE_CASE/flatcase)")
          ips lineNum)
      | some ipsStyle => useEmit st stylesStr ft pattern prefixPat suffixPat
          exceptStr ifContains (some ipsStyle) line lineNum
    | none => useEmit st stylesStr ft pattern prefixPat suffixPat
        exceptStr ifContains none line lineNum
where
  useEmit (st : ParseState) (stylesStr : String) (ft : Option FileType)
      (pattern : String) (prefixPat suffixPat exceptStr : Option String)
      (ifContains : Option String) (ipsStyle : Option NamingStyle)
      (line : String) (lineNum : Nat) : Except ParseErr ParseState :=
    let styles := ((strSplitChar stylesStr (Char.ofNat 44)).map jsTrim).filter
      (fun s => !s.isEmpty)
    if styles.isEmpty then
      .error (.ruleFormatError "use...for (no styles provided)" line lineNum)
    else
      match styles.find? (fun s => (namingStyleOf s).isNone) with
      | some bad =>
        .error (.ruleFormatError
          ("naming style \"" ++ bad ++
            "\" (must be PascalCase/camelCase/kebab-case/snake_case/SCREAMING_SNAKE_CASE/flatcase)")
          bad lineNum)
      | none =>
        let trimmedPattern := jsTrim pattern
        let exceptList := exceptStr.map splitCsvLike
        let newRules := styles.filterMap (fun s =>
          (namingStyleOf s).map (fun style =>
            if ft = some .dirs then
              Rule.naming .inDir trimmedPattern style ft prefixPat suffixPat
                exceptList (ifContains.map jsTrim) none
            else if looksLikeGlob trimmedPattern || strContains trimmedPattern "*" then
              Rule.naming .those trimmedPattern style ft prefixPat suffixPat
                exceptList none ipsStyle
            else
              Rule.naming .inDir trimmedPattern style ft prefixPat suffixPat
                exceptList none ipsStyle))
        .ok { st with rules := st.rules ++ newRules }

/-- Result of the `use`-clause stripping steps (parser.ts 751-797). -/
structure UseStrip where
  stripped : String
  ifParentStyle : Option String
  ifContains : Option String
  exceptStr : Option String
  suffixPat : Option String
  prefixPat : Option String

/-- The sequential stripping of `if-parent-matches`, `if-contains`,
`except`, `suffix:` and `prefix:` clauses (parser.ts 762-797), each a
leftmost unanchored search-and-replace on the current line. -/
def useClauseStrip (line : String) : UseStrip :=
  let s0 := line.data
  let r1 := match findIfClause "if-parent-matches" s0 with
    | some (pre, tok) => (pre, some tok)
    | none => (s0, none)
  let r2 := match findIfClause "if-contains" r1.1 with
    | some (pre, tok) => (pre, some tok)
    | none => (r1.1, none)
  let r3 := match findExceptClause r2.1 with
    | some (pre, cap, tail) => (pre ++ tail, some (jsTrim (String.mk cap)))
    | none => (r2.1, none)
  let r4 := match findReClauseAux "suffix:" r3.1 with
    | some (pre, lit, tail) => (pre ++ ' ' :: tail, some lit)
    | none => (r3.1, none)
  let r5 := match findReClauseAux "prefix:" r4.1 with
    | some (pre, lit, tail) => (pre ++ ' ' :: tail, some lit)
    | none => (r4.1, none)
  { stripped := String.mk r5.1, ifParentStyle := r1.2, ifContains := r2.2,
    exceptStr := r3.2, suffixPat := r4.2, prefixPat := r5.2 }

/-- One iteration of the statement dispatch loop (parser.ts 389-889),
with every matcher tried in source order and first match winning.  The
`use`-clause stripping steps (762-797) rewrite the local `line` before
`mainMatch`, so the final `cannotParseLine` error carries the stripped
line, not the original one. -/
def parseLine (env : ParseEnv) (configPath : Option String) (st : ParseState)
    (pl : PLine) : Except ParseErr ParseState :=
  let lineNum := pl.lineNum
  if pl.content.isEmpty then .ok st
  else
    let line := arrayRewrite pl.content
    match whereMatch line with
    | some v0 =>
      let v := jsTrim v0
      if v.isEmpty then .error (.invalidWhereDirective lineNum)
      else if v = "cwd" then .ok { st with whereD := .cwd }
      else .ok { st with whereD := .glob [v] }
    | none =>
    match pathDirMatch line with
    | some v0 =>
      let v := jsTrim v0
      if v.isEmpty then .error (.invalidPathDirective lineNum)
      else if !strStarts v "where:" then .ok { st with whereD := .paths [v] }
      else .ok st
    | none =>
    match importMatch line with
    | some cap =>
      let importName := jsTrim cap
      if importName.isEmpty then
        .error (.ruleFormatError "import" line lineNum)
      else
        match env.resolveImport configPath importName with
        | none => .error (.unknownPreset importName lineNum)
        | some importPath =>
          if configPath = some importPath then .ok st   -- self-import: skipped
          else
            match env.readParse importPath with
            | .error e => .error e
            | .ok (irules, iimports) =>
              .ok { st with
                rules := st.rules ++ resetImportedThoseOnly irules,
                deps := match configPath with
                  | some c => depsAdd st.deps c importPath
                  | none => st.deps,
                imports := st.imports ++ [importPath] ++ iimports }
    | none =>
    match moveMatch line with
    | some fm =>
      .ok { st with rules := st.rules ++ [.move (jsTrim fm.1) (jsTrim fm.2)] }
    | none =>
    match strictForMatch line with
    | some fp =>
      -- fileType is captured but not stored: `thoseOnly` has no fileType
      .ok { st with rules := st.rules ++ [.thoseOnly (jsTrim fp.2) []] }
    | none =>
    match strictInOnlyMatch line with
    | some dir => .ok (strictInHandler st (jsTrim dir) none)
    | none =>
    match strictInMatch line with
    | some fd => .ok (strictInHandler st (jsTrim fd.2) (some fd.1))
    | none =>
    match allowInMatch line with
    | some kod =>
      .ok { st with rules := st.rules ++
        [.inDirOnly (jsTrim kod.2.2) (splitCsvLike kod.2.1) (some .permissive) none] }
    | none =>
    match allowMatch line with
    | some kn =>
      .ok { st with rules := st.rules ++ [.allow (splitCsvLike kn.2)] }
    | none =>
    match inAllowMatch line with
    | some dko =>
      .ok { st with rules := st.rules ++
        [.inDirOnly (jsTrim dko.1) (splitCsvLike dko.2.2) (some .permissive) none] }
    | none =>
    match inNamingMatch line with
    | some m =>
      match namingStyleOf m.2.2.1 with
      | none =>
        .error (.ruleFormatError
          "naming style (must be PascalCase/camelCase/kebab-case/snake_case/SCREAMING_SNAKE_CASE/flatcase)"
          m.2.2.1 lineNum)
      | some style =>
        .ok { st with rules := st.rules ++
          [.naming .inDir (jsTrim m.1) style m.2.1 m.2.2.2.1 m.2.2.2.2.1
            (m.2.2.2.2.2.map splitCsvLike) none none] }
    | none =>
    match thoseNamingMatch line with
    | some m =>
      match namingStyleOf m.2.2.1 with
      | none => .error (.ruleFormatError "naming style" m.2.2.1 lineNum)
      | some style =>
        .ok { st with rules := st.rules ++
          [.naming .those (jsTrim m.1) style m.2.1 m.2.2.2.1 m.2.2.2.2.1
            (m.2.2.2.2.2.map splitCsvLike) none none] }
    | none =>
    match noMatch line with
    | some kn => .ok { st with rules := st.rules ++ [.no (splitCsvLike kn.2)] }
    | none =>
    match mustHaveMatch line with
    | some names => .ok { st with rules := st.rules ++ [.has (splitCsvLike names)] }
    | none =>
    match hasMatch line with
    | some names => .ok { st with rules := st.rules ++ [.has (splitCsvLike names)] }
    | none =>
    match optionalMatch line with
    | some names =>
      .ok { st with rules := st.rules ++ [.optional (splitCsvLike names)] }
    | none =>
    match renameMatch line with
    | some lr => renameHandler st lr.1 lr.2 line lineNum
    | none =>
    -- `use` clause stripping (parser.ts 762-797): rewrites `line` itself
    let str := useClauseStrip line
    match useMainMatch str.stripped with
    | some m =>
      useHandler st m.1 m.2.1 m.2.2 str.prefixPat str.suffixPat str.exceptStr
        str.ifContains str.ifParentStyle str.stripped lineNum
    | none => .error (.cannotParseLine str.stripped lineNum)

/-- The dispatch loop over `processedLines`. -/
def runParse (env : ParseEnv) (configPath : Option String) :
    ParseState → List PLine → Except ParseErr ParseState
  | st, [] => .ok st
  | st, pl :: rest =>
    match parseLine env configPath st pl with
    | .error e => .error e
    | .ok st2 => runParse env configPath st2 rest

/-- `parseFsLintConfigInternal` from its preprocessed input (parser.ts
340-1045): build `processedLines`, run the dispatch, then the deferred
fill-in and the import topological sort. -/
def parseAfterPre (env : ParseEnv) (configPath : Option String) (raw : String) :
    Except ParseErr (WhereDirective × List Rule × List String) :=
  match runParse env configPath initParseState (processedLinesOf raw) with
  | .error e => .error e
  | .ok st => .ok (st.whereD, fillThoseOnlyRules st.rules,
      sortedImports st.imports st.deps)

/-- `true` when the line matches one of the dispatch's statement shapes —
the fall-through condition of parser.ts:888 (after the `use`-clause
stripping has rewritten the line). -/
def lineMatchesKnownShape (content : String) : Bool :=
  let line := arrayRewrite content
  (whereMatch line).isSome || (pathDirMatch line).isSome ||
  (importMatch line).isSome || (moveMatch line).isSome ||
  (strictForMatch line).isSome || (strictInOnlyMatch line).isSome ||
  (strictInMatch line).isSome || (allowInMatch line).isSome ||
  (allowMatch line).isSome || (inAllowMatch line).isSome ||
  (inNamingMatch line).isSome || (thoseNamingMatch line).isSome ||
  (noMatch line).isSome || (mustHaveMatch line).isSome ||
  (hasMatch line).isSome || (optionalMatch line).isSome ||
  (renameMatch line).isSome ||
  (useMainMatch (useClauseStrip line).stripped).isSome

/-- The stripped line text the final `cannotParseLine` error reports for a
given dispatch line. -/
def strippedLineOf (content : String) : String :=
  (useClauseStrip (arrayRewrite content)).stripped

/-! # Theorems -/

/-- Helper: the conjunction semantics of the when-condition loop. -/
theorem evaluateWhenList_eq_all (ctx : CondCtx) (root targetPath : String) :
    ∀ l : List Condition,
      evaluateWhenList ctx root targetPath l = true ↔
        ∀ c ∈ l, evaluateCondition ctx root c targetPath = true := by
  intro l
  induction l with
  | nil => simp [evaluateWhenList]
  | cons c rest ih =>
    simp only [evaluateWhenList]
    by_cases h : evaluateCondition ctx root c targetPath = true
    · simp [h, ih]
    · simp only [h, Bool.not_false, if_neg, Bool.false_eq_true, if_false]
      constructor
      · intro hfalse
        exact absurd hfalse (by simp)
      · intro hall
        exact absurd (hall c (by simp)) h

/-- C7: in the naming style checker, after extension, suffix and prefix
stripping, a remaining stem consisting purely of digits is reported valid
for every one of the six naming styles (naming.ts:152, the check preceding
every per-style stem validator). -/
theorem C7_numeric_stem_valid_for_all_styles (compile : RegexCompile)
    (name : String) (style : NamingStyle) (prefixPat suffixPat : Option String)
    (s1 stem : String)
    (hword : isWordLikeName (getNameWithoutExtension name) = true)
    (hsuf : applySuffixPhase compile (getNameWithoutExtension name) suffixPat = .ok s1)
    (hpre : applyPrefixPhase compile s1 prefixPat = .ok stem)
    (hnum : isPureNumeric stem = true) :
    checkNamingStyle compile name style prefixPat suffixPat = .valid := by
  unfold checkNamingStyle
  simp only [hword, Bool.not_true, Bool.false_eq_true, if_false, hsuf, hpre, hnum, if_true]

theorem C7_witness :
    (isWordLikeName (getNameWithoutExtension "404.ts") = true) ∧
    (applySuffixPhase (fun _ _ => none) (getNameWithoutExtension "404.ts") none =
      .ok "404") ∧
    (applyPrefixPhase (fun _ _ => none) "404" none = .ok "404") ∧
    (isPureNumeric "404" = true) ∧
    checkNamingStyle (fun _ _ => none) "404.ts" .kebabCase none none = .valid :=
  ⟨by decide, by rfl, by rfl, by decide,
   C7_numeric_stem_valid_for_all_styles (fun _ _ => none) "404.ts" .kebabCase
     none none "404" "404" (by decide) (by rfl) (by rfl) (by decide)⟩

/-- C8: condition evaluation is the conjunction of its parts —
`evaluateWhenConditions` returns true exactly when every condition in the
list evaluates to true for the target path, and an absent or empty list is
vacuously true (renameGlob.ts condition evaluator, lines 179-197). -/
theorem C8_when_conditions_conjunction (ctx : CondCtx) (root targetPath : String)
    (when : Option (List Condition)) :
    evaluateWhenConditions ctx root when targetPath = true ↔
      ∀ c ∈ when.getD [], evaluateCondition ctx root c targetPath = true := by
  cases when with
  | none => simp [evaluateWhenConditions]
  | some l =>
    cases l with
    | nil => simp [evaluateWhenConditions]
    | cons c rest =>
      simp only [evaluateWhenConditions, Option.getD_some, List.isEmpty_cons,
        Bool.false_eq_true, if_false]
      exact evaluateWhenList_eq_all ctx root targetPath (c :: rest)

/-- C10: condition type mismatches evaluate to false rather than erroring —
`isEmpty` and `contains` on a non-directory, `fileSize` on a directory,
`fileSize` when `stat` fails, and `fileSize` when the size literal does not
parse as a number with unit B/KB/MB/GB/TB, all yield `false`
(renameGlob.ts condition evaluator, lines 84-168). -/
theorem C10_condition_mismatches_false :
    (∀ (ctx : CondCtx) (root p : String), ctx.isDirectory p = false →
      evaluateCondition ctx root .isEmpty p = false) ∧
    (∀ (ctx : CondCtx) (root pat p : String), ctx.isDirectory p = false →
      evaluateCondition ctx root (.contains pat) p = false) ∧
    (∀ (ctx : CondCtx) (root op v p : String), ctx.isDirectory p = true →
      evaluateCondition ctx root (.fileSize op v) p = false) ∧
    (∀ (ctx : CondCtx) (root op v p : String), ctx.isDirectory p = false →
      ctx.statSize p = none →
      evaluateCondition ctx root (.fileSize op v) p = false) ∧
    (∀ (ctx : CondCtx) (root op v p : String), ctx.isDirectory p = false →
      parseSizeSpec v = none →
      evaluateCondition ctx root (.fileSize op v) p = false) := by
  refine ⟨?_, ?_, ?_, ?_, ?_⟩
  · intro ctx root p h
    simp [evaluateCondition, h]
  · intro ctx root pat p h
    simp [evaluateCondition, h]
  · intro ctx root op v p h
    simp [evaluateCondition, h]
  · intro ctx root op v p h hs
    simp [evaluateCondition, h, hs]
  · intro ctx root op v p h hp
    simp only [evaluateCondition, h, Bool.false_eq_true, if_false]
    cases hss : ctx.statSize p with
    | none => rfl
    | some sz => simp [hp]

/-- Concrete condition context for the C10 witness: no directories, no
entries, stat always fails. -/
def c10Ctx : CondCtx :=
  { isDirectory := fun _ => false
    listTopLevel := fun _ => []
    globScan := fun _ _ _ => []
    statSize := fun _ => none
    compile := fun _ _ => none }

def c10CtxDir : CondCtx := { c10Ctx with isDirectory := fun _ => true }

def c10CtxSized : CondCtx :=
  { c10Ctx with statSize := fun _ => some 5 }

theorem C10_witness :
    (evaluateCondition c10Ctx "." .isEmpty "f.txt" = false) ∧
    (evaluateCondition c10Ctx "." (.contains "x") "f.txt" = false) ∧
    (evaluateCondition c10CtxDir "." (.fileSize ">" "1MB") "d" = false) ∧
    (evaluateCondition c10Ctx "." (.fileSize ">" "1MB") "f.txt" = false) ∧
    (evaluateCondition c10CtxSized "." (.fileSize ">" "garbage") "f.txt" = false) :=
  ⟨C10_condition_mismatches_false.1 c10Ctx "." "f.txt" rfl,
   C10_condition_mismatches_false.2.1 c10Ctx "." "x" "f.txt" rfl,
   C10_condition_mismatches_false.2.2.1 c10CtxDir "." ">" "1MB" "d" rfl,
   C10_condition_mismatches_false.2.2.2.1 c10Ctx "." ">" "1MB" "f.txt" rfl rfl,
   C10_condition_mismatches_false.2.2.2.2 c10CtxSized "." ">" "garbage" "f.txt" rfl
     (by rfl)⟩

/-- Helper: everything the final filter keeps was in the raw list, survives
the ignore matcher, and has a key outside `seen`. -/
theorem finalFilter_mem (ig : String → Bool) (relOf : String → String) :
    ∀ (raw : List Issue) (seen : List (RuleKind × String)) (i : Issue),
      i ∈ finalFilter ig relOf raw seen →
        i ∈ raw ∧ ig (relOf i.path) = false ∧ issueKey i ∉ seen := by
  intro raw
  induction raw with
  | nil => intro seen i h; simp [finalFilter] at h
  | cons a rest ih =>
    intro seen i h
    simp only [finalFilter] at h
    by_cases h1 : ig (relOf a.path) = true
    · rw [if_pos h1] at h
      obtain ⟨hm, hig, hs⟩ := ih seen i h
      exact ⟨List.mem_cons_of_mem a hm, hig, hs⟩
    · rw [if_neg h1] at h
      by_cases h2 : (seen.contains (issueKey a)) = true
      · rw [if_pos h2] at h
        obtain ⟨hm, hig, hs⟩ := ih seen i h
        exact ⟨List.mem_cons_of_mem a hm, hig, hs⟩
      · rw [if_neg h2] at h
        rcases List.mem_cons.mp h with rfl | h3
        · refine ⟨List.mem_cons_self _ _, Bool.not_eq_true _ ▸ h1, ?_⟩
          intro hmem
          exact h2 (by simpa using hmem)
        · obtain ⟨hm, hig, hs⟩ := ih _ i h3
          refine ⟨List.mem_cons_of_mem a hm, hig, ?_⟩
          intro hmem
          exact hs (List.mem_append_left _ hmem)

/-- Helper: the final filter emits at most one issue per
`(ruleKind, path)` key. -/
theorem finalFilter_pairwise (ig : String → Bool) (relOf : String → String) :
    ∀ (raw : List Issue) (seen : List (RuleKind × String)),
      (finalFilter ig relOf raw seen).Pairwise
        (fun a b => issueKey a ≠ issueKey b) := by
  intro raw
  induction raw with
  | nil => intro seen; simp [finalFilter]
  | cons a rest ih =>
    intro seen
    simp only [finalFilter]
    by_cases h1 : ig (relOf a.path) = true
    · rw [if_pos h1]; exact ih seen
    · rw [if_neg h1]
      by_cases h2 : (seen.contains (issueKey a)) = true
      · rw [if_pos h2]; exact ih seen
      · rw [if_neg h2]
        refine List.Pairwise.cons ?_ (ih _)
        intro b hb heq
        obtain ⟨_, _, hs⟩ := finalFilter_mem ig relOf rest _ b hb
        exact hs (heq ▸ List.mem_append_right _ (List.mem_singleton_self _))

/-- C9: final dedup invariant — in every `LintResult`, the issues list
contains no issue whose root-relative path the merged ignore ruleset
matches, and at most one issue per `(ruleKind, path)` pair
(lint.ts 1384-1426, the last transformation before the result is built). -/
theorem C9_final_filter_invariant (env : LintEnv) (ig : String → Bool)
    (relOf : String → String) (st : LintState) (rules : List Rule) :
    (∀ i ∈ lintFinalIssues env ig relOf st rules, ig (relOf i.path) = false) ∧
    (lintFinalIssues env ig relOf st rules).Pairwise
      (fun a b => issueKey a ≠ issueKey b) :=
  ⟨fun i hi => (finalFilter_mem ig relOf _ [] i hi).2.1,
   finalFilter_pairwise ig relOf _ []⟩

/-! ### C1: missing-directory behaviour of `inDirOnly` groups -/

/-- A one-rule directory group in explicit strict mode. -/
def c1group : List InDirRule :=
  [{ dir := "app", only := ["*.ts"], mode := some .strict, fileType := none }]

/-- C1 counterexample: the claim says a group in strict mode whose
directory does not exist produces no issue, but for a group holding an
explicitly strict rule the engine pushes `issue.inDirOnly.dirMustExist`
(lint.ts 354-363) — the group is in strict mode and the issue list is
nonempty. -/
theorem C1_counterexample :
    groupHasStrictMode false c1group = true ∧
    (inDirGroupMissingDirStep "app" c1group false).1 ≠ [] := by
  decide

/-- C1 amended: for a group whose directory does not exist, content is
never checked, and exactly one `dirMustExist` issue is produced iff some
rule in the group is explicitly strict or has no mode set — an
all-explicitly-permissive group produces no issue (and a global strict
override alone never requires the directory to exist: lint.ts 341-354
consults only the per-rule modes for this decision). -/
theorem C1_missing_dir_amended (dir : String) (group : List InDirRule) :
    ((inDirGroupMissingDirStep dir group false).2 = false) ∧
    ((inDirGroupMissingDirStep dir group false).1 = [] ↔
      groupHasExplicitStrictMode group = false) ∧
    (groupHasExplicitStrictMode group = true →
      (inDirGroupMissingDirStep dir group false).1 =
        [{ ruleKind := .inDirOnly, path := dir, displayPath := dir,
           message := .inDirOnlyDirMustExist (group.flatMap (fun r => r.only)),
           category := .missing, severity := .error, origin := none }]) := by
  unfold inDirGroupMissingDirStep
  cases h : groupHasExplicitStrictMode group <;> simp [h]

theorem C1_witness :
    groupHasExplicitStrictMode c1group = true ∧
    (inDirGroupMissingDirStep "app" c1group false).1 =
      [{ ruleKind := .inDirOnly, path := "app", displayPath := "app",
         message := .inDirOnlyDirMustExist ["*.ts"],
         category := .missing, severity := .error, origin := none }] :=
  ⟨by decide, (C1_missing_dir_amended "app" c1group).2.2 (by decide)⟩

/-! ### C4: deferred `thoseOnly` fill-in -/

/-- Helper: membership in the collected allow-item union. -/
theorem mem_allAllowedItems (rules : List Rule) (x : String) :
    x ∈ allAllowedItems rules ↔
      ((∃ ns, Rule.allow ns ∈ rules ∧ x ∈ ns) ∨
       (∃ d only ft pat, Rule.inDirOnly d only (some .permissive) ft ∈ rules ∧
          pat ∈ only ∧ x = prefixInDirPattern d pat)) := by
  simp only [allAllowedItems, List.mem_append, List.mem_flatten, List.mem_filterMap]
  constructor
  · rintro (⟨l, ⟨r, hr, hmat⟩, hx⟩ | ⟨l, ⟨r, hr, hmat⟩, hx⟩)
    · left
      cases r <;> simp only [Option.some.injEq, reduceCtorEq] at hmat
      case allow ns => exact ⟨ns, hr, hmat ▸ hx⟩
    · right
      cases r with
      | inDirOnly d only m ft =>
        cases m with
        | none => simp at hmat
        | some mv =>
          cases mv with
          | strict => simp at hmat
          | permissive =>
            simp only [Option.some.injEq] at hmat
            rw [← hmat] at hx
            obtain ⟨pat, hpat, rfl⟩ := List.mem_map.mp hx
            exact ⟨d, only, ft, pat, hr, hpat, rfl⟩
      | _ => simp_all
  · rintro (⟨ns, hr, hx⟩ | ⟨d, only, ft, pat, hr, hpat, rfl⟩)
    · exact Or.inl ⟨ns, ⟨_, hr, rfl⟩, hx⟩
    · exact Or.inr ⟨only.map (prefixInDirPattern d), ⟨_, hr, rfl⟩,
        List.mem_map_of_mem _ hpat⟩

/-- C4: deferred fill-in — a `ThoseOnly` rule parsed with an empty `only`
list is filled after the whole file is parsed from the union of all
root-level `Allow` names and all permissive `InDirOnly` patterns (each
prefixed with its directory unless it already contains `/` or starts with
`**`), the bare `"*"` always excluded; when the rule's pattern has no
recognizable extension the filled list is exactly that union minus `"*"`
(parser.ts 975-1043). -/
theorem C4_deferred_fill_in (rules : List Rule) (k : Nat) (p : String)
    (hk : rules.get? k = some (.thoseOnly p [])) :
    (∀ x, x ∈ allAllowedItems rules ↔
      ((∃ ns, Rule.allow ns ∈ rules ∧ x ∈ ns) ∨
       (∃ d only ft pat, Rule.inDirOnly d only (some .permissive) ft ∈ rules ∧
          pat ∈ only ∧ x = prefixInDirPattern d pat))) ∧
    ∃ filled, (fillThoseOnlyRules rules).get? k = some (.thoseOnly p filled) ∧
      "*" ∉ filled ∧ (∀ x ∈ filled, x ∈ allAllowedItems rules) ∧
      (findExtension p = none →
        filled = (allAllowedItems rules).filter (fun i => i ≠ "*")) := by
  refine ⟨fun x => mem_allAllowedItems rules x, fillOnlyFor p (allAllowedItems rules),
    ?_, ?_, ?_, ?_⟩
  · rw [fillThoseOnlyRules, List.get?_map, hk]
    rfl
  · intro hmem
    have : "*" ∈ (allAllowedItems rules).filter (fun i => decide (i ≠ "*")) := by
      unfold fillOnlyFor at hmem
      cases h : findExtension p with
      | none => rw [h] at hmem; exact hmem
      | some ext => rw [h] at hmem; exact List.mem_of_mem_filter hmem
    have := List.of_mem_filter this
    simp at this
  · intro x hx
    unfold fillOnlyFor at hx
    cases h : findExtension p with
    | none => rw [h] at hx; exact List.mem_of_mem_filter hx
    | some ext =>
      rw [h] at hx
      exact List.mem_of_mem_filter (List.mem_of_mem_filter hx)
  · intro h
    unfold fillOnlyFor
    rw [h]

/-- Rules for the C4 witness: an empty `thoseOnly` with an extensionless
pattern, one root allow rule, one permissive directory rule. -/
def c4rules : List Rule :=
  [.thoseOnly "**/" [], .allow ["src", "*"],
   .inDirOnly "docs" ["*.md"] (some .permissive) none]

theorem C4_witness :
    (c4rules.get? 0 = some (.thoseOnly "**/" [])) ∧
    ∃ filled, (fillThoseOnlyRules c4rules).get? 0 = some (.thoseOnly "**/" filled) ∧
      "*" ∉ filled ∧ (∀ x ∈ filled, x ∈ allAllowedItems c4rules) ∧
      (findExtension "**/" = none →
        filled = (allAllowedItems c4rules).filter (fun i => i ≠ "*")) :=
  ⟨by rfl, (C4_deferred_fill_in c4rules 0 "**/" (by rfl)).2⟩

/-! ### Engine lemmas for the override/allow laws (C2, C3) -/

/-- What an issue pushed by the handler of `r` at index `idx` can look
like: its rule kind matches the handler, and for the blacklist/whitelist
handlers its path lies in the rule's glob matches. -/
def pushedShape (env : LintEnv) (r : Rule) (iss : Issue) : Prop :=
  match r with
  | .no ns => iss.ruleKind = .no ∧ ∃ n ∈ ns, iss.path ∈ env.matchFiles n
  | .thoseOnly p _ => iss.ruleKind = .thoseOnly ∧ iss.path ∈ env.matchFiles p
  | .allow _ => False
  | .optional _ => False
  | .inDirOnly _ _ _ _ => False
  | .move _ _ => iss.ruleKind = .move
  | .renameDir _ _ => iss.ruleKind = .renameDir
  | .renameGlob _ _ => iss.ruleKind = .renameGlob
  | .has _ => iss.ruleKind = .has
  | .naming _ _ _ _ _ _ _ _ _ => iss.ruleKind = .naming

/-- Generic issue-membership lemma for handler folds. -/
theorem mem_rawIssues_foldl {β : Type} (f : LintState → β → LintState)
    (S : Issue → Prop) :
    ∀ (l : List β) (st : LintState),
      (∀ s b, b ∈ l → ∀ iss, iss ∈ (f s b).rawIssues → iss ∈ s.rawIssues ∨ S iss) →
      ∀ iss ∈ (l.foldl f st).rawIssues, iss ∈ st.rawIssues ∨ S iss := by
  intro l
  induction l with
  | nil => intro st _ iss h; exact Or.inl h
  | cons b rest ih =>
    intro st hf iss h
    have step := ih (f st b)
      (fun s b2 hb2 => hf s b2 (List.mem_cons_of_mem b hb2)) iss h
    rcases step with hmem | hS
    · exact hf st b (List.mem_cons_self _ _) iss hmem
    · exact Or.inr hS

theorem mem_pushIssue (st : LintState) (i iss : Issue) :
    iss ∈ (pushIssue st i).rawIssues → iss ∈ st.rawIssues ∨ iss = i := by
  intro h
  rcases List.mem_append.mp h with h1 | h2
  · exact Or.inl h1
  · exact Or.inr (List.mem_singleton.mp h2)

/-- Issues present after one handler run: either they were already there,
or the handler pushed them, carrying its own index as origin and the
handler's shape. -/
theorem processRule_mem (env : LintEnv) (st : LintState) (idx : Nat)
    (r : Rule) (iss : Issue) :
    iss ∈ (processRule env st idx r).rawIssues →
      iss ∈ st.rawIssues ∨ (iss.origin = some idx ∧ pushedShape env r iss) := by
  cases r with
  | inDirOnly d only m ft => intro h; exact Or.inl h
  | move fromGlob toDir =>
    intro h
    have h2 := mem_rawIssues_foldl _ (fun i => i.origin = some idx ∧ i.ruleKind = .move)
      (env.matchFiles fromGlob) _ ?step iss h
    case step =>
      intro s b _ i hi
      dsimp only at hi
      split at hi
      · exact Or.inl hi
      · rcases mem_pushIssue _ _ _ hi with h1 | rfl
        · exact Or.inl h1
        · exact Or.inr ⟨rfl, rfl⟩
    rcases h2 with h2 | h2
    · -- back through the optional destMustBeDir push
      split at h2
      · rcases mem_pushIssue _ _ _ h2 with h1 | rfl
        · exact Or.inl h1
        · exact Or.inr ⟨rfl, rfl⟩
      · exact Or.inl h2
    · exact Or.inr ⟨h2.1, h2.2⟩
  | thoseOnly p only =>
    intro h
    have h2 := mem_rawIssues_foldl _
      (fun i => i.origin = some idx ∧ i.ruleKind = .thoseOnly ∧
        i.path ∈ env.matchFiles p)
      (env.matchFiles p) _ ?step iss h
    case step =>
      intro s b hb i hi
      split at hi
      · exact Or.inl hi
      · rcases mem_pushIssue _ _ _ hi with h1 | rfl
        · exact Or.inl h1
        · exact Or.inr ⟨rfl, rfl, hb⟩
    rcases h2 with h2 | h2
    · -- through the pattern-override removal (a filter) and the map update
      dsimp only at h2
      left
      rcases hml : mapLookup st.processedThoseOnlyPatterns p with _ | v
      · rw [hml] at h2; exact h2
      · rw [hml] at h2; exact List.mem_of_mem_filter h2
    · exact Or.inr ⟨h2.1, h2.2.1, h2.2.2⟩
  | renameDir fromNames toName =>
    intro h
    have h2 := mem_rawIssues_foldl _
      (fun i => i.origin = some idx ∧ i.ruleKind = .renameDir) fromNames _ ?step iss h
    case step =>
      intro s b _ i hi
      dsimp only at hi
      split at hi
      · exact Or.inl hi
      · rcases mem_pushIssue _ _ _ hi with h1 | rfl
        · exact Or.inl h1
        · exact Or.inr ⟨rfl, rfl⟩
    rcases h2 with h2 | h2
    · exact Or.inl h2
    · exact Or.inr ⟨h2.1, h2.2⟩
  | renameGlob fromGlob toPat =>
    intro h
    have h2 := mem_rawIssues_foldl _
      (fun i => i.origin = some idx ∧ i.ruleKind = .renameGlob)
      (env.matchFiles fromGlob) _ ?step iss h
    case step =>
      intro s b _ i hi
      rcases mem_pushIssue _ _ _ hi with h1 | rfl
      · exact Or.inl h1
      · exact Or.inr ⟨rfl, rfl⟩
    rcases h2 with h2 | h2
    · exact Or.inl h2
    · exact Or.inr ⟨h2.1, h2.2⟩
  | no ns =>
    intro h
    have h2 := mem_rawIssues_foldl _
      (fun i => i.origin = some idx ∧ i.ruleKind = .no ∧
        ∃ n ∈ ns, i.path ∈ env.matchFiles n) ns _ ?step iss h
    case step =>
      intro s b hb i hi
      have h3 := mem_rawIssues_foldl _
        (fun i => i.origin = some idx ∧ i.ruleKind = .no ∧
          ∃ n ∈ ns, i.path ∈ env.matchFiles n)
        (env.matchFiles b) _ ?istep i hi
      case istep =>
        intro s2 b2 hb2 i2 hi2
        split at hi2
        · exact Or.inl hi2
        · rcases mem_pushIssue _ _ _ hi2 with h1 | rfl
          · exact Or.inl h1
          · exact Or.inr ⟨rfl, rfl, b, hb, hb2⟩
      exact h3
    rcases h2 with h2 | h2
    · exact Or.inl (List.mem_of_mem_filter h2)
    · exact Or.inr ⟨h2.1, h2.2.1, h2.2.2⟩
  | has ns =>
    intro h
    have h2 := mem_rawIssues_foldl _
      (fun i => i.origin = some idx ∧ i.ruleKind = .has) ns _ ?step iss h
    case step =>
      intro s b _ i hi
      dsimp only at hi
      split at hi
      · split at hi
        · have h3 := mem_rawIssues_foldl
            (fun (s2 : LintState) (m : String) =>
              { s2 with
                matchedGlobFiles := s2.matchedGlobFiles ++ [pickTopLevelName m],
                rootAllowedSet := s2.rootAllowedSet.map (fun l => l ++ [m]) })
            (fun _ => False) _ _ ?gstep i hi
          case gstep => intro s2 b2 _ i2 hi2; exact Or.inl hi2
          rcases h3 with h3 | h3
          · exact Or.inl h3
          · exact absurd h3 not_false
        · rcases mem_pushIssue _ _ _ hi with h1 | rfl
          · exact Or.inl h1
          · exact Or.inr ⟨rfl, rfl⟩
      · split at hi
        · exact Or.inl hi
        · rcases mem_pushIssue _ _ _ hi with h1 | rfl
          · exact Or.inl h1
          · exact Or.inr ⟨rfl, rfl⟩
    rcases h2 with h2 | h2
    · exact Or.inl h2
    · exact Or.inr ⟨h2.1, h2.2⟩
  | allow ns =>
    intro h
    exact Or.inl (List.mem_of_mem_filter h)
  | optional ns =>
    intro h
    exact Or.inl (List.mem_of_mem_filter h)
  | naming t pat sty ft pre suf exc ifc ips =>
    intro h
    have h2 := mem_rawIssues_foldl _
      (fun i => i.origin = some idx ∧ i.ruleKind = .naming)
      (env.namingIssues idx) _ ?step iss h
    case step =>
      intro s b _ i hi
      rcases mem_pushIssue _ _ _ hi with h1 | rfl
      · exact Or.inl h1
      · exact Or.inr ⟨rfl, rfl⟩
    rcases h2 with h2 | h2
    · exact Or.inl h2
    · exact Or.inr ⟨h2.1, h2.2⟩

theorem runRules_append (env : LintEnv) (st : LintState)
    (a b : List (Nat × Rule)) :
    runRules env st (a ++ b) = runRules env (runRules env st a) b := by
  induction a generalizing st with
  | nil => rfl
  | cons e rest ih =>
    simp only [List.cons_append, runRules]
    exact ih _

/-- Issue predicates closed under every handler in the rest of the run are
preserved to the end. -/
theorem runRules_pred_preserve (env : LintEnv) (G : Issue → Prop) :
    ∀ (L : List (Nat × Rule)) (st : LintState),
      (∀ e ∈ L, ∀ iss : Issue, iss.origin = some e.1 → pushedShape env e.2 iss → G iss) →
      (∀ iss ∈ st.rawIssues, G iss) →
      ∀ iss ∈ (runRules env st L).rawIssues, G iss := by
  intro L
  induction L with
  | nil => intro st _ hinit iss h; exact hinit iss h
  | cons e rest ih =>
    intro st hstep hinit iss h
    refine ih (processRule env st e.1 e.2)
      (fun e2 he2 => hstep e2 (List.mem_cons_of_mem e he2)) ?_ iss h
    intro i2 hi2
    rcases processRule_mem env st e.1 e.2 i2 hi2 with hmem | ⟨horig, hshape⟩
    · exact hinit i2 hmem
    · exact hstep e (List.mem_cons_self _ _) i2 horig hshape

/-- After the `no` handler for a rule matching `F`, every `no`-kind issue
for `F` carries this handler's index (the override removal of
lint.ts 851-868 deleted all earlier ones). -/
theorem est_no (env : LintEnv) (st : LintState) (idx : Nat) (ns : List String)
    (F : String) (hF : ∃ n ∈ ns, F ∈ env.matchFiles n) :
    ∀ iss ∈ (processRule env st idx (.no ns)).rawIssues,
      iss.ruleKind = .no → iss.path = F → iss.origin = some idx := by
  intro iss h hkind hpath
  -- `iss` either survived the handler's override filter or was pushed by
  -- the handler; a `(no, F)` issue cannot survive the filter.
  have hsurv : iss ∈ (st.rawIssues.filter (fun i =>
      !(i.ruleKind = RuleKind.no && (ns.flatMap env.matchFiles).contains i.path))) ∨
      (iss.origin = some idx ∧ pushedShape env (.no ns) iss) := by
    have h2 := mem_rawIssues_foldl _
      (fun i => i.origin = some idx ∧ pushedShape env (.no ns) i) ns _ ?step iss h
    case step =>
      intro s b hb i hi
      have h3 := mem_rawIssues_foldl _
        (fun i => i.origin = some idx ∧ pushedShape env (.no ns) i)
        (env.matchFiles b) _ ?istep i hi
      case istep =>
        intro s2 b2 hb2 i2 hi2
        split at hi2
        · exact Or.inl hi2
        · rcases mem_pushIssue _ _ _ hi2 with h1 | rfl
          · exact Or.inl h1
          · exact Or.inr ⟨rfl, rfl, b, hb, hb2⟩
      exact h3
    exact h2
  rcases hsurv with hsurv | ⟨horig, _⟩
  · exfalso
    have hpred := List.of_mem_filter hsurv
    rw [hkind] at hpred
    simp at hpred
    obtain ⟨n, hn, hFn⟩ := hF
    exact hpred n hn (hpath ▸ hFn)
  · exact horig

/-- After the `allow` handler for a rule matching `F`, no `no`-kind issue
for `F` remains (lint.ts 947-966). -/
theorem est_allow (env : LintEnv) (st : LintState) (idx : Nat)
    (ns : List String) (F : String) (hF : ∃ n ∈ ns, F ∈ env.matchFiles n) :
    ∀ iss ∈ (processRule env st idx (.allow ns)).rawIssues,
      ¬(iss.ruleKind = .no ∧ iss.path = F) := by
  intro iss h ⟨hkind, hpath⟩
  have hpred := List.of_mem_filter h
  rw [hkind] at hpred
  simp at hpred
  obtain ⟨n, hn, hFn⟩ := hF
  exact hpred n hn (hpath ▸ hFn)

/-- After the `thoseOnly` handler for pattern `p` whose pattern has been
seen before, every `thoseOnly`-kind issue on a file `p` matches carries
this handler's index (lint.ts 752-767). -/
theorem est_thoseOnly (env : LintEnv) (st : LintState) (idx : Nat)
    (p : String) (only : List String)
    (hmap : (mapLookup st.processedThoseOnlyPatterns p).isSome = true) :
    ∀ iss ∈ (processRule env st idx (.thoseOnly p only)).rawIssues,
      iss.ruleKind = .thoseOnly → iss.path ∈ env.matchFiles p →
        iss.origin = some idx := by
  intro iss h hkind hpath
  obtain ⟨v, hv⟩ := Option.isSome_iff_exists.mp hmap
  have hsurv : iss ∈ (st.rawIssues.filter (fun i =>
      !(i.ruleKind = RuleKind.thoseOnly && (env.matchFiles p).contains i.path))) ∨
      (iss.origin = some idx ∧ iss.ruleKind = .thoseOnly ∧
        iss.path ∈ env.matchFiles p) := by
    have h2 := mem_rawIssues_foldl _
      (fun i => i.origin = some idx ∧ i.ruleKind = .thoseOnly ∧
        i.path ∈ env.matchFiles p)
      (env.matchFiles p) _ ?step iss h
    case step =>
      intro s b hb i hi
      split at hi
      · exact Or.inl hi
      · rcases mem_pushIssue _ _ _ hi with h1 | rfl
        · exact Or.inl h1
        · exact Or.inr ⟨rfl, rfl, hb⟩
    rcases h2 with h2 | h2
    · rw [hv] at h2
      exact Or.inl h2
    · exact Or.inr h2
  rcases hsurv with hsurv | ⟨horig, _⟩
  · exfalso
    have hpred := List.of_mem_filter hsurv
    rw [hkind] at hpred
    simp at hpred
    exact hpred hpath
  · exact horig

/-! #### `processedThoseOnlyPatterns` bookkeeping -/

theorem mapLookup_isSome_iff (m : List (String × Nat)) (k : String) :
    (mapLookup m k).isSome = true ↔ ∃ e ∈ m, e.1 = k := by
  unfold mapLookup
  simp [List.find?_isSome]

theorem mapLookup_mapSet_isSome (m : List (String × Nat)) (k : String) (v : Nat)
    (k2 : String) (h : (mapLookup m k2).isSome = true) :
    (mapLookup (mapSet m k v) k2).isSome = true := by
  rw [mapLookup_isSome_iff] at h ⊢
  unfold mapSet
  split
  · obtain ⟨e, he, hek⟩ := h
    by_cases hk : e.1 = k
    · refine ⟨(k, v), List.mem_map.mpr ⟨e, he, by simp [hk]⟩, by rw [← hek, hk]⟩
    · exact ⟨e, List.mem_map.mpr ⟨e, he, by simp [hk]⟩, hek⟩
  · obtain ⟨e, he, hek⟩ := h
    exact ⟨e, List.mem_append_left _ he, hek⟩

theorem mapLookup_mapSet_self_isSome (m : List (String × Nat)) (k : String)
    (v : Nat) : (mapLookup (mapSet m k v) k).isSome = true := by
  rw [mapLookup_isSome_iff]
  unfold mapSet
  split
  case isTrue hany =>
    obtain ⟨e, he, hek⟩ := List.any_eq_true.mp hany
    simp only [decide_eq_true_eq] at hek
    exact ⟨(k, v), List.mem_map.mpr ⟨e, he, by simp [hek]⟩, rfl⟩
  case isFalse =>
    exact ⟨(k, v), List.mem_append_right _ (List.mem_singleton_self _), rfl⟩

/-- Handler folds never touch the pattern map. -/
theorem foldl_preserves_map {β : Type} (f : LintState → β → LintState)
    (hf : ∀ s b, (f s b).processedThoseOnlyPatterns = s.processedThoseOnlyPatterns) :
    ∀ (l : List β) (st : LintState),
      (l.foldl f st).processedThoseOnlyPatterns = st.processedThoseOnlyPatterns := by
  intro l
  induction l with
  | nil => intro st; rfl
  | cons b rest ih =>
    intro st
    rw [List.foldl_cons, ih, hf]

/-- The pattern map after one handler: `thoseOnly` records its pattern,
every other handler leaves the map unchanged. -/
theorem processRule_map (env : LintEnv) (st : LintState) (idx : Nat) (r : Rule) :
    (processRule env st idx r).processedThoseOnlyPatterns =
      match r with
      | .thoseOnly p _ => mapSet st.processedThoseOnlyPatterns p idx
      | _ => st.processedThoseOnlyPatterns := by
  cases r with
  | inDirOnly d only m ft => rfl
  | move fromGlob toDir =>
    simp only [processRule]
    rw [foldl_preserves_map]
    · split <;> rfl
    · intro s b; dsimp only; split <;> rfl
  | thoseOnly p only =>
    simp only [processRule]
    rw [foldl_preserves_map]
    · dsimp only
      split <;> rfl
    · intro s b; dsimp only; split <;> rfl
  | renameDir fromNames toName =>
    simp only [processRule]
    rw [foldl_preserves_map]
    · intro s b; dsimp only; split <;> rfl
  | renameGlob fromGlob toPat =>
    simp only [processRule]
    rw [foldl_preserves_map]
    · intro s b; dsimp only; split <;> rfl
  | no ns =>
    simp only [processRule]
    rw [foldl_preserves_map]
    · intro s b
      dsimp only
      rw [foldl_preserves_map]
      intro s2 b2; dsimp only; split <;> rfl
  | has ns =>
    simp only [processRule]
    rw [foldl_preserves_map]
    · intro s b
      dsimp only
      split
      · split
        · rw [foldl_preserves_map]
          intro s2 b2; rfl
        · rfl
      · split <;> rfl
  | allow ns => rfl
  | optional ns => rfl
  | naming t pat sty ft pre suf exc ifc ips =>
    simp only [processRule]
    rw [foldl_preserves_map]
    · intro s b; rfl

/-- Once a pattern key is present in the map it stays present. -/
theorem runRules_map_isSome (env : LintEnv) (p : String) :
    ∀ (L : List (Nat × Rule)) (st : LintState),
      (mapLookup st.processedThoseOnlyPatterns p).isSome = true →
      (mapLookup (runRules env st L).processedThoseOnlyPatterns p).isSome = true := by
  intro L
  induction L with
  | nil => intro st h; exact h
  | cons e rest ih =>
    intro st h
    refine ih _ ?_
    rw [processRule_map]
    cases e.2 with
    | thoseOnly p2 only2 => exact mapLookup_mapSet_isSome _ _ _ _ h
    | inDirOnly d only m ft => exact h
    | move a b => exact h
    | renameDir a b => exact h
    | renameGlob a b => exact h
    | no a => exact h
    | has a => exact h
    | allow a => exact h
    | optional a => exact h
    | naming a b c d e2 f g h2 i => exact h

/-! #### Indexing the rule list -/

theorem enumFrom_get {α : Type} :
    ∀ (l : List α) (n : Nat) (x : Nat × α), x ∈ l.enumFrom n →
      n ≤ x.1 ∧ l.get? (x.1 - n) = some x.2 := by
  intro l
  induction l with
  | nil => intro n x h; simp [List.enumFrom] at h
  | cons a rest ih =>
    intro n x h
    rw [List.enumFrom] at h
    rcases List.mem_cons.mp h with rfl | h2
    · simp
    · obtain ⟨h1, h2⟩ := ih (n + 1) x h2
      refine ⟨by omega, ?_⟩
      have : x.1 - n = (x.1 - (n + 1)) + 1 := by omega
      rw [this]
      simpa using h2

theorem get?_enumFrom {α : Type} :
    ∀ (l : List α) (n i : Nat),
      (l.enumFrom n).get? i = (l.get? i).map (fun a => (n + i, a)) := by
  intro l
  induction l with
  | nil => intro n i; simp [List.enumFrom]
  | cons a rest ih =>
    intro n i
    cases i with
    | zero => simp [List.enumFrom]
    | succ m =>
      rw [List.enumFrom]
      show (rest.enumFrom (n + 1)).get? m = _
      rw [ih]
      have h1 : n + (m + 1) = n + 1 + m := by omega
      simp only [List.get?_cons_succ, h1]

theorem enum_split {α : Type} (l : List α) (j : Nat) (r : α)
    (h : l.get? j = some r) :
    l.enum = (l.take j).enum ++ (j, r) :: (l.drop (j + 1)).enumFrom (j + 1) := by
  have hj : j < l.length := List.get?_eq_some.mp h |>.1
  have hdrop : l.drop j = r :: l.drop (j + 1) := by
    rw [List.drop_eq_get_cons hj]
    congr 1
    have := List.get?_eq_get hj
    rw [h] at this
    exact (Option.some.injEq _ _ ▸ this).symm
  have htake : (l.take j).length = j := List.length_take_of_le (le_of_lt hj)
  calc l.enum = (l.take j ++ l.drop j).enum := by rw [List.take_append_drop]
    _ = (l.take j).enum ++ (l.drop j).enumFrom (l.take j).length := by
        rw [List.enum_append]
    _ = (l.take j).enum ++ (j, r) :: (l.drop (j + 1)).enumFrom (j + 1) := by
        rw [htake, hdrop, List.enumFrom_cons]

theorem enumFrom_split {α : Type} (l : List α) (n m : Nat) (r : α)
    (h : l.get? m = some r) :
    l.enumFrom n = (l.take m).enumFrom n ++
      (n + m, r) :: (l.drop (m + 1)).enumFrom (n + m + 1) := by
  have hm : m < l.length := List.get?_eq_some.mp h |>.1
  have hdrop : l.drop m = r :: l.drop (m + 1) := by
    rw [List.drop_eq_get_cons hm]
    congr 1
    have := List.get?_eq_get hm
    rw [h] at this
    exact (Option.some.injEq _ _ ▸ this).symm
  have htake : (l.take m).length = m := List.length_take_of_le (le_of_lt hm)
  calc l.enumFrom n = (l.take m ++ l.drop m).enumFrom n := by
        rw [List.take_append_drop]
    _ = (l.take m).enumFrom n ++ (l.drop m).enumFrom (n + (l.take m).length) := by
        rw [List.enumFrom_append]
    _ = (l.take m).enumFrom n ++ (n + m, r) :: (l.drop (m + 1)).enumFrom (n + m + 1) := by
        rw [htake, hdrop, List.enumFrom_cons]

/-- C3 counterexample inputs: one file `debug.log` matching both the
`Allow` pattern and the `NoFiles` pattern, with the `Allow` rule declared
first. -/
def c3Env : LintEnv :=
  { matchFiles := fun p => if p = "debug.log" then ["debug.log"] else []
    matchMany := fun ps => if ps.contains "debug.log" then ["debug.log"] else []
    pathExists := fun p => p = "debug.log"
    isDirectory := fun _ => false
    readdirCount := fun _ => 0
    namingIssues := fun _ => [] }

def c3Init : LintState :=
  { rawIssues := [], processedThoseOnlyPatterns := [], rootAllowedSet := none,
    matchedGlobFiles := [] }

def c3Rules : List Rule := [.allow ["debug.log"], .no ["debug.log"]]

/-- C3 counterexample: `debug.log` matches both a `NoFiles` pattern and an
`Allow` pattern of the same config, yet — because the `Allow` rule is
declared before the `NoFiles` rule and the allow handler only retracts
already-recorded issues (lint.ts 947-966) — the final result still holds a
forbidden `no` issue for it.  The claim's "regardless of the relative
declaration order" is therefore false. -/
theorem C3_counterexample :
    ("debug.log" ∈ c3Env.matchFiles "debug.log") ∧
    (c3Rules.get? 1 = some (.no ["debug.log"])) ∧
    (c3Rules.get? 0 = some (.allow ["debug.log"])) ∧
    ((lintFinalIssues c3Env (fun _ => false) (fun p => p) c3Init c3Rules).any
      (fun iss => iss.ruleKind = RuleKind.no && iss.path = "debug.log" &&
        iss.category = Category.forbidden) = true) := by
  decide

/-- C3 amended: the allow law holds once order is taken into account — if
`F` matches an `Allow` rule and every `NoFiles` rule matching `F` precedes
that `Allow` rule, the final lint result contains no `no`-kind (forbidden)
issue for `F` (lint.ts 947-966 together with the ordered phase-2 loop). -/
theorem C3_allow_law_amended (env : LintEnv) (ig : String → Bool)
    (relOf : String → String) (st : LintState) (rules : List Rule)
    (j : Nat) (ns : List String) (F : String)
    (hj : rules.get? j = some (.allow ns))
    (hmatch : ∃ n ∈ ns, F ∈ env.matchFiles n)
    (hlater : ∀ k nsk, j < k → rules.get? k = some (.no nsk) →
      ¬∃ n ∈ nsk, F ∈ env.matchFiles n) :
    ∀ iss ∈ lintFinalIssues env ig relOf st rules,
      ¬(iss.ruleKind = RuleKind.no ∧ iss.path = F) := by
  intro iss hiss
  have hraw := (finalFilter_mem ig relOf _ [] iss hiss).1
  rw [enumRules] at hraw
  rw [enum_split rules j (.allow ns) hj, runRules_append] at hraw
  simp only [runRules] at hraw
  refine runRules_pred_preserve env
    (fun i => ¬(i.ruleKind = RuleKind.no ∧ i.path = F)) _ _ ?hstep ?hinit iss hraw
  case hinit =>
    exact est_allow env _ j ns F hmatch
  case hstep =>
    intro e he i horig hshape hP
    obtain ⟨hkind, hpath⟩ := hP
    obtain ⟨hle, hget⟩ := enumFrom_get _ _ _ he
    have hgete : rules.get? e.1 = some e.2 := by
      rw [List.get?_drop] at hget
      have harith : j + 1 + (e.1 - (j + 1)) = e.1 := by omega
      rwa [harith] at hget
    cases e2 : e.2 <;> rw [e2] at hshape
    case no nsk =>
      rw [e2] at hgete
      obtain ⟨_, n, hn, hFn⟩ := hshape
      exact hlater e.1 nsk (by omega) hgete ⟨n, hn, hpath ▸ hFn⟩
    case allow ns2 => exact hshape
    case optional ns2 => exact hshape
    case inDirOnly d o m ft => exact hshape
    case thoseOnly p2 o2 => exact absurd (hkind.symm.trans hshape.1) (by decide)
    case move a b => exact absurd (hkind.symm.trans hshape) (by decide)
    case renameDir a b => exact absurd (hkind.symm.trans hshape) (by decide)
    case renameGlob a b => exact absurd (hkind.symm.trans hshape) (by decide)
    case has a => exact absurd (hkind.symm.trans hshape) (by decide)
    case naming a b c d f g h2 i2 k2 =>
      exact absurd (hkind.symm.trans hshape) (by decide)

/-- Rule list for the C3 witness: the `NoFiles` rule precedes the `Allow`
rule, so the amended (order-aware) law applies. -/
def c3WRules : List Rule := [.no ["debug.log"], .allow ["debug.log"]]

/-- Witness for the amended C3 law at a concrete input. -/
theorem C3_witness :
    (c3WRules.get? 1 = some (.allow ["debug.log"])) ∧
    ∀ iss ∈ lintFinalIssues c3Env (fun _ => false) (fun p => p) c3Init c3WRules,
      ¬(iss.ruleKind = RuleKind.no ∧ iss.path = "debug.log") :=
  ⟨rfl, C3_allow_law_amended c3Env (fun _ => false) (fun p => p) c3Init c3WRules
    1 ["debug.log"] "debug.log" rfl (by decide) (by
      intro k nsk hk hget
      have hnone : c3WRules.get? k = none := by
        apply List.get?_eq_none.mpr
        simp only [c3WRules, List.length_cons, List.length_nil]
        omega
      rw [hnone] at hget
      cases hget)⟩

/-! ### C2: override law for same-kind rules -/

/-- C2: override law for same-kind rules.  Part one: for two `NoFiles`
rules R1 (index `i`, earlier) and R2 (index `j`, later) both matching `F`,
no final `no`-kind issue for `F` stems from R1 — R2's handler removed every
earlier `no` issue on its matched files before pushing its own
(lint.ts 851-868), and every later push carries a later origin.  Part two:
for two `ThoseOnly` rules with an identical pattern, the later rule
supersedes the earlier one — its handler finds the pattern in
`processedThoseOnlyPatterns` and removes every previously recorded
`ThoseOnly` issue on files the pattern matches before adding its own
(lint.ts 752-767), so no final `thoseOnly` issue on a matched file stems
from the earlier rule. -/
theorem C2_override_law (env : LintEnv) (ig : String → Bool)
    (relOf : String → String) (st : LintState) (rules : List Rule) :
    (∀ i j ns1 ns2 (F : String),
       rules.get? i = some (.no ns1) → rules.get? j = some (.no ns2) →
       i < j →
       (∃ n ∈ ns1, F ∈ env.matchFiles n) → (∃ n ∈ ns2, F ∈ env.matchFiles n) →
       ∀ iss ∈ lintFinalIssues env ig relOf st rules,
         iss.ruleKind = RuleKind.no → iss.path = F → iss.origin ≠ some i) ∧
    (∀ i j p o1 o2,
       rules.get? i = some (.thoseOnly p o1) →
       rules.get? j = some (.thoseOnly p o2) →
       i < j →
       ∀ iss ∈ lintFinalIssues env ig relOf st rules,
         iss.ruleKind = RuleKind.thoseOnly → iss.path ∈ env.matchFiles p →
           iss.origin ≠ some i) := by
  constructor
  · intro i j ns1 ns2 F hi hj hij hm1 hm2 iss hiss hkind hpath
    have hraw := (finalFilter_mem ig relOf _ [] iss hiss).1
    rw [enumRules] at hraw
    rw [enum_split rules j (.no ns2) hj, runRules_append] at hraw
    simp only [runRules] at hraw
    have hG : ∃ k, iss.origin = some k ∧ j ≤ k := by
      refine runRules_pred_preserve env
        (fun i2 => i2.ruleKind = RuleKind.no → i2.path = F →
          ∃ k, i2.origin = some k ∧ j ≤ k) _ _ ?hstep ?hinit iss hraw hkind hpath
      case hstep =>
        intro e he i2 horig hshape hk2 hp2
        obtain ⟨hle, -⟩ := enumFrom_get _ _ _ he
        exact ⟨e.1, horig, by omega⟩
      case hinit =>
        intro i2 hi2 hk2 hp2
        exact ⟨j, est_no env _ j ns2 F hm2 i2 hi2 hk2 hp2, Nat.le_refl j⟩
    obtain ⟨k, hk, hjk⟩ := hG
    intro heq
    have hik : i = k := Option.some.inj (heq.symm.trans hk)
    omega
  · intro i j p o1 o2 hi hj hij iss hiss hkind hpath
    have hraw := (finalFilter_mem ig relOf _ [] iss hiss).1
    rw [enumRules] at hraw
    rw [enum_split rules i (.thoseOnly p o1) hi, runRules_append] at hraw
    simp only [runRules] at hraw
    have hseg : (rules.drop (i + 1)).get? (j - i - 1) = some (.thoseOnly p o2) := by
      rw [List.get?_drop]
      have harith : i + 1 + (j - i - 1) = j := by omega
      rw [harith]
      exact hj
    rw [enumFrom_split _ (i + 1) (j - i - 1) _ hseg, runRules_append] at hraw
    simp only [runRules] at hraw
    have hA : i + 1 + (j - i - 1) = j := by omega
    rw [hA] at hraw
    have hmap1 : (mapLookup
        ((processRule env (runRules env st ((rules.take i).enum)) i
          (.thoseOnly p o1)).processedThoseOnlyPatterns) p).isSome = true := by
      rw [processRule_map]
      exact mapLookup_mapSet_self_isSome _ _ _
    have hmap2 := runRules_map_isSome env p
      (((rules.drop (i + 1)).take (j - i - 1)).enumFrom (i + 1)) _ hmap1
    have hG : ∃ k, iss.origin = some k ∧ j ≤ k := by
      refine runRules_pred_preserve env
        (fun i2 => i2.ruleKind = RuleKind.thoseOnly → i2.path ∈ env.matchFiles p →
          ∃ k, i2.origin = some k ∧ j ≤ k) _ _ ?hstep ?hinit iss hraw hkind hpath
      case hstep =>
        intro e he i2 horig hshape hk2 hp2
        obtain ⟨hle, -⟩ := enumFrom_get _ _ _ he
        exact ⟨e.1, horig, by omega⟩
      case hinit =>
        intro i2 hi2 hk2 hp2
        exact ⟨j, est_thoseOnly env _ j p o2 hmap2 i2 hi2 hk2 hp2, Nat.le_refl j⟩
    obtain ⟨k, hk, hjk⟩ := hG
    intro heq
    have hik : i = k := Option.some.inj (heq.symm.trans hk)
    omega

/-- C2 witness inputs. -/
def c2Env : LintEnv :=
  { matchFiles := fun p =>
      if p = "debug.log" then ["debug.log"]
      else if p = "src/*" then ["src/a.ts"] else []
    matchMany := fun ps => if ps.contains "debug.log" then ["debug.log"] else []
    pathExists := fun p => p = "debug.log"
    isDirectory := fun _ => false
    readdirCount := fun _ => 0
    namingIssues := fun _ => [] }

def c2Init : LintState :=
  { rawIssues := [], processedThoseOnlyPatterns := [], rootAllowedSet := none,
    matchedGlobFiles := [] }

def c2WRules : List Rule :=
  [.no ["debug.log"], .no ["debug.log"],
   .thoseOnly "src/*" [], .thoseOnly "src/*" []]

/-- Witness for C2 at a concrete four-rule configuration exercising both
parts of the override law. -/
theorem C2_witness :
    (c2WRules.get? 0 = some (.no ["debug.log"])) ∧
    (c2WRules.get? 1 = some (.no ["debug.log"])) ∧
    (c2WRules.get? 2 = some (.thoseOnly "src/*" [])) ∧
    (c2WRules.get? 3 = some (.thoseOnly "src/*" [])) ∧
    (∀ iss ∈ lintFinalIssues c2Env (fun _ => false) (fun p => p) c2Init c2WRules,
      iss.ruleKind = RuleKind.no → iss.path = "debug.log" →
        iss.origin ≠ some 0) ∧
    (∀ iss ∈ lintFinalIssues c2Env (fun _ => false) (fun p => p) c2Init c2WRules,
      iss.ruleKind = RuleKind.thoseOnly → iss.path ∈ c2Env.matchFiles "src/*" →
        iss.origin ≠ some 2) :=
  ⟨rfl, rfl, rfl, rfl,
    (C2_override_law c2Env (fun _ => false) (fun p => p) c2Init c2WRules).1
      0 1 ["debug.log"] ["debug.log"] "debug.log" rfl rfl (by decide)
      (by decide) (by decide),
    (C2_override_law c2Env (fun _ => false) (fun p => p) c2Init c2WRules).2
      2 3 "src/*" [] [] rfl rfl (by decide)⟩

/-! ### C6: unparseable lines are fatal -/

theorem option_isSome_false {α : Type} {o : Option α} (h : o.isSome = false) :
    o = none := by
  cases o with
  | none => rfl
  | some a => simp at h

theorem drop_eq_cons_of_get {α : Type} (l : List α) (k : Nat) (x : α)
    (h : l.get? k = some x) : l.drop k = x :: l.drop (k + 1) := by
  have hk : k < l.length := List.get?_eq_some.mp h |>.1
  rw [List.drop_eq_get_cons hk]
  congr 1
  have := List.get?_eq_get hk
  rw [h] at this
  exact (Option.some.injEq _ _ ▸ this).symm

/-- A non-empty dispatch line matching no statement shape always falls all
the way through to the `cannotParseLine` throw of parser.ts:888, which
carries the clause-stripped line text. -/
theorem parseLine_unknown (env : ParseEnv) (cp : Option String)
    (st : ParseState) (pl : PLine) (hne : pl.content.isEmpty = false)
    (h : lineMatchesKnownShape pl.content = false) :
    parseLine env cp st pl =
      .error (.cannotParseLine (strippedLineOf pl.content) pl.lineNum) := by
  unfold lineMatchesKnownShape at h
  simp only [Bool.or_eq_false_iff] at h
  obtain ⟨⟨⟨⟨⟨⟨⟨⟨⟨⟨⟨⟨⟨⟨⟨⟨⟨h1, h2⟩, h3⟩, h4⟩, h5⟩, h6⟩, h7⟩, h8⟩, h9⟩, h10⟩,
    h11⟩, h12⟩, h13⟩, h14⟩, h15⟩, h16⟩, h17⟩, h18⟩ := h
  unfold parseLine strippedLineOf
  rw [hne]
  simp only [Bool.false_eq_true, if_false,
    option_isSome_false h1, option_isSome_false h2, option_isSome_false h3,
    option_isSome_false h4, option_isSome_false h5, option_isSome_false h6,
    option_isSome_false h7, option_isSome_false h8, option_isSome_false h9,
    option_isSome_false h10, option_isSome_false h11, option_isSome_false h12,
    option_isSome_false h13, option_isSome_false h14, option_isSome_false h15,
    option_isSome_false h16, option_isSome_false h17, option_isSome_false h18]

theorem runParse_append (env : ParseEnv) (cp : Option String) :
    ∀ (a b : List PLine) (st : ParseState),
      runParse env cp st (a ++ b) =
        match runParse env cp st a with
        | .error e => .error e
        | .ok st2 => runParse env cp st2 b := by
  intro a
  induction a with
  | nil => intro b st; rfl
  | cons pl rest ih =>
    intro b st
    simp only [List.cons_append, runParse]
    cases parseLine env cp st pl with
    | error e => rfl
    | ok st2 => exact ih b st2

/-- C6 amended: `parseFsLintConfigInternal` is fatal on unrecognized input
— if the `k`-th processed line is non-blank and matches no known statement
shape (and the lines before it parsed), the whole parse returns the
`cannotParseLine` error carrying that line's number together with its
clause-STRIPPED text (parser.ts:888); it never returns a config.  The
frozen claim's "carrying that line's text" is inexact: the reported text
has the `if-…`/`except`/`prefix:`/`suffix:` clauses removed. -/
theorem C6_fatal_amended (env : ParseEnv) (cp : Option String) (raw : String)
    (k : Nat) (pl : PLine) (st : ParseState)
    (hk : (processedLinesOf raw).get? k = some pl)
    (hpre : runParse env cp initParseState ((processedLinesOf raw).take k) = .ok st)
    (hne : pl.content.isEmpty = false)
    (hun : lineMatchesKnownShape pl.content = false) :
    parseAfterPre env cp raw =
      .error (.cannotParseLine (strippedLineOf pl.content) pl.lineNum) := by
  have hsplit : processedLinesOf raw =
      (processedLinesOf raw).take k ++ pl :: (processedLinesOf raw).drop (k + 1) := by
    conv_lhs => rw [← List.take_append_drop k (processedLinesOf raw)]
    rw [drop_eq_cons_of_get _ _ _ hk]
  unfold parseAfterPre
  rw [hsplit, runParse_append, hpre]
  simp only [runParse, parseLine_unknown env cp st pl hne hun]

/-- Import environment for the C6 concrete inputs: no presets resolve. -/
def c6Env : ParseEnv :=
  { resolveImport := fun _ _ => none
    readParse := fun _ => .error (.invalidWhereDirective 0) }

/-- C6 counterexample: for the input line `blah if-contains x` — which
matches no statement shape — the parse is indeed fatal, but the
`cannotParseLine` error carries the stripped text `blah`, not the line's
own text `blah if-contains x` as the claim states. -/
theorem C6_counterexample :
    (processedLinesOf "blah if-contains x" =
      [{ content := "blah if-contains x", lineNum := 1 }]) ∧
    lineMatchesKnownShape "blah if-contains x" = false ∧
    parseAfterPre c6Env none "blah if-contains x" =
      .error (.cannotParseLine "blah" 1) ∧
    strippedLineOf "blah if-contains x" ≠ "blah if-contains x" := by
  refine ⟨rfl, rfl, rfl, ?_⟩
  decide

/-- Witness for the amended C6 statement at the same concrete input. -/
theorem C6_witness :
    ((processedLinesOf "blah if-contains x").get? 0 =
      some { content := "blah if-contains x", lineNum := 1 }) ∧
    parseAfterPre c6Env none "blah if-contains x" =
      .error (.cannotParseLine (strippedLineOf "blah if-contains x") 1) :=
  ⟨rfl, C6_fatal_amended c6Env none "blah if-contains x" 0
    { content := "blah if-contains x", lineNum := 1 } initParseState
    rfl rfl rfl rfl⟩

/-! ### C5: Kahn topological sort of the imports -/

/-! #### Association-map access lemmas -/

theorem any_key_iff (d : List (String × Int)) (k : String) :
    d.any (fun e => e.1 = k) = true ↔ k ∈ dKeys d := by
  rw [List.any_eq_true]
  unfold dKeys
  constructor
  · rintro ⟨e, he, hek⟩
    simp only [decide_eq_true_eq] at hek
    exact List.mem_map.mpr ⟨e, he, hek⟩
  · intro h
    obtain ⟨e, he, hek⟩ := List.mem_map.mp h
    exact ⟨e, he, by simp [hek]⟩

theorem dGet_map_set_ne (d : List (String × Int)) (k : String) (v : Int)
    (k2 : String) (h : k2 ≠ k) :
    dGet (d.map (fun e => if e.1 = k then (k, v) else e)) k2 = dGet d k2 := by
  induction d with
  | nil => rfl
  | cons e rest ih =>
    by_cases he : e.1 = k
    · simp only [List.map_cons, if_pos he]
      unfold dGet
      rw [List.find?_cons_of_neg _ (by simp [Ne.symm h]),
        List.find?_cons_of_neg _ (by simp [he, Ne.symm h])]
      exact ih
    · simp only [List.map_cons, if_neg he]
      by_cases h2 : e.1 = k2
      · unfold dGet
        rw [List.find?_cons_of_pos _ (by simp [h2]),
          List.find?_cons_of_pos _ (by simp [h2])]
      · unfold dGet
        rw [List.find?_cons_of_neg _ (by simp [h2]),
          List.find?_cons_of_neg _ (by simp [h2])]
        exact ih

theorem dGet_map_set_self (d : List (String × Int)) (k : String) (v : Int)
    (h : k ∈ dKeys d) :
    dGet (d.map (fun e => if e.1 = k then (k, v) else e)) k = v := by
  induction d with
  | nil => cases h
  | cons e rest ih =>
    by_cases he : e.1 = k
    · simp only [List.map_cons, if_pos he]
      unfold dGet
      rw [List.find?_cons_of_pos _ (by simp)]
      rfl
    · simp only [List.map_cons, if_neg he]
      unfold dGet
      rw [List.find?_cons_of_neg _ (by simp [he])]
      have h2 : k ∈ dKeys rest := by
        unfold dKeys at h ⊢
        rcases List.mem_map.mp h with ⟨e2, he2, hk2⟩
        rcases List.mem_cons.mp he2 with rfl | hmem
        · exact absurd hk2 he
        · exact List.mem_map.mpr ⟨e2, hmem, hk2⟩
      exact ih h2

theorem dGet_dSet (d : List (String × Int)) (k : String) (v : Int)
    (k2 : String) :
    dGet (dSet d k v) k2 = if k2 = k then v else dGet d k2 := by
  unfold dSet
  by_cases hk : d.any (fun e => e.1 = k) = true
  · rw [if_pos hk]
    by_cases h2 : k2 = k
    · subst h2
      rw [if_pos rfl]
      exact dGet_map_set_self d k2 v ((any_key_iff d k2).mp hk)
    · rw [if_neg h2]
      exact dGet_map_set_ne d k v k2 h2
  · rw [if_neg hk]
    have hnone : d.find? (fun e => e.1 = k) = none := by
      rw [List.find?_eq_none]
      intro e he hek
      exact hk ((any_key_iff d k).mpr (List.mem_map.mpr
        ⟨e, he, by simpa using hek⟩))
    by_cases h2 : k2 = k
    · subst h2
      unfold dGet
      rw [List.find?_append, hnone, Option.none_or,
        List.find?_cons_of_pos _ (by simp)]
      rw [if_pos rfl]
      rfl
    · unfold dGet
      rw [List.find?_append]
      rw [if_neg h2]
      have htail : ([((k, v))] : List (String × Int)).find? (fun e => e.1 = k2) = none := by
        rw [List.find?_eq_none]
        intro e he hek
        rw [List.mem_singleton] at he
        subst he
        simp only [decide_eq_true_eq] at hek
        exact h2 hek.symm
      rw [htail]
      cases d.find? (fun e => e.1 = k2) <;> rfl

theorem dKeys_dSet_mem (d : List (String × Int)) (k : String) (v : Int)
    (h : k ∈ dKeys d) : dKeys (dSet d k v) = dKeys d := by
  unfold dSet
  rw [if_pos ((any_key_iff d k).mpr h)]
  unfold dKeys
  rw [List.map_map]
  apply List.map_congr_left
  intro e _
  by_cases he : e.1 = k
  · simp [he]
  · simp [he]

theorem gKeys_gAppend (g : List (String × List String)) (k v : String) :
    gKeys (gAppend g k v) = gKeys g := by
  unfold gKeys gAppend
  rw [List.map_map]
  apply List.map_congr_left
  intro e _
  by_cases he : e.1 = k
  · simp [he]
  · simp [he]

theorem gGet_gAppend (g : List (String × List String)) (k v k2 : String) :
    gGet (gAppend g k v) k2 =
      if k2 = k then (gGet g k).map (fun s => s ++ [v]) else gGet g k2 := by
  induction g with
  | nil => by_cases h2 : k2 = k <;> simp [h2, gAppend, gGet]
  | cons e rest ih =>
    unfold gAppend gGet at ih ⊢
    by_cases he : e.1 = k <;> by_cases h2 : k2 = k
    · subst h2
      simp only [List.map_cons, if_pos he, if_pos rfl] at ih ⊢
      rw [List.find?_cons_of_pos _ (by simp),
        List.find?_cons_of_pos _ (by simp [he])]
      simp
    · simp only [List.map_cons, if_pos he, if_neg h2] at ih ⊢
      rw [List.find?_cons_of_neg _
          (by simp only [decide_eq_true_eq]; exact fun hh => h2 hh.symm),
        List.find?_cons_of_neg _
          (by simp only [decide_eq_true_eq]
              exact fun hh => h2 (he.symm.trans hh).symm)]
      exact ih
    · subst h2
      simp only [List.map_cons, if_neg he, if_pos rfl] at ih ⊢
      rw [List.find?_cons_of_neg _ (by simp only [decide_eq_true_eq]; exact he),
        List.find?_cons_of_neg _ (by simp only [decide_eq_true_eq]; exact he)]
      exact ih
    · simp only [List.map_cons, if_neg he, if_neg h2] at ih ⊢
      by_cases h3 : e.1 = k2
      · rw [List.find?_cons_of_pos _ (by simp [h3]),
          List.find?_cons_of_pos _ (by simp [h3])]
      · rw [List.find?_cons_of_neg _ (by simp [h3]),
          List.find?_cons_of_neg _ (by simp [h3])]
        exact ih

theorem gGet_isSome_iff (g : List (String × List String)) (k : String) :
    (gGet g k).isSome = true ↔ k ∈ gKeys g := by
  unfold gGet gKeys
  rw [Option.isSome_map']
  rw [List.find?_isSome]
  constructor
  · rintro ⟨e, he, hek⟩
    simp only [decide_eq_true_eq] at hek
    exact List.mem_map.mpr ⟨e, he, hek⟩
  · intro h
    obtain ⟨e, he, hek⟩ := List.mem_map.mp h
    exact ⟨e, he, by simp [hek]⟩

/-! #### Predecessor / successor lemmas -/

theorem mem_predsOf_keys (g : List (String × List String)) (k b : String)
    (h : b ∈ predsOf g k) : b ∈ gKeys g := by
  unfold predsOf at h
  unfold gKeys
  obtain ⟨e, he, hek⟩ := List.mem_map.mp h
  exact List.mem_map.mpr ⟨e, List.mem_of_mem_filter he, hek⟩

theorem mem_succsOf_entry (g : List (String × List String)) (b a : String)
    (h : a ∈ succsOf g b) : ∃ e ∈ g, e.1 = b ∧ a ∈ e.2 := by
  unfold succsOf gGet at h
  cases hf : g.find? (fun e => e.1 = b) with
  | none => rw [hf] at h; cases h
  | some e =>
    rw [hf] at h
    refine ⟨e, List.mem_of_find?_eq_some hf, ?_, h⟩
    have := List.find?_some hf
    simpa using this

theorem mem_predsOf_iff (g : List (String × List String))
    (hnd : (gKeys g).Nodup) (b k : String) :
    b ∈ predsOf g k ↔ b ∈ gKeys g ∧ k ∈ succsOf g b := by
  induction g with
  | nil => simp [predsOf, gKeys]
  | cons e rest ih =>
    unfold gKeys at hnd
    rw [List.map_cons, List.nodup_cons] at hnd
    obtain ⟨hout, hrest⟩ := hnd
    have ihr := ih hrest
    by_cases hb : e.1 = b
    · constructor
      · intro h
        unfold predsOf at h
        by_cases hc : e.2.contains k
        · refine ⟨List.mem_map.mpr ⟨e, List.mem_cons_self _ _, hb⟩, ?_⟩
          unfold succsOf gGet
          rw [List.find?_cons_of_pos _ (by simp [hb])]
          simpa using hc
        · rw [List.filter_cons_of_neg (by simpa using hc)] at h
          exfalso
          have hbr : b ∈ gKeys rest :=
            mem_predsOf_keys rest k b h
          exact hout (hb ▸ hbr)
      · rintro ⟨hmem, hsucc⟩
        unfold succsOf gGet at hsucc
        rw [List.find?_cons_of_pos _ (by simp [hb])] at hsucc
        unfold predsOf
        rw [List.filter_cons_of_pos (by simpa using hsucc)]
        exact List.mem_map.mpr ⟨e, List.mem_cons_self _ _, hb⟩
    · have hstep : b ∈ predsOf (e :: rest) k ↔ b ∈ predsOf rest k := by
        unfold predsOf
        by_cases hc : e.2.contains k
        · rw [List.filter_cons_of_pos (by simpa using hc), List.map_cons]
          constructor
          · intro h
            rcases List.mem_cons.mp h with h1 | h2
            · exact absurd h1.symm hb
            · exact h2
          · exact fun h => List.mem_cons_of_mem _ h
        · rw [List.filter_cons_of_neg (by simpa using hc)]
      have hkey : (b ∈ gKeys (e :: rest)) ↔ b ∈ gKeys rest := by
        unfold gKeys
        rw [List.map_cons]
        constructor
        · intro h
          rcases List.mem_cons.mp h with h1 | h2
          · exact absurd h1.symm hb
          · exact h2
        · exact fun h => List.mem_cons_of_mem _ h
      have hsucc : succsOf (e :: rest) b = succsOf rest b := by
        unfold succsOf gGet
        rw [List.find?_cons_of_neg _ (by simp [hb])]
      rw [hstep, hkey, hsucc, ihr]

theorem predsOf_nodup (g : List (String × List String))
    (hnd : (gKeys g).Nodup) (k : String) : (predsOf g k).Nodup := by
  unfold predsOf
  unfold gKeys at hnd
  have hsub : List.Sublist
      ((g.filter (fun e => e.2.contains k)).map (fun e => e.1))
      (g.map (fun e => e.1)) := List.Sublist.map _ (List.filter_sublist g)
  exact hnd.sublist hsub

theorem unsortedPreds_nil (g : List (String × List String)) (k : String) :
    unsortedPreds g [] k = predsOf g k := by
  unfold unsortedPreds
  simp

theorem unsortedPreds_append (g : List (String × List String))
    (sorted : List String) (c k : String) :
    unsortedPreds g (sorted ++ [c]) k =
      (unsortedPreds g sorted k).filter (fun p => !(decide (p = c))) := by
  unfold unsortedPreds
  rw [List.filter_filter]
  apply List.filter_congr
  intro p _
  by_cases hs : p ∈ sorted
  · simp [hs]
  · by_cases hc : p = c <;> simp [hs, hc]

theorem length_filter_ne_of_nodup (l : List String) (hnd : l.Nodup)
    (c : String) :
    (l.filter (fun p => !(decide (p = c)))).length =
      if c ∈ l then l.length - 1 else l.length := by
  induction l with
  | nil => simp
  | cons a rest ih =>
    rw [List.nodup_cons] at hnd
    obtain ⟨hout, hrest⟩ := hnd
    by_cases hac : a = c
    · subst hac
      rw [List.filter_cons_of_neg (by simp)]
      rw [if_pos (List.mem_cons_self _ _)]
      rw [ih hrest, if_neg hout]
      simp
    · rw [List.filter_cons_of_pos (by simp [hac])]
      by_cases hcr : c ∈ rest
      · rw [if_pos (List.mem_cons_of_mem _ hcr), List.length_cons,
          ih hrest, if_pos hcr, List.length_cons]
        have h1 : 1 ≤ rest.length := List.length_pos_of_mem hcr
        omega
      · rw [if_neg (by simp [hcr, Ne.symm hac])]
        rw [List.length_cons, ih hrest, if_neg hcr, List.length_cons]

theorem filter_eq_nil_all (l : List String) (sorted : List String)
    (h : l.filter (fun p => !(decide (p ∈ sorted))) = []) :
    ∀ p ∈ l, p ∈ sorted := by
  intro p hp
  by_contra hps
  have : p ∈ l.filter (fun p => !(decide (p ∈ sorted))) :=
    List.mem_filter.mpr ⟨hp, by simp [hps]⟩
  rw [h] at this
  cases this

theorem contains_append_ne (l : List String) (A k : String) (h : k ≠ A) :
    (l ++ [A]).contains k = l.contains k := by
  by_cases hm : k ∈ l <;> simp [hm, h]

theorem gAppend_not_mem (g : List (String × List String)) (dep A : String)
    (h : ¬ dep ∈ gKeys g) : gAppend g dep A = g := by
  unfold gAppend
  conv_rhs => rw [← List.map_id g]
  apply List.map_congr_left
  intro e he
  have hne : ¬ e.1 = dep := fun hh => h (List.mem_map.mpr ⟨e, he, hh⟩)
  simp [hne]

theorem predsOf_gAppend_ne (g : List (String × List String)) (dep A k : String)
    (hk : k ≠ A) : predsOf (gAppend g dep A) k = predsOf g k := by
  induction g with
  | nil => rfl
  | cons e rest ih =>
    unfold predsOf gAppend at ih ⊢
    rw [List.map_cons]
    by_cases he : e.1 = dep
    · rw [if_pos he]
      simp only [List.filter_cons]
      rw [show ((e.2 ++ [A]).contains k) = e.2.contains k from
        contains_append_ne _ _ _ hk]
      by_cases hc : e.2.contains k = true
      · simp only [hc, if_true, List.map_cons, ih, he]
      · simp only [hc, if_false, Bool.false_eq_true, ih]
    · rw [if_neg he]
      simp only [List.filter_cons]
      by_cases hc : e.2.contains k = true
      · simp only [hc, if_true, List.map_cons, ih]
      · simp only [hc, if_false, Bool.false_eq_true, ih]

theorem predsOf_gAppend_self (g : List (String × List String)) (dep A : String)
    (hnd : (gKeys g).Nodup) (hdep : dep ∈ gKeys g)
    (hnot : ¬ A ∈ succsOf g dep) :
    (predsOf (gAppend g dep A) A).length = (predsOf g A).length + 1 := by
  induction g with
  | nil => cases hdep
  | cons e rest ih =>
    unfold gKeys at hnd hdep
    rw [List.map_cons, List.nodup_cons] at hnd
    obtain ⟨hout, hrest⟩ := hnd
    by_cases he : e.1 = dep
    · -- the head is the (unique) `dep` entry
      have hnotc : ¬ e.2.contains A = true := by
        intro hc
        apply hnot
        unfold succsOf gGet
        rw [List.find?_cons_of_pos _ (by simp [he])]
        simpa using hc
      have hrestid : gAppend rest dep A = rest :=
        gAppend_not_mem rest dep A (fun hm => hout (he ▸ hm))
      unfold predsOf gAppend
      rw [List.map_cons, if_pos he]
      simp only [List.filter_cons]
      rw [show ((e.2 ++ [A]).contains A) = true by simp]
      simp only [hnotc, if_true, if_false, Bool.false_eq_true]
      have hrestid2 :
          rest.map (fun e => if e.1 = dep then (dep, e.2 ++ [A]) else e) = rest := by
        have := hrestid
        unfold gAppend at this
        exact this
      rw [hrestid2, List.map_cons, List.length_cons]
    · have hsucc : succsOf (e :: rest) dep = succsOf rest dep := by
        unfold succsOf gGet
        rw [List.find?_cons_of_neg _ (by simp [he])]
      have hdep2 : dep ∈ gKeys rest := by
        rcases List.mem_cons.mp hdep with h1 | h2
        · exact absurd h1.symm he
        · exact h2
      have ihr := ih hrest hdep2 (fun hm => hnot (hsucc ▸ hm))
      unfold predsOf gAppend at ihr ⊢
      rw [List.map_cons, if_neg he]
      simp only [List.filter_cons]
      by_cases hc : e.2.contains A = true
      · simp only [hc, if_true, List.map_cons, List.length_cons, ihr]
      · simp only [hc, if_false, Bool.false_eq_true, ihr]

theorem mem_of_nodup_subset_length (l l2 : List String) (hnd : l.Nodup)
    (hsub : ∀ x ∈ l, x ∈ l2) (hlen : l2.length ≤ l.length) :
    ∀ x ∈ l2, x ∈ l := by
  intro x hx
  by_contra hxl
  have hsub2 : l ⊆ l2.erase x := by
    intro y hy
    have hne : y ≠ x := fun he => hxl (by rw [← he]; exact hy)
    exact (List.mem_erase_of_ne hne).mpr (hsub y hy)
  have hle : l.length ≤ (l2.erase x).length :=
    (hnd.subperm hsub2).length_le
  rw [List.length_erase_of_mem hx] at hle
  have hpos : 0 < l2.length := List.length_pos_of_mem hx
  omega

theorem mem_filterZero_iff (d : List (String × Int))
    (hnd : (dKeys d).Nodup) (k : String) :
    k ∈ (d.filter (fun e => e.2 = 0)).map (fun e => e.1) ↔
      k ∈ dKeys d ∧ dGet d k = 0 := by
  induction d with
  | nil => simp [dKeys, dGet]
  | cons e rest ih =>
    unfold dKeys at hnd ⊢
    rw [List.map_cons, List.nodup_cons] at hnd
    obtain ⟨hout, hrest⟩ := hnd
    have ihr := ih hrest
    rw [List.map_cons]
    by_cases hk : e.1 = k
    · have hget : dGet (e :: rest) k = e.2 := by
        unfold dGet
        rw [List.find?_cons_of_pos _ (by simp [hk])]
        rfl
      by_cases hz : e.2 = 0
      · rw [List.filter_cons_of_pos (by simp [hz]), List.map_cons]
        constructor
        · intro _
          exact ⟨List.mem_cons.mpr (Or.inl hk.symm), by rw [hget]; exact hz⟩
        · intro _
          exact List.mem_cons.mpr (Or.inl hk.symm)
      · rw [List.filter_cons_of_neg (by simp [hz])]
        constructor
        · intro h
          exfalso
          obtain ⟨e2, he2, hk2⟩ := List.mem_map.mp h
          refine hout ?_
          rw [hk]
          exact List.mem_map.mpr ⟨e2, List.mem_of_mem_filter he2, hk2⟩
        · rintro ⟨-, hg⟩
          rw [hget] at hg
          exact absurd hg hz
    · have hget : dGet (e :: rest) k = dGet rest k := by
        unfold dGet
        rw [List.find?_cons_of_neg _ (by simp [hk])]
      rw [hget]
      by_cases hz : e.2 = 0
      · rw [List.filter_cons_of_pos (by simp [hz]), List.map_cons]
        constructor
        · intro h
          rcases List.mem_cons.mp h with h1 | h2
          · exact absurd h1.symm hk
          · exact ⟨List.mem_cons_of_mem _ (ihr.mp h2).1, (ihr.mp h2).2⟩
        · rintro ⟨hm, hg⟩
          have hm2 : k ∈ dKeys rest := by
            rcases List.mem_cons.mp hm with h1 | h2
            · exact absurd h1.symm hk
            · exact h2
          exact List.mem_cons_of_mem _ (ihr.mpr ⟨hm2, hg⟩)
      · rw [List.filter_cons_of_neg (by simp [hz])]
        constructor
        · intro h
          exact ⟨List.mem_cons_of_mem _ (ihr.mp h).1, (ihr.mp h).2⟩
        · rintro ⟨hm, hg⟩
          have hm2 : k ∈ dKeys rest := by
            rcases List.mem_cons.mp hm with h1 | h2
            · exact absurd h1.symm hk
            · exact h2
          exact ihr.mpr ⟨hm2, hg⟩

/-! #### The neighbor fold of one Kahn iteration -/

theorem kahnFold_cons (n : String) (rest : List String)
    (d : List (String × Int)) (q : List String) :
    kahnFold (n :: rest) d q =
      kahnFold rest (dSet d n (dGet d n - 1))
        (if dGet d n - 1 = 0 then q ++ [n] else q) := by
  unfold kahnFold
  rw [List.foldl_cons]
  by_cases h0 : dGet d n - 1 = 0 <;> simp [h0]

theorem kahnFold_char :
    ∀ (l : List String) (d : List (String × Int)) (q : List String),
      l.Nodup →
      (∀ k, dGet (kahnFold l d q).1 k =
        if k ∈ l then dGet d k - 1 else dGet d k) ∧
      ((kahnFold l d q).2 = q ++ l.filter (fun k => dGet d k - 1 = 0)) := by
  intro l
  induction l with
  | nil =>
    intro d q _
    exact ⟨fun k => by simp [kahnFold], by simp [kahnFold]⟩
  | cons n rest ih =>
    intro d q hnd
    rw [List.nodup_cons] at hnd
    obtain ⟨hn, hrest⟩ := hnd
    rw [kahnFold_cons]
    obtain ⟨ihd, ihq⟩ := ih (dSet d n (dGet d n - 1))
      (if dGet d n - 1 = 0 then q ++ [n] else q) hrest
    constructor
    · intro k
      rw [ihd k]
      by_cases hkr : k ∈ rest
      · rw [if_pos hkr, if_pos (List.mem_cons_of_mem _ hkr),
          dGet_dSet]
        rw [if_neg (fun he => hn (by rw [← he]; exact hkr))]
      · by_cases hkn : k = n
        · subst hkn
          rw [if_neg hkr, if_pos (List.mem_cons_self _ _), dGet_dSet,
            if_pos rfl]
        · rw [if_neg hkr, if_neg (by
            intro hm
            rcases List.mem_cons.mp hm with h1 | h2
            · exact hkn h1
            · exact hkr h2), dGet_dSet, if_neg hkn]
    · rw [ihq]
      have hfilters : rest.filter
            (fun k => dGet (dSet d n (dGet d n - 1)) k - 1 = 0) =
          rest.filter (fun k => dGet d k - 1 = 0) := by
        apply List.filter_congr
        intro k hk
        rw [dGet_dSet, if_neg (fun he => hn (by rw [← he]; exact hk))]
      rw [hfilters]
      by_cases h0 : dGet d n - 1 = 0
      · rw [if_pos h0, List.filter_cons_of_pos (by simp [h0]),
          List.append_assoc]
        rfl
      · rw [if_neg h0, List.filter_cons_of_neg (by simp [h0])]

/-! #### Completeness of the queue loop on an acyclic graph -/

theorem complete_of_no_blocked (g : List (String × List String))
    (f : String → Nat)
    (hkeysnd : (gKeys g).Nodup)
    (hacycg : ∀ b a, a ∈ succsOf g b → f b < f a)
    (sorted : List String)
    (hIE : ∀ k ∈ gKeys g, unsortedPreds g sorted k = [] → k ∈ sorted) :
    ∀ x ∈ gKeys g, x ∈ sorted := by
  have main : ∀ n, ∀ x, x ∈ gKeys g → f x < n → x ∈ sorted := by
    intro n
    induction n with
    | zero => intro x _ h; omega
    | succ m ih =>
      intro x hx hfx
      by_contra hxs
      have hne : unsortedPreds g sorted x ≠ [] := fun he => hxs (hIE x hx he)
      obtain ⟨p, hp⟩ := List.exists_mem_of_ne_nil _ hne
      unfold unsortedPreds at hp
      obtain ⟨hpp, hpn⟩ := List.mem_filter.mp hp
      have hps : p ∉ sorted := by simpa using hpn
      have hkey : p ∈ gKeys g := mem_predsOf_keys g x p hpp
      have hsucc : x ∈ succsOf g p :=
        ((mem_predsOf_iff g hkeysnd p x).mp hpp).2
      have hflt : f p < f x := hacycg p x hsucc
      exact hps (ih p hkey (by omega))
  intro x hx
  exact main (f x + 1) x hx (by omega)

theorem length_le_one_of_nodup_const (l : List String) (c : String)
    (hnd : l.Nodup) (hall : ∀ p ∈ l, p = c) : l.length ≤ 1 := by
  cases l with
  | nil => simp
  | cons a rest =>
    cases rest with
    | nil => simp
    | cons b rest2 =>
      exfalso
      rw [List.nodup_cons] at hnd
      have ha := hall a (List.mem_cons_self _ _)
      have hb := hall b (List.mem_cons_of_mem _ (List.mem_cons_self _ _))
      exact hnd.1 (by rw [ha, hb]; exact List.mem_cons_self _ _)

/-- The Kahn queue loop: the invariants of parser.ts 939-950 propagate to
the final `sorted` list — it is duplicate-free, holds exactly the graph's
nodes, and places every predecessor before its successors. -/
theorem kahnLoop_correct (g : List (String × List String)) (f : String → Nat)
    (hkeysnd : (gKeys g).Nodup)
    (hsuccsub : ∀ e ∈ g, ∀ a ∈ e.2, a ∈ gKeys g)
    (hsuccnd : ∀ e ∈ g, e.2.Nodup)
    (hacycg : ∀ b a, a ∈ succsOf g b → f b < f a) :
    ∀ (fuel : Nat) (deg : List (String × Int)) (queue sorted : List String),
      (sorted ++ queue).Nodup →
      (∀ x ∈ sorted ++ queue, x ∈ gKeys g) →
      (∀ k ∈ gKeys g, dGet deg k = ((unsortedPreds g sorted k).length : Int)) →
      (∀ k ∈ queue, unsortedPreds g sorted k = []) →
      (∀ k ∈ gKeys g, unsortedPreds g sorted k = [] → k ∈ sorted ++ queue) →
      ((gKeys g).length ≤ sorted.length + fuel) →
      (∀ i a, sorted.get? i = some a → ∀ b ∈ predsOf g a,
        ∃ j, j < i ∧ sorted.get? j = some b) →
      ((kahnLoop g fuel deg queue sorted).1.Nodup ∧
       (∀ x ∈ (kahnLoop g fuel deg queue sorted).1, x ∈ gKeys g) ∧
       (∀ x ∈ gKeys g, x ∈ (kahnLoop g fuel deg queue sorted).1) ∧
       (∀ i a, (kahnLoop g fuel deg queue sorted).1.get? i = some a →
          ∀ b ∈ predsOf g a, ∃ j, j < i ∧
            (kahnLoop g fuel deg queue sorted).1.get? j = some b)) := by
  intro fuel
  induction fuel with
  | zero =>
    intro deg queue sorted hIA hIB hIC hID hIE hIG hIF
    simp only [kahnLoop]
    have hsortednd : sorted.Nodup := (List.nodup_append.mp hIA).1
    have hsortedsub : ∀ x ∈ sorted, x ∈ gKeys g :=
      fun x hx => hIB x (List.mem_append_left _ hx)
    exact ⟨hsortednd, hsortedsub,
      mem_of_nodup_subset_length sorted (gKeys g) hsortednd hsortedsub
        (by omega), hIF⟩
  | succ fuel ih =>
    intro deg queue sorted hIA hIB hIC hID hIE hIG hIF
    cases queue with
    | nil =>
      simp only [kahnLoop]
      have hsortednd : sorted.Nodup := (List.nodup_append.mp hIA).1
      have hsortedsub : ∀ x ∈ sorted, x ∈ gKeys g :=
        fun x hx => hIB x (List.mem_append_left _ hx)
      have hIE2 : ∀ k ∈ gKeys g, unsortedPreds g sorted k = [] → k ∈ sorted := by
        intro k hk hnil
        have := hIE k hk hnil
        simpa using this
      exact ⟨hsortednd, hsortedsub,
        complete_of_no_blocked g f hkeysnd hacycg sorted hIE2, hIF⟩
    | cons current queue =>
      simp only [kahnLoop]
      -- structural facts from the invariants
      have hA := List.nodup_append.mp hIA
      obtain ⟨hsortnd, hconsnd, hdisj⟩ := hA
      have hcq : current ∉ queue := (List.nodup_cons.mp hconsnd).1
      have hqnd : queue.Nodup := (List.nodup_cons.mp hconsnd).2
      have hcs : current ∉ sorted := by
        intro hc
        exact hdisj hc (List.mem_cons_self _ _)
      have hcurkey : current ∈ gKeys g :=
        hIB current (List.mem_append_right _ (List.mem_cons_self _ _))
      have hsnd : (succsOf g current).Nodup := by
        unfold succsOf gGet
        cases hf : g.find? (fun e => e.1 = current) with
        | none => simp
        | some e =>
          exact hsuccnd e (List.mem_of_find?_eq_some hf)
      have hssub : ∀ a ∈ succsOf g current, a ∈ gKeys g := by
        intro a ha
        obtain ⟨e, he, -, hae⟩ := mem_succsOf_entry g current a ha
        exact hsuccsub e he a hae
      obtain ⟨hd, hq⟩ := kahnFold_char (succsOf g current) deg queue hsnd
      have hlink : ∀ k, (k ∈ succsOf g current ↔
          current ∈ unsortedPreds g sorted k) := by
        intro k
        unfold unsortedPreds
        rw [List.mem_filter]
        constructor
        · intro hk
          exact ⟨(mem_predsOf_iff g hkeysnd current k).mpr ⟨hcurkey, hk⟩,
            by simp [hcs]⟩
        · rintro ⟨hp, -⟩
          exact ((mem_predsOf_iff g hkeysnd current k).mp hp).2
      have hupnd : ∀ k, (unsortedPreds g sorted k).Nodup := by
        intro k
        unfold unsortedPreds
        exact (predsOf_nodup g hkeysnd k).filter _
      -- the seven invariants after one iteration
      have hIC2 : ∀ k ∈ gKeys g,
          dGet (kahnFold (succsOf g current) deg queue).1 k =
            ((unsortedPreds g (sorted ++ [current]) k).length : Int) := by
        intro k hk
        rw [hd k, unsortedPreds_append,
          length_filter_ne_of_nodup _ (hupnd k) current]
        by_cases hks : k ∈ succsOf g current
        · rw [if_pos hks, if_pos ((hlink k).mp hks), hIC k hk]
          have hpos : 0 < (unsortedPreds g sorted k).length :=
            List.length_pos_of_mem ((hlink k).mp hks)
          omega
        · rw [if_neg hks, if_neg (fun hc => hks ((hlink k).mpr hc)), hIC k hk]
      have hfiltmem : ∀ k ∈ (succsOf g current).filter
          (fun k => dGet deg k - 1 = 0), k ∈ succsOf g current ∧ dGet deg k = 1 := by
        intro k hk
        obtain ⟨hks, hdeg⟩ := List.mem_filter.mp hk
        have := of_decide_eq_true hdeg
        exact ⟨hks, by omega⟩
      have huP_single : ∀ k, k ∈ succsOf g current → dGet deg k = 1 →
          unsortedPreds g sorted k = [current] := by
        intro k hks hdeg
        have hkk : k ∈ gKeys g := hssub k hks
        have hlen1 : (unsortedPreds g sorted k).length = 1 := by
          have := hIC k hkk
          omega
        obtain ⟨a, ha⟩ := List.length_eq_one.mp hlen1
        have hcur : current ∈ unsortedPreds g sorted k := (hlink k).mp hks
        rw [ha] at hcur ⊢
        rcases List.mem_singleton.mp hcur with rfl
        rfl
      have hID2 : ∀ k ∈ (kahnFold (succsOf g current) deg queue).2,
          unsortedPreds g (sorted ++ [current]) k = [] := by
        intro k hk
        rw [hq] at hk
        rw [unsortedPreds_append]
        rcases List.mem_append.mp hk with hk1 | hk2
        · rw [hID k (List.mem_cons_of_mem _ hk1)]
          rfl
        · obtain ⟨hks, hdeg⟩ := hfiltmem k hk2
          rw [huP_single k hks hdeg]
          simp
      have hnewsub : ∀ k ∈ (succsOf g current).filter
          (fun k => dGet deg k - 1 = 0),
          k ∉ sorted ∧ k ≠ current ∧ k ∉ queue := by
        intro k hk
        obtain ⟨hks, hdeg⟩ := hfiltmem k hk
        have hcurp : current ∈ predsOf g k :=
          (mem_predsOf_iff g hkeysnd current k).mpr ⟨hcurkey, hks⟩
        refine ⟨?_, ?_, ?_⟩
        · intro hksorted
          obtain ⟨i, hig⟩ := List.get?_of_mem hksorted
          obtain ⟨j, -, hjg⟩ := hIF i k hig current hcurp
          exact hcs (List.get?_mem hjg)
        · intro hkc
          subst hkc
          exact absurd (hacycg k k hks) (by omega)
        · intro hkq
          have := hID k (List.mem_cons_of_mem _ hkq)
          have hcur : current ∈ unsortedPreds g sorted k := (hlink k).mp hks
          rw [this] at hcur
          cases hcur
      have hIA2 : ((sorted ++ [current]) ++
          (kahnFold (succsOf g current) deg queue).2).Nodup := by
        rw [hq]
        have hshape : (sorted ++ [current]) ++ (queue ++
            (succsOf g current).filter (fun k => dGet deg k - 1 = 0)) =
            (sorted ++ current :: queue) ++
              (succsOf g current).filter (fun k => dGet deg k - 1 = 0) := by
          rw [← List.append_assoc]
          rw [List.append_cons sorted current queue]
        rw [hshape]
        rw [List.nodup_append]
        refine ⟨hIA, hsnd.filter _, ?_⟩
        intro x hx hxf
        obtain ⟨hns, hnc, hnq⟩ := hnewsub x hxf
        rcases List.mem_append.mp hx with h1 | h2
        · exact hns h1
        · rcases List.mem_cons.mp h2 with rfl | h3
          · exact hnc rfl
          · exact hnq h3
      have hIB2 : ∀ x ∈ (sorted ++ [current]) ++
          (kahnFold (succsOf g current) deg queue).2, x ∈ gKeys g := by
        rw [hq]
        intro x hx
        rcases List.mem_append.mp hx with h1 | h2
        · rcases List.mem_append.mp h1 with h3 | h4
          · exact hIB x (List.mem_append_left _ h3)
          · rcases List.mem_singleton.mp h4 with rfl
            exact hcurkey
        · rcases List.mem_append.mp h2 with h3 | h4
          · exact hIB x (List.mem_append_right _ (List.mem_cons_of_mem _ h3))
          · exact hssub x (List.mem_of_mem_filter h4)
      have hIE2 : ∀ k ∈ gKeys g, unsortedPreds g (sorted ++ [current]) k = [] →
          k ∈ (sorted ++ [current]) ++
            (kahnFold (succsOf g current) deg queue).2 := by
        rw [hq]
        intro k hk hnil
        rw [unsortedPreds_append] at hnil
        by_cases h0 : unsortedPreds g sorted k = []
        · have hmem := hIE k hk h0
          rcases List.mem_append.mp hmem with h1 | h2
          · exact List.mem_append_left _ (List.mem_append_left _ h1)
          · rcases List.mem_cons.mp h2 with rfl | h3
            · exact List.mem_append_left _
                (List.mem_append_right _ (List.mem_singleton_self _))
            · exact List.mem_append_right _ (List.mem_append_left _ h3)
        · have hall : ∀ p ∈ unsortedPreds g sorted k, p = current := by
            intro p hp
            by_contra hpc
            have hmem2 : p ∈ (unsortedPreds g sorted k).filter
                (fun p => !(decide (p = current))) :=
              List.mem_filter.mpr ⟨hp, by simp [hpc]⟩
            rw [hnil] at hmem2
            cases hmem2
          obtain ⟨p, hp⟩ := List.exists_mem_of_ne_nil _ h0
          have hpc := hall p hp
          rw [hpc] at hp
          have hks : k ∈ succsOf g current := (hlink k).mpr hp
          have hlen : (unsortedPreds g sorted k).length = 1 := by
            have h1 : 0 < (unsortedPreds g sorted k).length :=
              List.length_pos_of_mem hp
            have h2 := length_le_one_of_nodup_const _ current (hupnd k) hall
            omega
          have hdeg1 : dGet deg k = 1 := by
            rw [hIC k hk, hlen]
            rfl
          exact List.mem_append_right _ (List.mem_append_right _
            (List.mem_filter.mpr ⟨hks, by simp [hdeg1]⟩))
      have hIG2 : (gKeys g).length ≤ (sorted ++ [current]).length + fuel := by
        rw [List.length_append, List.length_singleton]
        omega
      have hIF2 : ∀ i a, (sorted ++ [current]).get? i = some a →
          ∀ b ∈ predsOf g a, ∃ j, j < i ∧
            (sorted ++ [current]).get? j = some b := by
        intro i a hia b hb
        by_cases hi : i < sorted.length
        · rw [List.get?_append hi] at hia
          obtain ⟨j, hj, hjg⟩ := hIF i a hia b hb
          exact ⟨j, hj, by
            rw [List.get?_append (by omega)]
            exact hjg⟩
        · have hge : sorted.length ≤ i := by omega
          rw [List.get?_append_right hge] at hia
          rcases hmi : i - sorted.length with _ | m
          · rw [hmi] at hia
            rw [List.get?_cons_zero] at hia
            have ha : a = current := by
              injection hia with hh
              exact hh.symm
            subst ha
            have hbs : b ∈ sorted := by
              refine filter_eq_nil_all (predsOf g a) sorted ?_ b hb
              exact hID a (List.mem_cons_self _ _)
            obtain ⟨j, hjg⟩ := List.get?_of_mem hbs
            obtain ⟨hj, -⟩ := List.get?_eq_some.mp hjg
            refine ⟨j, by omega, ?_⟩
            rw [List.get?_append hj]
            exact hjg
          · rw [hmi] at hia
            rw [List.get?_cons_succ, List.get?_nil] at hia
            cases hia
      exact ih (kahnFold (succsOf g current) deg queue).1
        (kahnFold (succsOf g current) deg queue).2 (sorted ++ [current])
        hIA2 hIB2 hIC2 hID2 hIE2 hIG2 hIF2

/-! #### Characterizing `addDepEdges` -/

/-- The joint invariant of the edge-insertion fold (parser.ts 917-928):
keys are fixed, successor lists are duplicate-free with node ends, and the
in-degree of each node equals its predecessor count. -/
def EdgeInv (K : List String)
    (gd : List (String × List String) × List (String × Int)) : Prop :=
  gKeys gd.1 = K ∧ dKeys gd.2 = K ∧
  (∀ e ∈ gd.1, e.2.Nodup ∧ ∀ a ∈ e.2, a ∈ K) ∧
  (∀ k, dGet gd.2 k = ((predsOf gd.1 k).length : Int))

theorem gGet_of_mem_nodup (g : List (String × List String))
    (hnd : (gKeys g).Nodup) (e : String × List String) (he : e ∈ g) :
    gGet g e.1 = some e.2 := by
  induction g with
  | nil => cases he
  | cons e0 rest ih =>
    unfold gKeys at hnd
    rw [List.map_cons, List.nodup_cons] at hnd
    obtain ⟨hout, hrest⟩ := hnd
    rcases List.mem_cons.mp he with rfl | hmem
    · unfold gGet
      rw [List.find?_cons_of_pos _ (by simp)]
      rfl
    · have hne : ¬ e0.1 = e.1 := by
        intro hh
        exact hout (List.mem_map.mpr ⟨e, hmem, hh.symm⟩)
      unfold gGet
      rw [List.find?_cons_of_neg _ (by simp only [decide_eq_true_eq]; exact hne)]
      exact ih hrest hmem

theorem addEdge_inv (K : List String) (hKnd : K.Nodup) (importing : String)
    (himp : importing ∈ K)
    (gd : List (String × List String) × List (String × Int)) (dep : String)
    (hinv : EdgeInv K gd) : EdgeInv K (addEdge importing gd dep) := by
  obtain ⟨hg, hd, hent, hdeg⟩ := hinv
  unfold addEdge
  cases hget : gGet gd.1 dep with
  | none => exact ⟨hg, hd, hent, hdeg⟩
  | some succs =>
    show EdgeInv K (if succs.contains importing = true then gd
      else (gAppend gd.1 dep importing,
            dSet gd.2 importing (dGet gd.2 importing + 1)))
    by_cases hc : succs.contains importing
    · rw [if_pos hc]
      exact ⟨hg, hd, hent, hdeg⟩
    · rw [if_neg hc]
      have hdepmem : dep ∈ gKeys gd.1 := by
        rw [← gGet_isSome_iff, hget]
        rfl
      have hnotm : ¬ importing ∈ succsOf gd.1 dep := by
        unfold succsOf
        rw [hget]
        intro hm
        exact hc (by simpa using hm)
      refine ⟨by rw [gKeys_gAppend, hg], ?_, ?_, ?_⟩
      · show dKeys (dSet gd.2 importing (dGet gd.2 importing + 1)) = K
        rw [dKeys_dSet_mem _ _ _ (by rw [hd]; exact himp), hd]
      · show ∀ e ∈ gAppend gd.1 dep importing, _
        intro e2 he2
        unfold gAppend at he2
        obtain ⟨e, he, hmap⟩ := List.mem_map.mp he2
        by_cases hedep : e.1 = dep
        · rw [if_pos hedep] at hmap
          have hesucc : e.2 = succs := by
            have := gGet_of_mem_nodup gd.1 (hg ▸ hKnd) e he
            rw [hedep, hget] at this
            exact (Option.some.inj this).symm
          subst hmap
          constructor
          · show (e.2 ++ [importing]).Nodup
            rw [List.nodup_append]
            refine ⟨(hent e he).1, List.nodup_singleton _, ?_⟩
            intro x hx hximp
            rw [List.mem_singleton] at hximp
            subst hximp
            rw [hesucc] at hx
            exact hc (by simpa using hx)
          · show ∀ a ∈ e.2 ++ [importing], a ∈ K
            intro a ha
            rcases List.mem_append.mp ha with h1 | h2
            · exact (hent e he).2 a h1
            · rw [List.mem_singleton] at h2
              subst h2
              exact himp
        · rw [if_neg hedep] at hmap
          subst hmap
          exact hent e he
      · intro k
        rw [dGet_dSet]
        by_cases hki : k = importing
        · subst hki
          rw [if_pos rfl, hdeg k,
            show (predsOf (gAppend gd.1 dep k) k).length =
              (predsOf gd.1 k).length + 1 from
              predsOf_gAppend_self gd.1 dep k (hg ▸ hKnd) hdepmem hnotm]
          push_cast
          ring
        · rw [if_neg hki, hdeg k, predsOf_gAppend_ne gd.1 dep importing k hki]

theorem addEdge_mono (importing : String)
    (gd : List (String × List String) × List (String × Int)) (dep : String)
    (b a : String) (h : a ∈ succsOf gd.1 b) :
    a ∈ succsOf (addEdge importing gd dep).1 b := by
  unfold addEdge
  cases hget : gGet gd.1 dep with
  | none => exact h
  | some succs =>
    show a ∈ succsOf (if succs.contains importing = true then gd
      else (gAppend gd.1 dep importing,
            dSet gd.2 importing (dGet gd.2 importing + 1))).1 b
    by_cases hc : succs.contains importing
    · rw [if_pos hc]
      exact h
    · rw [if_neg hc]
      show a ∈ succsOf (gAppend gd.1 dep importing) b
      unfold succsOf at h ⊢
      rw [gGet_gAppend]
      by_cases hb : b = dep
      · rw [if_pos hb, hget]
        rw [hb, hget] at h
        show a ∈ succs ++ [importing]
        exact List.mem_append_left _ h
      · rw [if_neg hb]
        exact h

theorem addEdge_rev (importing : String)
    (gd : List (String × List String) × List (String × Int)) (dep : String)
    (b a : String) (h : a ∈ succsOf (addEdge importing gd dep).1 b) :
    a ∈ succsOf gd.1 b ∨ (a = importing ∧ b = dep) := by
  unfold addEdge at h
  cases hget : gGet gd.1 dep with
  | none =>
    rw [hget] at h
    exact Or.inl h
  | some succs =>
    rw [hget] at h
    replace h : a ∈ succsOf (if succs.contains importing = true then gd
      else (gAppend gd.1 dep importing,
            dSet gd.2 importing (dGet gd.2 importing + 1))).1 b := h
    by_cases hc : succs.contains importing
    · rw [if_pos hc] at h
      exact Or.inl h
    · rw [if_neg hc] at h
      replace h : a ∈ succsOf (gAppend gd.1 dep importing) b := h
      unfold succsOf at h ⊢
      rw [gGet_gAppend] at h
      by_cases hb : b = dep
      · rw [if_pos hb, hget] at h
        replace h : a ∈ succs ++ [importing] := h
        rcases List.mem_append.mp h with h1 | h2
        · rw [hb, hget]
          exact Or.inl h1
        · rw [List.mem_singleton] at h2
          exact Or.inr ⟨h2, hb⟩
      · rw [if_neg hb] at h
        exact Or.inl h

theorem addEdge_covers (importing : String)
    (gd : List (String × List String) × List (String × Int)) (dep : String)
    (hdep : dep ∈ gKeys gd.1) :
    importing ∈ succsOf (addEdge importing gd dep).1 dep := by
  unfold addEdge
  cases hget : gGet gd.1 dep with
  | none =>
    exfalso
    have := (gGet_isSome_iff gd.1 dep).mpr hdep
    rw [hget] at this
    cases this
  | some succs =>
    show importing ∈ succsOf (if succs.contains importing = true then gd
      else (gAppend gd.1 dep importing,
            dSet gd.2 importing (dGet gd.2 importing + 1))).1 dep
    by_cases hc : succs.contains importing
    · rw [if_pos hc]
      unfold succsOf
      rw [hget]
      simpa using hc
    · rw [if_neg hc]
      show importing ∈ succsOf (gAppend gd.1 dep importing) dep
      unfold succsOf
      rw [gGet_gAppend, if_pos rfl, hget]
      simp

theorem addEdgeFold_inv (K : List String) (hKnd : K.Nodup) (importing : String)
    (himp : importing ∈ K) :
    ∀ (ds : List String) (gd), EdgeInv K gd →
      EdgeInv K (ds.foldl (addEdge importing) gd) := by
  intro ds
  induction ds with
  | nil => intro gd h; exact h
  | cons dep rest ih =>
    intro gd h
    rw [List.foldl_cons]
    exact ih _ (addEdge_inv K hKnd importing himp gd dep h)

theorem addEdgeFold_mono (importing : String) :
    ∀ (ds : List String) (gd) (b a : String), a ∈ succsOf gd.1 b →
      a ∈ succsOf (ds.foldl (addEdge importing) gd).1 b := by
  intro ds
  induction ds with
  | nil => intro gd b a h; exact h
  | cons dep rest ih =>
    intro gd b a h
    rw [List.foldl_cons]
    exact ih _ b a (addEdge_mono importing gd dep b a h)

theorem addEdgeFold_rev (importing : String) :
    ∀ (ds : List String) (gd) (b a : String),
      a ∈ succsOf (ds.foldl (addEdge importing) gd).1 b →
      a ∈ succsOf gd.1 b ∨ (a = importing ∧ b ∈ ds) := by
  intro ds
  induction ds with
  | nil => intro gd b a h; exact Or.inl h
  | cons dep rest ih =>
    intro gd b a h
    rw [List.foldl_cons] at h
    rcases ih _ b a h with h1 | ⟨h2, h3⟩
    · rcases addEdge_rev importing gd dep b a h1 with h4 | ⟨h5, h6⟩
      · exact Or.inl h4
      · exact Or.inr ⟨h5, h6 ▸ List.mem_cons_self _ _⟩
    · exact Or.inr ⟨h2, List.mem_cons_of_mem _ h3⟩

theorem addEdgeFold_covers (K : List String) (hKnd : K.Nodup)
    (importing : String) (himp : importing ∈ K) :
    ∀ (ds : List String) (gd), EdgeInv K gd →
      ∀ dep ∈ ds, dep ∈ K →
        importing ∈ succsOf (ds.foldl (addEdge importing) gd).1 dep := by
  intro ds
  induction ds with
  | nil => intro gd _ dep hdep; cases hdep
  | cons dep0 rest ih =>
    intro gd hinv dep hdep hdepK
    rw [List.foldl_cons]
    rcases List.mem_cons.mp hdep with rfl | hmem
    · apply addEdgeFold_mono
      exact addEdge_covers importing gd dep (by rw [hinv.1]; exact hdepK)
    · exact ih _ (addEdge_inv K hKnd importing himp gd dep0 hinv) dep hmem hdepK

theorem addEntry_inv (K : List String) (hKnd : K.Nodup)
    (gd : List (String × List String) × List (String × Int))
    (entry : String × List String) (hinv : EdgeInv K gd) :
    EdgeInv K (addEntry gd entry) := by
  unfold addEntry
  by_cases hs : (gGet gd.1 entry.1).isSome = true
  · rw [if_pos hs]
    have himp : entry.1 ∈ K := by
      rw [← hinv.1]
      exact (gGet_isSome_iff gd.1 entry.1).mp hs
    exact addEdgeFold_inv K hKnd entry.1 himp entry.2 gd hinv
  · rw [if_neg hs]
    exact hinv

theorem addEntry_mono
    (gd : List (String × List String) × List (String × Int))
    (entry : String × List String) (b a : String)
    (h : a ∈ succsOf gd.1 b) : a ∈ succsOf (addEntry gd entry).1 b := by
  unfold addEntry
  by_cases hs : (gGet gd.1 entry.1).isSome = true
  · rw [if_pos hs]
    exact addEdgeFold_mono entry.1 entry.2 gd b a h
  · rw [if_neg hs]
    exact h

theorem addEntry_rev
    (gd : List (String × List String) × List (String × Int))
    (entry : String × List String) (b a : String)
    (h : a ∈ succsOf (addEntry gd entry).1 b) :
    a ∈ succsOf gd.1 b ∨ (a = entry.1 ∧ b ∈ entry.2) := by
  unfold addEntry at h
  by_cases hs : (gGet gd.1 entry.1).isSome = true
  · rw [if_pos hs] at h
    exact addEdgeFold_rev entry.1 entry.2 gd b a h
  · rw [if_neg hs] at h
    exact Or.inl h

theorem addDepEdges_inv (K : List String) (hKnd : K.Nodup) :
    ∀ (deps : List (String × List String)) (gd), EdgeInv K gd →
      EdgeInv K (addDepEdges gd deps) := by
  intro deps
  induction deps with
  | nil => intro gd h; exact h
  | cons entry rest ih =>
    intro gd h
    unfold addDepEdges
    rw [List.foldl_cons]
    exact ih _ (addEntry_inv K hKnd gd entry h)

theorem addDepEdges_mono :
    ∀ (deps : List (String × List String)) (gd) (b a : String),
      a ∈ succsOf gd.1 b → a ∈ succsOf (addDepEdges gd deps).1 b := by
  intro deps
  induction deps with
  | nil => intro gd b a h; exact h
  | cons entry rest ih =>
    intro gd b a h
    unfold addDepEdges
    rw [List.foldl_cons]
    exact ih _ b a (addEntry_mono gd entry b a h)

theorem addDepEdges_rev :
    ∀ (deps : List (String × List String)) (gd) (b a : String),
      a ∈ succsOf (addDepEdges gd deps).1 b →
      a ∈ succsOf gd.1 b ∨ ∃ ds, (a, ds) ∈ deps ∧ b ∈ ds := by
  intro deps
  induction deps with
  | nil => intro gd b a h; exact Or.inl h
  | cons entry rest ih =>
    intro gd b a h
    unfold addDepEdges at h
    rw [List.foldl_cons] at h
    rcases ih _ b a h with h1 | ⟨ds, hds, hbds⟩
    · rcases addEntry_rev gd entry b a h1 with h2 | ⟨h3, h4⟩
      · exact Or.inl h2
      · refine Or.inr ⟨entry.2, ?_, h4⟩
        rw [h3]
        exact List.mem_cons.mpr (Or.inl rfl)
    · exact Or.inr ⟨ds, List.mem_cons_of_mem _ hds, hbds⟩

theorem addDepEdges_covers (K : List String) (hKnd : K.Nodup) :
    ∀ (deps : List (String × List String)) (gd), EdgeInv K gd →
      ∀ A ds B, (A, ds) ∈ deps → B ∈ ds → A ∈ K → B ∈ K →
        A ∈ succsOf (addDepEdges gd deps).1 B := by
  intro deps
  induction deps with
  | nil => intro gd _ A ds B hds; cases hds
  | cons entry rest ih =>
    intro gd hinv A ds B hds hB hAK hBK
    unfold addDepEdges
    rw [List.foldl_cons]
    rcases List.mem_cons.mp hds with rfl | hmem
    · have hsome : (gGet gd.1 A).isSome = true :=
        (gGet_isSome_iff gd.1 A).mpr (by rw [hinv.1]; exact hAK)
      have hcov : A ∈ succsOf (addEntry gd (A, ds)).1 B := by
        unfold addEntry
        rw [if_pos hsome]
        exact addEdgeFold_covers K hKnd A hAK ds gd hinv B hB hBK
      exact addDepEdges_mono rest _ B A hcov
    · exact ih _ (addEntry_inv K hKnd gd entry hinv) A ds B hmem hB hAK hBK

/-! #### The initial graph and in-degree maps -/

theorem succsOf_init (importPaths : List String) (b : String) :
    succsOf (importPaths.map (fun p => (p, ([] : List String)))) b = [] := by
  unfold succsOf gGet
  cases hf : (importPaths.map (fun p => (p, ([] : List String)))).find?
      (fun e => e.1 = b) with
  | none => rfl
  | some e =>
    have he := List.mem_of_find?_eq_some hf
    obtain ⟨p, -, hp⟩ := List.mem_map.mp he
    rw [← hp]
    rfl

theorem predsOf_init (importPaths : List String) (k : String) :
    predsOf (importPaths.map (fun p => (p, ([] : List String)))) k = [] := by
  unfold predsOf
  rw [List.filter_eq_nil.mpr, List.map_nil]
  intro e he
  obtain ⟨p, -, hp⟩ := List.mem_map.mp he
  rw [← hp]
  simp

theorem dGet_init (importPaths : List String) (k : String) :
    dGet (importPaths.map (fun p => (p, (0 : Int)))) k = 0 := by
  unfold dGet
  cases hf : (importPaths.map (fun p => (p, (0 : Int)))).find?
      (fun e => e.1 = k) with
  | none => rfl
  | some e =>
    have he := List.mem_of_find?_eq_some hf
    obtain ⟨p, -, hp⟩ := List.mem_map.mp he
    rw [← hp]
    rfl

theorem edgeInv_init (importPaths : List String) :
    EdgeInv importPaths
      (importPaths.map (fun p => (p, ([] : List String))),
       importPaths.map (fun p => (p, (0 : Int)))) := by
  refine ⟨?_, ?_, ?_, ?_⟩
  · unfold gKeys
    rw [List.map_map]
    exact List.map_id importPaths
  · unfold dKeys
    rw [List.map_map]
    exact List.map_id importPaths
  · intro e he
    obtain ⟨p, -, hp⟩ := List.mem_map.mp he
    rw [← hp]
    exact ⟨List.nodup_nil, by intro a ha; cases ha⟩
  · intro k
    rw [dGet_init, predsOf_init]
    rfl

/-! #### Result assembly: the dedup fold and the leftover filter -/

theorem dedupFold_extend (P : List String) :
    ∀ (l acc : List String), l.Nodup → (∀ x ∈ l, x ∈ P) →
      (∀ x ∈ l, x ∉ acc) →
      l.foldl (fun acc r => if P.contains r && !acc.contains r
        then acc ++ [r] else acc) acc = acc ++ l := by
  intro l
  induction l with
  | nil => intro acc _ _ _; simp
  | cons r rest ih =>
    intro acc hnd hsub hdis
    rw [List.nodup_cons] at hnd
    rw [List.foldl_cons]
    have hc1 : P.contains r = true :=
      List.elem_eq_true_of_mem (hsub r (List.mem_cons_self _ _))
    have hc2 : acc.contains r = false := by
      cases hb : acc.contains r
      · rfl
      · exact absurd (List.elem_iff.mp hb) (hdis r (List.mem_cons_self _ _))
    rw [if_pos (by rw [hc1, hc2]; rfl)]
    have hdis2 : ∀ x ∈ rest, x ∉ acc ++ [r] := by
      intro x hx hxa
      rcases List.mem_append.mp hxa with h1 | h2
      · exact hdis x (List.mem_cons_of_mem _ hx) h1
      · rw [List.mem_singleton] at h2
        exact hnd.1 (by rw [← h2]; exact hx)
    rw [ih (acc ++ [r]) hnd.2 (fun x hx => hsub x (List.mem_cons_of_mem _ hx))
      hdis2, List.append_assoc, List.singleton_append]

theorem dedupFoldAux :
    ∀ (xs acc : List String), acc.Nodup →
      ((xs.foldl (fun acc p => if acc.contains p then acc else acc ++ [p])
        acc).Nodup ∧
       (∀ x, x ∈ xs.foldl (fun acc p => if acc.contains p then acc
          else acc ++ [p]) acc ↔ x ∈ acc ∨ x ∈ xs)) := by
  intro xs
  induction xs with
  | nil => intro acc h; exact ⟨h, fun x => by simp⟩
  | cons p rest ih =>
    intro acc hacc
    rw [List.foldl_cons]
    by_cases hp : acc.contains p = true
    · rw [if_pos hp]
      obtain ⟨h1, h2⟩ := ih acc hacc
      refine ⟨h1, fun x => ?_⟩
      rw [h2 x]
      have hpm : p ∈ acc := List.elem_iff.mp hp
      constructor
      · rintro (h | h)
        · exact Or.inl h
        · exact Or.inr (List.mem_cons_of_mem _ h)
      · rintro (h | h)
        · exact Or.inl h
        · rcases List.mem_cons.mp h with rfl | h3
          · exact Or.inl hpm
          · exact Or.inr h3
    · rw [if_neg hp]
      have hpna : p ∉ acc := fun hm => hp (List.elem_eq_true_of_mem hm)
      have hacc2 : (acc ++ [p]).Nodup := by
        rw [List.nodup_append]
        refine ⟨hacc, List.nodup_singleton _, ?_⟩
        intro x hx hxp
        rw [List.mem_singleton] at hxp
        exact hpna (by rw [← hxp]; exact hx)
      obtain ⟨h1, h2⟩ := ih (acc ++ [p]) hacc2
      refine ⟨h1, fun x => ?_⟩
      rw [h2 x]
      constructor
      · rintro (h | h)
        · rcases List.mem_append.mp h with h3 | h4
          · exact Or.inl h3
          · rw [List.mem_singleton] at h4
            exact Or.inr (List.mem_cons.mpr (Or.inl h4))
        · exact Or.inr (List.mem_cons_of_mem _ h)
      · rintro (h | h)
        · exact Or.inl (List.mem_append_left _ h)
        · rcases List.mem_cons.mp h with rfl | h3
          · exact Or.inl (List.mem_append_right _ (List.mem_singleton_self _))
          · exact Or.inr h3

theorem dedupKeepFirst_nodup (xs : List String) : (dedupKeepFirst xs).Nodup :=
  (dedupFoldAux xs [] List.nodup_nil).1

theorem mem_dedupKeepFirst (xs : List String) (x : String) :
    x ∈ dedupKeepFirst xs ↔ x ∈ xs := by
  unfold dedupKeepFirst
  rw [(dedupFoldAux xs [] List.nodup_nil).2 x]
  simp

/-! #### The tie-break discipline on an edge-free graph -/

theorem kahnLoop_no_edges (g : List (String × List String))
    (hsucc : ∀ b, succsOf g b = []) :
    ∀ (q : List String) (fuel : Nat) (d : List (String × Int))
      (s : List String), q.length ≤ fuel →
      (kahnLoop g fuel d q s).1 = s ++ q := by
  intro q
  induction q with
  | nil =>
    intro fuel d s _
    cases fuel <;> simp [kahnLoop]
  | cons c rest ih =>
    intro fuel d s hf
    cases fuel with
    | zero =>
      exfalso
      rw [List.length_cons] at hf
      omega
    | succ fuel2 =>
      simp only [kahnLoop]
      rw [show (gGet g c).getD [] = ([] : List String) from hsucc c]
      show (kahnLoop g fuel2 d rest (s ++ [c])).1 = s ++ c :: rest
      have hle : rest.length ≤ fuel2 := by
        rw [List.length_cons] at hf
        omega
      rw [ih fuel2 d (s ++ [c]) hle, List.append_assoc, List.singleton_append]

theorem topologicalSort_no_deps (importPaths : List String)
    (hnd : importPaths.Nodup) :
    topologicalSort importPaths [] = importPaths := by
  simp only [topologicalSort, addDepEdges, List.foldl_nil]
  have hq : ((importPaths.map (fun p => (p, (0 : Int)))).filter
      (fun e => e.2 = 0)).map (fun e => e.1) = importPaths := by
    rw [List.filter_eq_self.mpr, List.map_map]
    · exact List.map_id importPaths
    · intro e he
      obtain ⟨p, -, hp⟩ := List.mem_map.mp he
      rw [← hp]
      simp
  rw [hq]
  have hsorted : (kahnLoop (importPaths.map (fun p => (p, ([] : List String))))
      importPaths.length (importPaths.map (fun p => (p, (0 : Int))))
      importPaths []).1 = importPaths := by
    rw [kahnLoop_no_edges _ (succsOf_init importPaths) importPaths
      importPaths.length _ [] (Nat.le_refl _)]
    rfl
  rw [hsorted]
  rw [dedupFold_extend importPaths importPaths [] hnd (fun x hx => hx)
    (fun x _ hx => by cases hx)]
  rw [List.nil_append]
  rw [List.filter_eq_nil.mpr, List.append_nil]
  intro p hp
  simp [hp]

/-- `topologicalSort` (parser.ts 896-971) on a duplicate-free node list
whose dependency relation admits a topological numbering `f`: the result is
duplicate-free, holds exactly the nodes, and places every dependency before
its importer. -/
theorem topologicalSort_correct (importPaths : List String)
    (deps : List (String × List String)) (f : String → Nat)
    (hnd : importPaths.Nodup)
    (hacyc : ∀ A ds B, (A, ds) ∈ deps → B ∈ ds → f B < f A) :
    (topologicalSort importPaths deps).Nodup ∧
    (∀ x, x ∈ topologicalSort importPaths deps ↔ x ∈ importPaths) ∧
    (∀ A ds B, (A, ds) ∈ deps → B ∈ ds → A ∈ importPaths → B ∈ importPaths →
      ∃ i j, i < j ∧ (topologicalSort importPaths deps).get? i = some B ∧
        (topologicalSort importPaths deps).get? j = some A) := by
  have hinvInit := edgeInv_init importPaths
  have hinv :=
    addDepEdges_inv importPaths hnd deps _ hinvInit
  obtain ⟨hgK, hdK, hent, hdeg⟩ := hinv
  have hGnd : (gKeys (addDepEdges (importPaths.map (fun p => (p, ([] : List String))),
      importPaths.map (fun p => (p, (0 : Int)))) deps).1).Nodup := by
    rw [hgK]
    exact hnd
  have hDnd : (dKeys (addDepEdges (importPaths.map (fun p => (p, ([] : List String))),
      importPaths.map (fun p => (p, (0 : Int)))) deps).2).Nodup := by
    rw [hdK]
    exact hnd
  have hacycg : ∀ b a, a ∈ succsOf (addDepEdges
      (importPaths.map (fun p => (p, ([] : List String))),
       importPaths.map (fun p => (p, (0 : Int)))) deps).1 b → f b < f a := by
    intro b a h
    rcases addDepEdges_rev deps _ b a h with h1 | ⟨ds, hds, hbds⟩
    · have h2 : a ∈ succsOf (importPaths.map
        (fun p => (p, ([] : List String)))) b := h1
      rw [succsOf_init] at h2
      cases h2
    · exact hacyc a ds b hds hbds
  -- the initial state of the queue loop
  have hQmem : ∀ k, k ∈ ((addDepEdges (importPaths.map (fun p => (p, ([] : List String))),
        importPaths.map (fun p => (p, (0 : Int)))) deps).2.filter
        (fun e => e.2 = 0)).map (fun e => e.1) ↔
      k ∈ dKeys (addDepEdges (importPaths.map (fun p => (p, ([] : List String))),
        importPaths.map (fun p => (p, (0 : Int)))) deps).2 ∧
      dGet (addDepEdges (importPaths.map (fun p => (p, ([] : List String))),
        importPaths.map (fun p => (p, (0 : Int)))) deps).2 k = 0 :=
    fun k => mem_filterZero_iff _ hDnd k
  have hkahn := kahnLoop_correct
    (addDepEdges (importPaths.map (fun p => (p, ([] : List String))),
      importPaths.map (fun p => (p, (0 : Int)))) deps).1 f hGnd
    (fun e he a ha => by rw [hgK]; exact (hent e he).2 a ha)
    (fun e he => (hent e he).1)
    hacycg
    importPaths.length
    (addDepEdges (importPaths.map (fun p => (p, ([] : List String))),
      importPaths.map (fun p => (p, (0 : Int)))) deps).2
    (((addDepEdges (importPaths.map (fun p => (p, ([] : List String))),
      importPaths.map (fun p => (p, (0 : Int)))) deps).2.filter
      (fun e => e.2 = 0)).map (fun e => e.1))
    []
    (by
      rw [List.nil_append]
      have hsub : List.Sublist
          (((addDepEdges (importPaths.map (fun p => (p, ([] : List String))),
            importPaths.map (fun p => (p, (0 : Int)))) deps).2.filter
            (fun e => e.2 = 0)).map (fun e => e.1))
          ((addDepEdges (importPaths.map (fun p => (p, ([] : List String))),
            importPaths.map (fun p => (p, (0 : Int)))) deps).2.map
            (fun e => e.1)) :=
        List.Sublist.map _ (List.filter_sublist _)
      exact hDnd.sublist hsub)
    (by
      intro x hx
      rw [List.nil_append] at hx
      rw [hgK, ← hdK]
      exact ((hQmem x).mp hx).1)
    (by
      intro k _
      rw [unsortedPreds_nil]
      exact hdeg k)
    (by
      intro k hk
      rw [unsortedPreds_nil]
      have h0 := ((hQmem k).mp hk).2
      rw [hdeg k] at h0
      have : (predsOf (addDepEdges (importPaths.map (fun p => (p, ([] : List String))),
          importPaths.map (fun p => (p, (0 : Int)))) deps).1 k).length = 0 := by
        omega
      exact List.length_eq_zero.mp this)
    (by
      intro k hk hnil
      rw [List.nil_append]
      rw [unsortedPreds_nil] at hnil
      refine (hQmem k).mpr ⟨by rw [hdK, ← hgK]; exact hk, ?_⟩
      rw [hdeg k, hnil]
      rfl)
    (by
      rw [hgK, List.length_nil]
      omega)
    (by
      intro i a h
      rw [List.get?_nil] at h
      cases h)
  obtain ⟨Snd, Ssub, Scomp, Sord⟩ := hkahn
  -- the dedup fold is the identity on the loop's output
  have hsortsub : ∀ x ∈ (kahnLoop (addDepEdges
      (importPaths.map (fun p => (p, ([] : List String))),
       importPaths.map (fun p => (p, (0 : Int)))) deps).1 importPaths.length
      (addDepEdges (importPaths.map (fun p => (p, ([] : List String))),
       importPaths.map (fun p => (p, (0 : Int)))) deps).2
      (((addDepEdges (importPaths.map (fun p => (p, ([] : List String))),
       importPaths.map (fun p => (p, (0 : Int)))) deps).2.filter
        (fun e => e.2 = 0)).map (fun e => e.1)) []).1, x ∈ importPaths := by
    intro x hx
    rw [← hgK]
    exact Ssub x hx
  have hfold := dedupFold_extend importPaths _ [] Snd hsortsub
    (fun x _ hx => by cases hx)
  rw [List.nil_append] at hfold
  have hfilternil : importPaths.filter (fun p =>
      !((kahnLoop (addDepEdges
        (importPaths.map (fun p => (p, ([] : List String))),
         importPaths.map (fun p => (p, (0 : Int)))) deps).1 importPaths.length
        (addDepEdges (importPaths.map (fun p => (p, ([] : List String))),
         importPaths.map (fun p => (p, (0 : Int)))) deps).2
        (((addDepEdges (importPaths.map (fun p => (p, ([] : List String))),
         importPaths.map (fun p => (p, (0 : Int)))) deps).2.filter
          (fun e => e.2 = 0)).map (fun e => e.1)) []).1.contains p)) = [] := by
    rw [List.filter_eq_nil]
    intro p hp
    have hps : p ∈ (kahnLoop (addDepEdges
        (importPaths.map (fun p => (p, ([] : List String))),
         importPaths.map (fun p => (p, (0 : Int)))) deps).1 importPaths.length
        (addDepEdges (importPaths.map (fun p => (p, ([] : List String))),
         importPaths.map (fun p => (p, (0 : Int)))) deps).2
        (((addDepEdges (importPaths.map (fun p => (p, ([] : List String))),
         importPaths.map (fun p => (p, (0 : Int)))) deps).2.filter
          (fun e => e.2 = 0)).map (fun e => e.1)) []).1 :=
      Scomp p (by rw [hgK]; exact hp)
    simp [hps]
  have heq : topologicalSort importPaths deps =
      (kahnLoop (addDepEdges
        (importPaths.map (fun p => (p, ([] : List String))),
         importPaths.map (fun p => (p, (0 : Int)))) deps).1 importPaths.length
        (addDepEdges (importPaths.map (fun p => (p, ([] : List String))),
         importPaths.map (fun p => (p, (0 : Int)))) deps).2
        (((addDepEdges (importPaths.map (fun p => (p, ([] : List String))),
         importPaths.map (fun p => (p, (0 : Int)))) deps).2.filter
          (fun e => e.2 = 0)).map (fun e => e.1)) []).1 := by
    simp only [topologicalSort]
    rw [hfold, hfilternil, List.append_nil]
  rw [heq]
  refine ⟨Snd, ?_, ?_⟩
  · intro x
    constructor
    · intro h
      rw [← hgK]
      exact Ssub x h
    · intro h
      exact Scomp x (by rw [hgK]; exact h)
  · intro A ds B hds hB hA hBK
    have hedge : A ∈ succsOf (addDepEdges
        (importPaths.map (fun p => (p, ([] : List String))),
         importPaths.map (fun p => (p, (0 : Int)))) deps).1 B :=
      addDepEdges_covers importPaths hnd deps _ hinvInit A ds B hds hB hA hBK
    have hpred : B ∈ predsOf (addDepEdges
        (importPaths.map (fun p => (p, ([] : List String))),
         importPaths.map (fun p => (p, (0 : Int)))) deps).1 A :=
      (mem_predsOf_iff _ hGnd B A).mpr ⟨by rw [hgK]; exact hBK, hedge⟩
    have hAs := Scomp A (by rw [hgK]; exact hA)
    obtain ⟨j, hjg⟩ := List.get?_of_mem hAs
    obtain ⟨i, hij, hig⟩ := Sord j A hjg B hpred
    exact ⟨i, j, hij, hig, hjg⟩

/-- C5: the parser's reported import list is deduplicated and
topologically sorted — whenever config `A` imports config `B` (an entry
`(A, ds)` of the dependency map with `B ∈ ds`), `B` precedes `A`; the
hypothesis `f` is a topological numbering of the dependency relation (the
relation is acyclic), without which no topological order exists.  With no
dependency edges the result is exactly the deduplicated discovery order
(parser.ts 891-973). -/
theorem C5_import_topo_sort (imports : List String)
    (deps : List (String × List String)) (f : String → Nat)
    (hacyc : ∀ A ds B, (A, ds) ∈ deps → B ∈ ds → f B < f A) :
    (sortedImports imports deps).Nodup ∧
    (∀ x, x ∈ sortedImports imports deps ↔ x ∈ imports) ∧
    (∀ A ds B, (A, ds) ∈ deps → B ∈ ds → A ∈ imports → B ∈ imports →
      ∃ i j, i < j ∧ (sortedImports imports deps).get? i = some B ∧
        (sortedImports imports deps).get? j = some A) ∧
    (deps = [] → sortedImports imports deps = dedupKeepFirst imports) := by
  obtain ⟨h1, h2, h3⟩ := topologicalSort_correct (dedupKeepFirst imports) deps
    f (dedupKeepFirst_nodup imports) hacyc
  refine ⟨h1, ?_, ?_, ?_⟩
  · intro x
    rw [show (x ∈ sortedImports imports deps) ↔
        (x ∈ topologicalSort (dedupKeepFirst imports) deps) from Iff.rfl,
      h2 x, mem_dedupKeepFirst]
  · intro A ds B hds hB hA hBK
    exact h3 A ds B hds hB ((mem_dedupKeepFirst imports A).mpr hA)
      ((mem_dedupKeepFirst imports B).mpr hBK)
  · intro hdeps
    subst hdeps
    show topologicalSort (dedupKeepFirst imports) [] = dedupKeepFirst imports
    exact topologicalSort_no_deps _ (dedupKeepFirst_nodup imports)

/-- Topological numbering for the C5 witness. -/
def c5f : String → Nat := fun s => if s = "a" then 1 else 0

/-- Witness for C5 at a concrete input: `a` imports `b`, so the reported
list places `b` before `a`. -/
theorem C5_witness :
    (∀ A ds B, (A, ds) ∈ [("a", ["b"])] → B ∈ ds → c5f B < c5f A) ∧
    (sortedImports ["b", "a"] [("a", ["b"])]).Nodup ∧
    (∃ i j, i < j ∧
      (sortedImports ["b", "a"] [("a", ["b"])]).get? i = some "b" ∧
      (sortedImports ["b", "a"] [("a", ["b"])]).get? j = some "a") :=
  have hacyc : ∀ A ds B, (A, ds) ∈ [("a", ["b"])] → B ∈ ds →
      c5f B < c5f A := by
    intro A ds B hds hB
    rw [List.mem_singleton] at hds
    injection hds with h1 h2
    subst h1
    subst h2
    rw [List.mem_singleton] at hB
    subst hB
    decide
  ⟨hacyc,
   (C5_import_topo_sort ["b", "a"] [("a", ["b"])] c5f hacyc).1,
   (C5_import_topo_sort ["b", "a"] [("a", ["b"])] c5f hacyc).2.2.1
     "a" ["b"] "b" (by decide) (by decide) (by decide) (by decide)⟩

end Chous

